import Mathlib

/-!
# Reference-counted shared / weak handles

A shallow embedding of `control-block.h`, `control-block.cpp` and `shared-ptr.h`.

* The free store is a partial map from block identifiers to control blocks.  A block that was
  never allocated, or that has executed `delete this`, is absent; touching an absent block is
  undefined behaviour and is modelled by the result `none`.
* `size_t` counters are natural numbers reduced modulo `2 ^ 64` after every `++` / `--`.
  The theorems about runs of the state machine assume that the live handle objects, and one
  temporary, can be counted in a `size_t` at every state of the run (`Small`, `within`): a
  handle object occupies memory, so a 64-bit machine cannot hold more.
* Calls that leave the handle library (the deleter, the destructor of the managed value,
  `delete this`) are recorded in a chronological event log.  The deleter and the destructor
  of the managed value are opaque: they do not operate on the handles of the model.
* A handle is the pair of its two private fields.  Handle objects live in numbered slots of a
  `State`; a slot whose handle has been destroyed is `none`.
* Allocation is an input of the operation that allocates: the caller of the model says whether
  `new` succeeds.
* In the state machine the converting constructors are embedded at the instantiation `Q = T`,
  where `static_cast` is the identity on addresses; `shared_ptr.copy_conv` and
  `shared_ptr.move_conv` are the converting constructors for an arbitrary `static_cast`.
-/

namespace SharedPtr

/-- Raw addresses (`T*`).  The null pointer is the address `0`. -/
abbrev Addr := Nat

/-- The null pointer. -/
def nullptr : Addr := 0

/-- Arithmetic on `size_t` is modulo this number. -/
def SIZE_MOD : Nat := 18446744073709551616

/-- The two concrete control blocks: `regular_control_block<T, D>` with its fields `ptr` and
`deleter`, and `inplace_control_block<T>` with the address of its embedded `data`. -/
inductive block_kind where
  | regular (ptr : Addr) (deleter : Nat)
  | inplace (data : Addr)
deriving DecidableEq, Repr

/-- Fields of `class control_block`, together with the dynamic type of the block. -/
structure control_block where
  strong_counter : Nat
  weak_counter : Nat
  kind : block_kind
deriving DecidableEq, Repr

/-- Observable calls, in the order in which they happen. -/
inductive Event where
  | delete_object (b : Nat)
  | deleter (d : Nat) (p : Addr)
  | destructor (p : Addr)
  | delete_this (b : Nat)
deriving DecidableEq, Repr

/-- The free store of control blocks, the next fresh block identifier and the event log. -/
structure Heap where
  cells : Nat → Option control_block
  next : Nat
  log : List Event

/-- Overwrite (or, with `none`, free) the block stored at `b`. -/
def Heap.set_cell (h : Heap) (b : Nat) (c : Option control_block) : Heap :=
  { h with cells := Function.update h.cells b c }

/-- Append events to the log. -/
def Heap.emit (h : Heap) (es : List Event) : Heap :=
  { h with log := h.log ++ es }

/-- Outcome of an operation that may throw `std::bad_alloc`. -/
inductive Result (α : Type) where
  | ok (v : α)
  | bad_alloc
deriving DecidableEq, Repr

namespace control_block

/-- Method `control_block::use_count`. -/
def use_count (h : Heap) (b : Nat) : Option Nat :=
  match h.cells b with
  | none => none
  | some c => some c.strong_counter

/-- Method `control_block::inc_weak_counter`. -/
def inc_weak_counter (h : Heap) (b : Nat) : Option Heap :=
  match h.cells b with
  | none => none
  | some c =>
    some (h.set_cell b (some { c with weak_counter := (c.weak_counter + 1) % SIZE_MOD }))

/-- Method `control_block::inc_strong_counter`. -/
def inc_strong_counter (h : Heap) (b : Nat) : Option Heap :=
  match h.cells b with
  | none => none
  | some c =>
    inc_weak_counter
      (h.set_cell b (some { c with strong_counter := (c.strong_counter + 1) % SIZE_MOD })) b

/-- The virtual `delete_object`: `deleter(ptr)` for a regular block, `get_ptr()->~T()` for an
in-place block. -/
def delete_object (h : Heap) (b : Nat) : Option Heap :=
  match h.cells b with
  | none => none
  | some c =>
    match c.kind with
    | .regular p d => some (h.emit [.delete_object b, .deleter d p])
    | .inplace a => some (h.emit [.delete_object b, .destructor a])

/-- Method `control_block::dec_weak_counter`. -/
def dec_weak_counter (h : Heap) (b : Nat) : Option Heap :=
  match h.cells b with
  | none => none
  | some c =>
    if (c.weak_counter + SIZE_MOD - 1) % SIZE_MOD = 0 then
      some ((h.set_cell b none).emit [.delete_this b])
    else
      some (h.set_cell b
        (some { c with weak_counter := (c.weak_counter + SIZE_MOD - 1) % SIZE_MOD }))

/-- Method `control_block::dec_strong_counter`. -/
def dec_strong_counter (h : Heap) (b : Nat) : Option Heap :=
  match h.cells b with
  | none => none
  | some c =>
    if (c.strong_counter + SIZE_MOD - 1) % SIZE_MOD = 0 then
      match delete_object (h.set_cell b
          (some { c with strong_counter := (c.strong_counter + SIZE_MOD - 1) % SIZE_MOD })) b with
      | none => none
      | some h1 => dec_weak_counter h1 b
    else
      dec_weak_counter (h.set_cell b
        (some { c with strong_counter := (c.strong_counter + SIZE_MOD - 1) % SIZE_MOD })) b

end control_block

/-- A successful `new` of a control block of dynamic type `k`: both counters start at `0`. -/
def new_block (h : Heap) (k : block_kind) : Heap :=
  { h.set_cell h.next (some ⟨0, 0, k⟩) with next := h.next + 1 }

/-- Private fields of `shared_ptr<T>`; `block = none` is the null block pointer. -/
structure shared_ptr where
  block : Option Nat
  ptr : Addr
deriving DecidableEq, Repr

/-- Private fields of `weak_ptr<T>`. -/
structure weak_ptr where
  block : Option Nat
  ptr : Addr
deriving DecidableEq, Repr

namespace shared_ptr

/-- Constructor `shared_ptr()` and `shared_ptr(nullptr_t)`. -/
def default : shared_ptr := ⟨none, nullptr⟩

/-- Constructor `shared_ptr(Q* ptr, D&& deleter)`; `alloc_ok` says whether `new` succeeds.
When it does not, the handler runs `deleter(ptr)` and rethrows. -/
def from_raw (h : Heap) (p : Addr) (d : Nat) (alloc_ok : Bool) :
    Option (Heap × Result shared_ptr) :=
  if alloc_ok then
    match control_block.inc_strong_counter (new_block h (.regular p d)) h.next with
    | none => none
    | some h1 => some (h1, .ok ⟨some h.next, p⟩)
  else
    some (h.emit [.deleter d p], .bad_alloc)

/-- Constructor `shared_ptr(const shared_ptr<Q>& other, T* ptr)`, the aliasing constructor. -/
def aliasing (h : Heap) (other : shared_ptr) (p : Addr) : Option (Heap × shared_ptr) :=
  match other.block with
  | none => some (h, ⟨none, p⟩)
  | some b =>
    match control_block.inc_strong_counter h b with
    | none => none
    | some h1 => some (h1, ⟨some b, p⟩)

/-- Constructor `shared_ptr(const shared_ptr& other)`. -/
def copy (h : Heap) (other : shared_ptr) : Option (Heap × shared_ptr) :=
  match other.block with
  | none => some (h, ⟨none, other.ptr⟩)
  | some b =>
    match control_block.inc_strong_counter h b with
    | none => none
    | some h1 => some (h1, ⟨some b, other.ptr⟩)

/-- Constructor `shared_ptr(shared_ptr&& other)`: the constructed handle and `other` afterwards. -/
def move (other : shared_ptr) : shared_ptr × shared_ptr :=
  (⟨other.block, other.ptr⟩, ⟨none, nullptr⟩)

/-- Destructor `~shared_ptr()`. -/
def dtor (h : Heap) (this : shared_ptr) : Option Heap :=
  match this.block with
  | none => some h
  | some b => control_block.dec_strong_counter h b

/-- Member `this->swap(other)`: the values of `*this` and `other` afterwards. -/
def swap (this other : shared_ptr) : shared_ptr × shared_ptr :=
  (⟨other.block, other.ptr⟩, ⟨this.block, this.ptr⟩)

/-- Body of `operator=(const shared_ptr& other)` under `this != &other`:
`shared_ptr(other).swap(*this)`, then the temporary is destroyed.  Returns `*this` afterwards. -/
def assign (h : Heap) (this other : shared_ptr) : Option (Heap × shared_ptr) :=
  match copy h other with
  | none => none
  | some (h1, tmp) =>
    match dtor h1 (swap tmp this).1 with
    | none => none
    | some h2 => some (h2, (swap tmp this).2)

/-- Body of `operator=(shared_ptr&& other)` under `this != &other`:
`shared_ptr(std::move(other)).swap(*this)`, then the temporary is destroyed.  Returns `*this`
and `other` afterwards. -/
def move_assign (h : Heap) (this other : shared_ptr) : Option (Heap × shared_ptr × shared_ptr) :=
  match dtor h (swap (move other).1 this).1 with
  | none => none
  | some h1 => some (h1, (swap (move other).1 this).2, (move other).2)

/-- Member `get()`. -/
def get (this : shared_ptr) : Addr := this.ptr

/-- Operator `operator bool()`. -/
def to_bool (this : shared_ptr) : Bool := this.get != nullptr

/-- Member `use_count()`. -/
def use_count (h : Heap) (this : shared_ptr) : Option Nat :=
  match this.block with
  | none => some 0
  | some b => control_block.use_count h b

/-- Member `reset()`: `shared_ptr().swap(*this)`, then the temporary is destroyed. -/
def reset (h : Heap) (this : shared_ptr) : Option (Heap × shared_ptr) :=
  match dtor h (swap default this).1 with
  | none => none
  | some h1 => some (h1, (swap default this).2)

/-- Member `reset(Q* new_ptr, D&& new_deleter)`: `shared_ptr(new_ptr, new_deleter).swap(*this)`,
then the temporary is destroyed.  Returns `*this` afterwards, or the exception of the constructor. -/
def reset_raw (h : Heap) (this : shared_ptr) (p : Addr) (d : Nat) (alloc_ok : Bool) :
    Option (Heap × Result shared_ptr) :=
  match from_raw h p d alloc_ok with
  | none => none
  | some (h1, .bad_alloc) => some (h1, .bad_alloc)
  | some (h1, .ok tmp) =>
    match dtor h1 (swap tmp this).1 with
    | none => none
    | some h2 => some (h2, .ok (swap tmp this).2)

/-- Operator `operator==`. -/
def eq (lhs rhs : shared_ptr) : Bool := lhs.ptr == rhs.ptr

/-- Operator `operator!=`. -/
def ne (lhs rhs : shared_ptr) : Bool := !(eq lhs rhs)

/-- Constructor `shared_ptr(const shared_ptr<Q>& other)` for convertible `Q*`; `static_cast` is
the conversion of a `Q*` to a `T*`. -/
def copy_conv (static_cast : Addr → Addr) (h : Heap) (other : shared_ptr) :
    Option (Heap × shared_ptr) :=
  match other.block with
  | none => some (h, ⟨none, static_cast other.ptr⟩)
  | some b =>
    match control_block.inc_strong_counter h b with
    | none => none
    | some h1 => some (h1, ⟨some b, static_cast other.ptr⟩)

/-- Constructor `shared_ptr(shared_ptr<Q>&& other)` for convertible `Q*`: the constructed handle
and `other` afterwards. -/
def move_conv (static_cast : Addr → Addr) (other : shared_ptr) : shared_ptr × shared_ptr :=
  (⟨other.block, static_cast other.ptr⟩, ⟨none, nullptr⟩)

/-- The private `shared_ptr(control_block* block, T* ptr)`. -/
def from_block (h : Heap) (b : Nat) (p : Addr) : Option (Heap × shared_ptr) :=
  match control_block.inc_strong_counter h b with
  | none => none
  | some h1 => some (h1, ⟨some b, p⟩)

end shared_ptr

/-- Factory `make_shared<T>(args...)`.  `alloc = some a` is a successful
`new inplace_control_block<T>` whose embedded storage is at address `a`; `alloc = none` is a failing one. -/
def make_shared (h : Heap) (alloc : Option Addr) : Option (Heap × Result shared_ptr) :=
  match alloc with
  | none => some (h, .bad_alloc)
  | some a =>
    match control_block.inc_strong_counter (new_block h (.inplace a)) h.next with
    | none => none
    | some h1 => some (h1, .ok ⟨some h.next, a⟩)

namespace weak_ptr

/-- Constructor `weak_ptr()`. -/
def default : weak_ptr := ⟨none, nullptr⟩

/-- Constructor `weak_ptr(const weak_ptr& other)`. -/
def copy (h : Heap) (other : weak_ptr) : Option (Heap × weak_ptr) :=
  match other.block with
  | none => some (h, ⟨none, other.ptr⟩)
  | some b =>
    match control_block.inc_weak_counter h b with
    | none => none
    | some h1 => some (h1, ⟨some b, other.ptr⟩)

/-- Constructor `weak_ptr(const shared_ptr<Q>& other)`. -/
def from_shared (h : Heap) (other : shared_ptr) : Option (Heap × weak_ptr) :=
  match other.block with
  | none => some (h, ⟨none, other.ptr⟩)
  | some b =>
    match control_block.inc_weak_counter h b with
    | none => none
    | some h1 => some (h1, ⟨some b, other.ptr⟩)

/-- Constructor `weak_ptr(weak_ptr&& other)`: the constructed handle and `other` afterwards. -/
def move (other : weak_ptr) : weak_ptr × weak_ptr :=
  (⟨other.block, other.ptr⟩, ⟨none, nullptr⟩)

/-- Destructor `~weak_ptr()`. -/
def dtor (h : Heap) (this : weak_ptr) : Option Heap :=
  match this.block with
  | none => some h
  | some b => control_block.dec_weak_counter h b

/-- Member `this->swap(other)`: the values of `*this` and `other` afterwards. -/
def swap (this other : weak_ptr) : weak_ptr × weak_ptr :=
  (⟨other.block, other.ptr⟩, ⟨this.block, this.ptr⟩)

/-- Body of `operator=(const weak_ptr& other)` under `this != &other`. -/
def assign (h : Heap) (this other : weak_ptr) : Option (Heap × weak_ptr) :=
  match copy h other with
  | none => none
  | some (h1, tmp) =>
    match dtor h1 (swap tmp this).1 with
    | none => none
    | some h2 => some (h2, (swap tmp this).2)

/-- Operator `operator=(const shared_ptr<Q>& other)`. -/
def assign_shared (h : Heap) (this : weak_ptr) (other : shared_ptr) : Option (Heap × weak_ptr) :=
  match from_shared h other with
  | none => none
  | some (h1, tmp) =>
    match dtor h1 (swap tmp this).1 with
    | none => none
    | some h2 => some (h2, (swap tmp this).2)

/-- Body of `operator=(weak_ptr&& other)` under `this != &other`. -/
def move_assign (h : Heap) (this other : weak_ptr) : Option (Heap × weak_ptr × weak_ptr) :=
  match dtor h (swap (move other).1 this).1 with
  | none => none
  | some h1 => some (h1, (swap (move other).1 this).2, (move other).2)

/-- Member `lock()`. -/
def lock (h : Heap) (this : weak_ptr) : Option (Heap × shared_ptr) :=
  match this.block with
  | some b =>
    match control_block.use_count h b with
    | none => none
    | some n =>
      if n = 0 then some (h, shared_ptr.default) else shared_ptr.from_block h b this.ptr
  | none => some (h, shared_ptr.default)

end weak_ptr

/-- A program state: the heap and the handle objects created so far.  Slot `i` of `shared`
(of `weak`) is the `i`-th `shared_ptr` (`weak_ptr`) object that was constructed, or `none` once
that object has been destroyed. -/
structure State where
  heap : Heap
  shared : List (Option shared_ptr)
  weak : List (Option weak_ptr)

/-- The state before anything has been constructed. -/
def State.init : State := ⟨⟨fun _ => none, 0, []⟩, [], []⟩

/-- The live shared handle in slot `i`, if any. -/
def State.sget (s : State) (i : Nat) : Option shared_ptr := (s.shared.get? i).join

/-- The live weak handle in slot `i`, if any. -/
def State.wget (s : State) (i : Nat) : Option weak_ptr := (s.weak.get? i).join

/-- The public operations.  A constructor puts the new handle in a new slot; the other
operations name the slots of the handle objects they are applied to. -/
inductive Op where
  | s_default
  | s_raw (p : Addr) (d : Nat) (alloc_ok : Bool)
  | s_alias (i : Nat) (p : Addr)
  | s_copy (i : Nat)
  | s_move (i : Nat)
  | s_destroy (i : Nat)
  | s_assign (i j : Nat)
  | s_move_assign (i j : Nat)
  | s_reset (i : Nat)
  | s_reset_raw (i : Nat) (p : Addr) (d : Nat) (alloc_ok : Bool)
  | s_make_shared (alloc : Option Addr)
  | w_default
  | w_copy (i : Nat)
  | w_from_shared (i : Nat)
  | w_move (i : Nat)
  | w_destroy (i : Nat)
  | w_assign (i j : Nat)
  | w_assign_shared (i j : Nat)
  | w_move_assign (i j : Nat)
  | w_lock (i : Nat)
deriving DecidableEq, Repr

/-- One public operation.  The result is `none` when the operation names a slot that holds no
live handle, or when it runs into undefined behaviour. -/
def step (s : State) : Op → Option State
  | .s_default => some { s with shared := s.shared ++ [some shared_ptr.default] }
  | .s_raw p d ok =>
    match shared_ptr.from_raw s.heap p d ok with
    | none => none
    | some (h, .bad_alloc) => some { s with heap := h }
    | some (h, .ok x) => some { s with heap := h, shared := s.shared ++ [some x] }
  | .s_alias i p =>
    match s.sget i with
    | none => none
    | some o =>
      match shared_ptr.aliasing s.heap o p with
      | none => none
      | some (h, x) => some { s with heap := h, shared := s.shared ++ [some x] }
  | .s_copy i =>
    match s.sget i with
    | none => none
    | some o =>
      match shared_ptr.copy s.heap o with
      | none => none
      | some (h, x) => some { s with heap := h, shared := s.shared ++ [some x] }
  | .s_move i =>
    match s.sget i with
    | none => none
    | some o =>
      some { s with shared := s.shared.set i (some (shared_ptr.move o).2)
                                ++ [some (shared_ptr.move o).1] }
  | .s_destroy i =>
    match s.sget i with
    | none => none
    | some x =>
      match shared_ptr.dtor s.heap x with
      | none => none
      | some h => some { s with heap := h, shared := s.shared.set i none }
  | .s_assign i j =>
    match s.sget i, s.sget j with
    | some x, some o =>
      if i = j then some s
      else
        match shared_ptr.assign s.heap x o with
        | none => none
        | some (h, x1) => some { s with heap := h, shared := s.shared.set i (some x1) }
    | _, _ => none
  | .s_move_assign i j =>
    match s.sget i, s.sget j with
    | some x, some o =>
      if i = j then some s
      else
        match shared_ptr.move_assign s.heap x o with
        | none => none
        | some (h, x1, o1) =>
          some { s with heap := h, shared := (s.shared.set i (some x1)).set j (some o1) }
    | _, _ => none
  | .s_reset i =>
    match s.sget i with
    | none => none
    | some x =>
      match shared_ptr.reset s.heap x with
      | none => none
      | some (h, x1) => some { s with heap := h, shared := s.shared.set i (some x1) }
  | .s_reset_raw i p d ok =>
    match s.sget i with
    | none => none
    | some x =>
      match shared_ptr.reset_raw s.heap x p d ok with
      | none => none
      | some (h, .bad_alloc) => some { s with heap := h }
      | some (h, .ok x1) => some { s with heap := h, shared := s.shared.set i (some x1) }
  | .s_make_shared alloc =>
    match make_shared s.heap alloc with
    | none => none
    | some (h, .bad_alloc) => some { s with heap := h }
    | some (h, .ok x) => some { s with heap := h, shared := s.shared ++ [some x] }
  | .w_default => some { s with weak := s.weak ++ [some weak_ptr.default] }
  | .w_copy i =>
    match s.wget i with
    | none => none
    | some o =>
      match weak_ptr.copy s.heap o with
      | none => none
      | some (h, w) => some { s with heap := h, weak := s.weak ++ [some w] }
  | .w_from_shared i =>
    match s.sget i with
    | none => none
    | some o =>
      match weak_ptr.from_shared s.heap o with
      | none => none
      | some (h, w) => some { s with heap := h, weak := s.weak ++ [some w] }
  | .w_move i =>
    match s.wget i with
    | none => none
    | some o =>
      some { s with weak := s.weak.set i (some (weak_ptr.move o).2)
                              ++ [some (weak_ptr.move o).1] }
  | .w_destroy i =>
    match s.wget i with
    | none => none
    | some w =>
      match weak_ptr.dtor s.heap w with
      | none => none
      | some h => some { s with heap := h, weak := s.weak.set i none }
  | .w_assign i j =>
    match s.wget i, s.wget j with
    | some w, some o =>
      if i = j then some s
      else
        match weak_ptr.assign s.heap w o with
        | none => none
        | some (h, w1) => some { s with heap := h, weak := s.weak.set i (some w1) }
    | _, _ => none
  | .w_assign_shared i j =>
    match s.wget i, s.sget j with
    | some w, some o =>
      match weak_ptr.assign_shared s.heap w o with
      | none => none
      | some (h, w1) => some { s with heap := h, weak := s.weak.set i (some w1) }
    | _, _ => none
  | .w_move_assign i j =>
    match s.wget i, s.wget j with
    | some w, some o =>
      if i = j then some s
      else
        match weak_ptr.move_assign s.heap w o with
        | none => none
        | some (h, w1, o1) =>
          some { s with heap := h, weak := (s.weak.set i (some w1)).set j (some o1) }
    | _, _ => none
  | .w_lock i =>
    match s.wget i with
    | none => none
    | some w =>
      match weak_ptr.lock s.heap w with
      | none => none
      | some (h, x) => some { s with heap := h, shared := s.shared ++ [some x] }

/-- Run a sequence of operations, left to right. -/
def run (s : State) : List Op → Option State
  | [] => some s
  | op :: ops =>
    match step s op with
    | none => none
    | some s1 => run s1 ops

/-- Does the (possibly destroyed) shared handle of a slot hold block `b`? -/
def holdsS (b : Nat) (o : Option shared_ptr) : Bool :=
  match o with
  | some x => x.block == some b
  | none => false

/-- Does the (possibly destroyed) weak handle of a slot hold block `b`? -/
def holdsW (b : Nat) (o : Option weak_ptr) : Bool :=
  match o with
  | some w => w.block == some b
  | none => false

/-- The unit that a handle whose block pointer is `ob` holds on block `b`. -/
def bump (ob : Option Nat) (b : Nat) : Nat := if ob = some b then 1 else 0

/-- Number of live shared handles among `l` that hold block `b`. -/
def cntS (l : List (Option shared_ptr)) (b : Nat) : Nat := l.countP (holdsS b)

/-- Number of live weak handles among `l` that hold block `b`. -/
def cntW (l : List (Option weak_ptr)) (b : Nat) : Nat := l.countP (holdsW b)

/-- Number of live shared handles of the state that hold block `b`. -/
def State.live_shared (s : State) (b : Nat) : Nat := cntS s.shared b

/-- Number of live weak handles of the state that hold block `b`. -/
def State.live_weak (s : State) (b : Nat) : Nat := cntW s.weak b

/-- The `strong_counter` of block `b`; `0` for a block that is not allocated. -/
def Heap.strong_of (h : Heap) (b : Nat) : Nat :=
  match h.cells b with
  | some c => c.strong_counter
  | none => 0

/-- The `weak_counter` of block `b`; `0` for a block that is not allocated. -/
def Heap.weak_of (h : Heap) (b : Nat) : Nat :=
  match h.cells b with
  | some c => c.weak_counter
  | none => 0

/-- How often `delete_object` has run on block `b`. -/
def Heap.destroyed (h : Heap) (b : Nat) : Nat := h.log.count (Event.delete_object b)

/-- How often block `b` has been deallocated by `delete this`. -/
def Heap.deallocated (h : Heap) (b : Nat) : Nat := h.log.count (Event.delete_this b)

/-- In the chronological list `log`, every occurrence of `x` comes after an occurrence of `y`. -/
def precedes (y x : Event) (log : List Event) : Prop :=
  ∀ pre post, log = pre ++ x :: post → y ∈ pre

/-- The counting protocol, stated against the numbers `cS b` / `cW b` of shared / weak handles
that hold block `b`. -/
structure BInv (h : Heap) (cS cW : Nat → Nat) : Prop where
  alloc : ∀ b c, h.cells b = some c →
    c.strong_counter = cS b ∧ c.weak_counter = cW b + cS b ∧ 0 < cW b + cS b ∧ b < h.next
  freed : ∀ b, h.cells b = none → cS b = 0 ∧ cW b = 0
  dobj : ∀ b, h.destroyed b = if b < h.next ∧ cS b = 0 then 1 else 0
  dthis : ∀ b, h.deallocated b = if b < h.next ∧ h.cells b = none then 1 else 0
  order : ∀ b, precedes (.delete_object b) (.delete_this b) h.log

/-- The counting protocol holds of a state, against its live handles. -/
def Inv (s : State) : Prop := BInv s.heap (cntS s.shared) (cntW s.weak)

/-- Number of live handle objects of the state. -/
def State.live (s : State) : Nat :=
  s.shared.countP Option.isSome + s.weak.countP Option.isSome

/-- The live handle objects, and one temporary, can be counted in a `size_t`. -/
def Small (s : State) : Prop := s.live + 1 < SIZE_MOD

instance (s : State) : Decidable (Small s) := by
  unfold Small
  infer_instance

/-- The operations `ops` can be run from `s`, and every state on the way, the first and the
last included, is `Small`. -/
def within (s : State) : List Op → Bool
  | [] => decide (Small s)
  | op :: ops =>
    decide (Small s) &&
      match step s op with
      | none => false
      | some s1 => within s1 ops

/-- The slots that an operation names hold live handles. -/
def enabled (s : State) : Op → Bool
  | .s_default => true
  | .s_raw _ _ _ => true
  | .s_alias i _ => (s.sget i).isSome
  | .s_copy i => (s.sget i).isSome
  | .s_move i => (s.sget i).isSome
  | .s_destroy i => (s.sget i).isSome
  | .s_assign i j => (s.sget i).isSome && (s.sget j).isSome
  | .s_move_assign i j => (s.sget i).isSome && (s.sget j).isSome
  | .s_reset i => (s.sget i).isSome
  | .s_reset_raw i _ _ _ => (s.sget i).isSome
  | .s_make_shared _ => true
  | .w_default => true
  | .w_copy i => (s.wget i).isSome
  | .w_from_shared i => (s.sget i).isSome
  | .w_move i => (s.wget i).isSome
  | .w_destroy i => (s.wget i).isSome
  | .w_assign i j => (s.wget i).isSome && (s.wget j).isSome
  | .w_assign_shared i j => (s.wget i).isSome && (s.sget j).isSome
  | .w_move_assign i j => (s.wget i).isSome && (s.wget j).isSome
  | .w_lock i => (s.wget i).isSome

/-- What one operation does to the handles: it acquires at most one strong unit (on `aS`) and
one weak unit (on `aW`), from a block that has a live handle or that it has just allocated, and
it releases at most one strong unit (on `rS`) and one weak unit (on `rW`) that a live handle
held. -/
structure Delta (s s1 : State) (aS rS aW rW : Option Nat) : Prop where
  eqS : ∀ b, cntS s1.shared b + bump rS b = cntS s.shared b + bump aS b
  eqW : ∀ b, cntW s1.weak b + bump rW b = cntW s.weak b + bump aW b
  heldS : ∀ b, bump rS b ≤ cntS s.shared b
  heldW : ∀ b, bump rW b ≤ cntW s.weak b
  srcS : ∀ b, aS = some b →
    0 < cntS s.shared b ∨ (b = s.heap.next ∧ s1.heap.next = s.heap.next + 1)
  srcW : ∀ b, aW = some b → 0 < cntW s.weak b + cntS s.shared b
  next : s1.heap.next = s.heap.next ∨ (s1.heap.next = s.heap.next + 1 ∧ aS = some s.heap.next)
  lenS : s.shared.length ≤ s1.shared.length
  lenW : s.weak.length ≤ s1.weak.length
  one : rS = none ∨ rW = none

/-- The state after a sequence of operations from the initial state (the initial state itself
when the sequence cannot be run). -/
def exec (ops : List Op) : State := (run State.init ops).getD State.init

/-- The call that the virtual `delete_object` of a block of dynamic type `k` makes. -/
def block_kind.action : block_kind → Event
  | .regular p d => .deleter d p
  | .inplace a => .destructor a

/-- In the chronological list `log`, every occurrence of `x` is immediately followed by `y`. -/
def followed_by (x y : Event) (log : List Event) : Prop :=
  ∀ pre post, log = pre ++ x :: post → ∃ post1, post = y :: post1

/-- The elementary changes of the heap that the operations are made of: a counter of an
allocated block is overwritten, `delete_object` runs on an allocated block, a block is
deallocated, a block is allocated, or the failure handler of the raw-pointer constructor calls
the deleter.  `U` holds of the deleters that are passed in (to an allocation of a regular block
or to the failure handler). -/
inductive Prim (U : Nat → Prop) : Heap → Heap → Prop where
  | count (h : Heap) (b : Nat) (c c1 : control_block) :
      h.cells b = some c → c1.kind = c.kind → Prim U h (h.set_cell b (some c1))
  | destroy (h : Heap) (b : Nat) (c : control_block) :
      h.cells b = some c → Prim U h (h.emit [.delete_object b, c.kind.action])
  | free (h : Heap) (b : Nat) : Prim U h ((h.set_cell b none).emit [.delete_this b])
  | alloc (h : Heap) (k : block_kind) :
      (∀ p d, k = .regular p d → U d) → Prim U h (new_block h k)
  | handler (h : Heap) (d : Nat) (p : Addr) : U d → Prim U h (h.emit [.deleter d p])

/-- The allocated blocks have the dynamic types `K`, and whenever `delete_object` has run on a
block `b` the next event of the log is the call that the dynamic type `K b` makes. -/
structure KInv (K : Nat → block_kind) (h : Heap) : Prop where
  kind : ∀ b c, h.cells b = some c → c.kind = K b
  lt : ∀ b c, h.cells b = some c → b < h.next
  act : ∀ b, b < h.next → followed_by (.delete_object b) (K b).action h.log
  unborn : ∀ b, h.next ≤ b → Event.delete_object b ∉ h.log

/-- Does the operation pass the deleter `d`, to a raw-pointer construction or to `reset(p, d)`? -/
def Op.uses (d : Nat) : Op → Bool
  | .s_raw _ d1 _ => d1 == d
  | .s_reset_raw _ _ d1 _ => d1 == d
  | _ => false

/-- No allocated block has the deleter `d`. -/
def NoBlock (d : Nat) (h : Heap) : Prop :=
  ∀ b c p, h.cells b = some c → c.kind ≠ .regular p d

/-- The deleter `d` is stored in no block and has never been called. -/
structure Unused (d : Nat) (h : Heap) : Prop where
  kind : NoBlock d h
  log : ∀ p, Event.deleter d p ∉ h.log

/-- Block `b`, if still allocated, is the only block with the deleter `d`, its stored pointer is
`p`, and `d` has been called on `p` as often as `delete_object` has run on `b`, and on no other
address. -/
structure Owned (d b : Nat) (p : Addr) (h : Heap) : Prop where
  lt : b < h.next
  own : ∀ c, h.cells b = some c → c.kind = .regular p d
  other : ∀ b1 c p1, h.cells b1 = some c → b1 ≠ b → c.kind ≠ .regular p1 d
  cnt : ∀ p1, h.log.count (.deleter d p1)
    = if p1 = p then h.log.count (.delete_object b) else 0

/-- The operation passes no null address: neither as the raw pointer of a construction or of
`reset`, nor as the address of the aliasing constructor, and the storage of an in-place block
is not at the null address. -/
def Op.nonnull : Op → Bool
  | .s_raw p _ _ => p != nullptr
  | .s_alias _ p => p != nullptr
  | .s_reset_raw _ p _ _ => p != nullptr
  | .s_make_shared (some a) => a != nullptr
  | _ => true

/-- Every live handle with a null address holds no block. -/
def NullInv (s : State) : Prop :=
  (∀ x : shared_ptr, some x ∈ s.shared → x.ptr = nullptr → x.block = none) ∧
  (∀ w : weak_ptr, some w ∈ s.weak → w.ptr = nullptr → w.block = none)

/-! ## The control block operations on a block that is allocated -/

theorem set_cell_set_cell (h : Heap) (b : Nat) (c d : Option control_block) :
    (h.set_cell b c).set_cell b d = h.set_cell b d := by
  simp [Heap.set_cell]

theorem inc_weak_counter_eq {h : Heap} {b : Nat} {c : control_block}
    (hc : h.cells b = some c) (hw : c.weak_counter + 1 < SIZE_MOD) :
    control_block.inc_weak_counter h b
      = some (h.set_cell b (some ⟨c.strong_counter, c.weak_counter + 1, c.kind⟩)) := by
  simp [control_block.inc_weak_counter, hc, Nat.mod_eq_of_lt hw]

theorem inc_strong_counter_eq {h : Heap} {b : Nat} {c : control_block}
    (hc : h.cells b = some c) (hs : c.strong_counter + 1 < SIZE_MOD)
    (hw : c.weak_counter + 1 < SIZE_MOD) :
    control_block.inc_strong_counter h b
      = some (h.set_cell b (some ⟨c.strong_counter + 1, c.weak_counter + 1, c.kind⟩)) := by
  simp [control_block.inc_strong_counter, control_block.inc_weak_counter, hc, Heap.set_cell,
    Nat.mod_eq_of_lt hs, Nat.mod_eq_of_lt hw]

theorem pred_mod {n : Nat} (h0 : 0 < n) (hn : n < SIZE_MOD) :
    (n + SIZE_MOD - 1) % SIZE_MOD = n - 1 := by
  unfold SIZE_MOD at *
  omega

/-- The event that the virtual `delete_object` of a block of kind `k` produces. -/
theorem delete_object_eq {h : Heap} {b : Nat} {c : control_block} (hc : h.cells b = some c) :
    ∃ e, (∀ b1, e ≠ Event.delete_object b1) ∧ (∀ b1, e ≠ Event.delete_this b1) ∧
      control_block.delete_object h b = some (h.emit [.delete_object b, e]) := by
  unfold control_block.delete_object
  rw [hc]
  cases hk : c.kind with
  | regular p d => exact ⟨.deleter d p, by simp, by simp, by simp [hk]⟩
  | inplace a => exact ⟨.destructor a, by simp, by simp, by simp [hk]⟩

theorem dec_weak_counter_eq {h : Heap} {b : Nat} {c : control_block}
    (hc : h.cells b = some c) (h0 : 0 < c.weak_counter) (hw : c.weak_counter < SIZE_MOD) :
    control_block.dec_weak_counter h b
      = if c.weak_counter = 1 then some ((h.set_cell b none).emit [.delete_this b])
        else some (h.set_cell b (some ⟨c.strong_counter, c.weak_counter - 1, c.kind⟩)) := by
  have h1 : (c.weak_counter - 1 = 0) = (c.weak_counter = 1) := by
    apply propext; omega
  simp [control_block.dec_weak_counter, hc, pred_mod h0 hw, h1]

theorem dec_strong_counter_eq {h : Heap} {b : Nat} {c : control_block}
    (hc : h.cells b = some c) (h0 : 0 < c.strong_counter) (hs : c.strong_counter < SIZE_MOD)
    (h1 : 0 < c.weak_counter) (hw : c.weak_counter < SIZE_MOD) :
    ∃ e, (∀ b1, e ≠ Event.delete_object b1) ∧ (∀ b1, e ≠ Event.delete_this b1) ∧
      control_block.dec_strong_counter h b
        = some (if c.weak_counter = 1 then
            ((if c.strong_counter = 1 then h.emit [.delete_object b, e] else h).set_cell b
              none).emit [.delete_this b]
          else
            (if c.strong_counter = 1 then h.emit [.delete_object b, e] else h).set_cell b
              (some ⟨c.strong_counter - 1, c.weak_counter - 1, c.kind⟩)) := by
  have hz : (c.strong_counter - 1 = 0) = (c.strong_counter = 1) := by
    apply propext; omega
  obtain ⟨e, he1, he2, he⟩ := delete_object_eq
    (h := h.set_cell b (some ⟨c.strong_counter - 1, c.weak_counter, c.kind⟩)) (b := b)
    (c := ⟨c.strong_counter - 1, c.weak_counter, c.kind⟩) (by simp [Heap.set_cell])
  refine ⟨e, he1, he2, ?_⟩
  unfold control_block.dec_strong_counter
  simp only [hc, pred_mod h0 hs, hz]
  by_cases hs1 : c.strong_counter = 1
  · simp only [hs1, if_true]
    rw [hs1] at he
    rw [he]
    simp only
    rw [dec_weak_counter_eq (c := ⟨0, c.weak_counter, c.kind⟩)
      (by simp [Heap.set_cell, Heap.emit]) h1 hw]
    by_cases hw1 : c.weak_counter = 1 <;>
      simp [hw1, Heap.set_cell, Heap.emit]
  · simp only [hs1, if_false]
    rw [dec_weak_counter_eq (c := ⟨c.strong_counter - 1, c.weak_counter, c.kind⟩)
      (by simp [Heap.set_cell]) h1 hw]
    by_cases hw1 : c.weak_counter = 1 <;>
      simp [hw1, Heap.set_cell, Heap.emit]

/-! ## The counting protocol is kept by every change of a counter -/

theorem precedes_append {y x : Event} {log es : List Event} (hp : precedes y x log)
    (hes : x ∈ es → y ∈ log) : precedes y x (log ++ es) := by
  intro pre post heq
  rcases List.append_eq_append_iff.mp heq with ⟨a, hpre, hes1⟩ | ⟨c, hlog, hc⟩
  · have hx : x ∈ es := by rw [hes1]; simp
    rw [hpre]
    exact List.mem_append_left _ (hes hx)
  · cases c with
    | nil =>
      have hx : x ∈ es := by
        rw [List.nil_append] at hc; rw [← hc]; simp
      have : pre = log := by simp [hlog]
      rw [this]
      exact hes hx
    | cons z c1 =>
      rw [List.cons_append] at hc
      injection hc with hz _
      subst hz
      exact hp pre c1 hlog

theorem count_pos_mem {e : Event} {log : List Event} (h : 0 < log.count e) : e ∈ log :=
  List.count_pos_iff.mp h

/-- Block `b` stays allocated, its counters follow the new numbers of handles, and the number of
shared handles does not cross zero. -/
theorem BInv.update_alloc {h : Heap} {cS cW : Nat → Nat} (hI : BInv h cS cW) {b : Nat}
    {c : control_block} (hc : h.cells b = some c) (nS nW : Nat) (hpos : 0 < nW + nS)
    (hz : nS = 0 ↔ cS b = 0) :
    BInv (h.set_cell b (some ⟨nS, nW + nS, c.kind⟩)) (Function.update cS b nS)
      (Function.update cW b nW) := by
  have hb := hI.alloc b c hc
  constructor
  · intro b1 c1 h1
    by_cases e : b1 = b
    · subst e
      simp [Heap.set_cell] at h1
      subst h1
      simp
      exact ⟨by omega, hb.2.2.2⟩
    · simp only [Heap.set_cell, Function.update, e, dite_false] at h1 ⊢
      exact hI.alloc b1 c1 h1
  · intro b1 h1
    by_cases e : b1 = b
    · subst e
      simp [Heap.set_cell] at h1
    · simp [Heap.set_cell, Function.update, e] at h1 ⊢
      exact hI.freed b1 h1
  · intro b1
    have := hI.dobj b1
    by_cases e : b1 = b
    · subst e
      simp [Heap.set_cell, Heap.destroyed, Function.update, hz] at this ⊢
      exact this
    · simp [Heap.set_cell, Heap.destroyed, Function.update, e] at this ⊢
      exact this
  · intro b1
    have := hI.dthis b1
    by_cases e : b1 = b
    · subst e
      simp [Heap.set_cell, Heap.deallocated, Function.update, hc] at this ⊢
      exact this
    · simp [Heap.set_cell, Heap.deallocated, Function.update, e] at this ⊢
      exact this
  · intro b1
    exact hI.order b1

/-- The last shared handle of block `b` goes away while weak handles remain. -/
theorem BInv.last_strong {h : Heap} {cS cW : Nat → Nat} (hI : BInv h cS cW) {b : Nat}
    {c : control_block} (hc : h.cells b = some c) (h1 : cS b = 1) (hW : 0 < cW b) (e : Event)
    (he1 : ∀ b1, e ≠ Event.delete_object b1) (he2 : ∀ b1, e ≠ Event.delete_this b1) :
    BInv ((h.emit [.delete_object b, e]).set_cell b (some ⟨0, cW b, c.kind⟩))
      (Function.update cS b 0) cW := by
  have hb := hI.alloc b c hc
  constructor
  · intro b1 c1 hc1
    by_cases hb1 : b1 = b
    · subst hb1
      simp [Heap.set_cell, Heap.emit] at hc1
      subst hc1
      simp [Heap.set_cell, Heap.emit]
      exact ⟨by omega, hb.2.2.2⟩
    · simp only [Heap.set_cell, Heap.emit, Function.update, hb1, dite_false] at hc1 ⊢
      exact hI.alloc b1 c1 hc1
  · intro b1 hc1
    by_cases hb1 : b1 = b
    · subst hb1
      simp [Heap.set_cell, Heap.emit] at hc1
    · simp [Heap.set_cell, Heap.emit, Function.update, hb1] at hc1 ⊢
      exact hI.freed b1 hc1
  · intro b1
    have := hI.dobj b1
    by_cases hb1 : b1 = b
    · subst hb1
      simp [Heap.set_cell, Heap.emit, Heap.destroyed, Function.update, h1,
        List.count_cons, he1] at this ⊢
      simp [this, hb.2.2.2]
    · have hne : ¬ b = b1 := fun h => hb1 h.symm
      simp [Heap.set_cell, Heap.emit, Heap.destroyed, Function.update, hb1, hne,
        List.count_cons, he1] at this ⊢
      exact this
  · intro b1
    have := hI.dthis b1
    by_cases hb1 : b1 = b
    · subst hb1
      simp [Heap.set_cell, Heap.emit, Heap.deallocated, Function.update, hc,
        List.count_cons, he2] at this ⊢
      exact this
    · simp [Heap.set_cell, Heap.emit, Heap.deallocated, Function.update, hb1,
        List.count_cons, he2] at this ⊢
      exact this
  · intro b1
    simp only [Heap.set_cell, Heap.emit]
    apply precedes_append (hI.order b1)
    intro hm
    simp at hm
    exact absurd hm.symm (he2 b1)

/-- The last weak handle of a block without shared handles goes away: the block is freed. -/
theorem BInv.last_weak {h : Heap} {cS cW : Nat → Nat} (hI : BInv h cS cW) {b : Nat}
    {c : control_block} (hc : h.cells b = some c) (h0 : cS b = 0) (h1 : cW b = 1) :
    BInv ((h.set_cell b none).emit [.delete_this b]) cS (Function.update cW b 0) := by
  have hb := hI.alloc b c hc
  constructor
  · intro b1 c1 hc1
    by_cases hb1 : b1 = b
    · subst hb1
      simp [Heap.set_cell, Heap.emit] at hc1
    · simp only [Heap.set_cell, Heap.emit, Function.update, hb1, dite_false] at hc1 ⊢
      exact hI.alloc b1 c1 hc1
  · intro b1 hc1
    by_cases hb1 : b1 = b
    · subst hb1
      simp [h0]
    · simp only [Heap.set_cell, Heap.emit, Function.update, hb1, dite_false] at hc1 ⊢
      exact hI.freed b1 hc1
  · intro b1
    have := hI.dobj b1
    simp [Heap.set_cell, Heap.emit, Heap.destroyed, List.count_cons] at this ⊢
    exact this
  · intro b1
    have := hI.dthis b1
    by_cases hb1 : b1 = b
    · subst hb1
      simp [Heap.set_cell, Heap.emit, Heap.deallocated, Function.update, hc,
        List.count_cons] at this ⊢
      simp [this, hb.2.2.2]
    · have hne : ¬ b = b1 := fun h => hb1 h.symm
      simp [Heap.set_cell, Heap.emit, Heap.deallocated, Function.update, hb1, hne,
        List.count_cons] at this ⊢
      exact this
  · intro b1
    simp only [Heap.set_cell, Heap.emit]
    apply precedes_append (hI.order b1)
    intro hm
    simp at hm
    subst hm
    apply count_pos_mem
    have := hI.dobj b1
    simp [Heap.destroyed, h0, hb.2.2.2] at this
    omega

/-- The last handle of block `b` is a shared handle and goes away: the object is destroyed and
then the block is freed. -/
theorem BInv.last_unit {h : Heap} {cS cW : Nat → Nat} (hI : BInv h cS cW) {b : Nat}
    {c : control_block} (hc : h.cells b = some c) (h1 : cS b = 1) (h0 : cW b = 0) (e : Event)
    (he1 : ∀ b1, e ≠ Event.delete_object b1) (he2 : ∀ b1, e ≠ Event.delete_this b1) :
    BInv (((h.emit [.delete_object b, e]).set_cell b none).emit [.delete_this b])
      (Function.update cS b 0) cW := by
  have hb := hI.alloc b c hc
  constructor
  · intro b1 c1 hc1
    by_cases hb1 : b1 = b
    · subst hb1
      simp [Heap.set_cell, Heap.emit] at hc1
    · simp only [Heap.set_cell, Heap.emit, Function.update, hb1, dite_false] at hc1 ⊢
      exact hI.alloc b1 c1 hc1
  · intro b1 hc1
    by_cases hb1 : b1 = b
    · subst hb1
      simp [h0]
    · simp only [Heap.set_cell, Heap.emit, Function.update, hb1, dite_false] at hc1 ⊢
      exact hI.freed b1 hc1
  · intro b1
    have := hI.dobj b1
    by_cases hb1 : b1 = b
    · subst hb1
      simp [Heap.set_cell, Heap.emit, Heap.destroyed, Function.update, h1,
        List.count_cons, he1] at this ⊢
      simp [this, hb.2.2.2]
    · have hne : ¬ b = b1 := fun h => hb1 h.symm
      simp [Heap.set_cell, Heap.emit, Heap.destroyed, Function.update, hb1, hne,
        List.count_cons, he1] at this ⊢
      exact this
  · intro b1
    have := hI.dthis b1
    by_cases hb1 : b1 = b
    · subst hb1
      simp [Heap.set_cell, Heap.emit, Heap.deallocated, Function.update, hc,
        List.count_cons, he2] at this ⊢
      simp [this, hb.2.2.2]
    · have hne : ¬ b = b1 := fun h => hb1 h.symm
      simp [Heap.set_cell, Heap.emit, Heap.deallocated, Function.update, hb1, hne,
        List.count_cons, he2] at this ⊢
      exact this
  · intro b1
    simp only [Heap.set_cell, Heap.emit]
    apply precedes_append
    · apply precedes_append (hI.order b1)
      intro hm
      simp at hm
      exact absurd hm.symm (he2 b1)
    · intro hm
      simp at hm
      subst hm
      simp

/-- A freshly allocated block with its first shared handle. -/
theorem BInv.fresh {h : Heap} {cS cW : Nat → Nat} (hI : BInv h cS cW) (k : block_kind) :
    BInv ((new_block h k).set_cell h.next (some ⟨1, 1, k⟩)) (Function.update cS h.next 1) cW := by
  have hn : h.cells h.next = none := by
    cases hc : h.cells h.next with
    | none => rfl
    | some c => exact absurd (hI.alloc _ c hc).2.2.2 (Nat.lt_irrefl _)
  have hf := hI.freed _ hn
  constructor
  · intro b1 c1 hc1
    by_cases hb1 : b1 = h.next
    · subst hb1
      simp [Heap.set_cell, new_block] at hc1
      subst hc1
      simp [Heap.set_cell, new_block, hf.2]
    · simp only [Heap.set_cell, new_block, Function.update, hb1, dite_false] at hc1 ⊢
      have := hI.alloc b1 c1 hc1
      exact ⟨this.1, this.2.1, this.2.2.1, by omega⟩
  · intro b1 hc1
    by_cases hb1 : b1 = h.next
    · subst hb1
      simp [Heap.set_cell, new_block] at hc1
    · simp only [Heap.set_cell, new_block, Function.update, hb1, dite_false] at hc1 ⊢
      exact hI.freed b1 hc1
  · intro b1
    have := hI.dobj b1
    by_cases hb1 : b1 = h.next
    · subst hb1
      simp [Heap.set_cell, new_block, Heap.destroyed, Function.update] at this ⊢
      exact this
    · have hlt : (b1 < h.next + 1) = (b1 < h.next) := by
        apply propext; omega
      simp [Heap.set_cell, new_block, Heap.destroyed, Function.update, hb1, hlt] at this ⊢
      exact this
  · intro b1
    have := hI.dthis b1
    by_cases hb1 : b1 = h.next
    · subst hb1
      simp [Heap.set_cell, new_block, Heap.deallocated, Function.update] at this ⊢
      exact this
    · have hlt : (b1 < h.next + 1) = (b1 < h.next) := by
        apply propext; omega
      simp [Heap.set_cell, new_block, Heap.deallocated, Function.update, hb1, hlt] at this ⊢
      exact this
  · intro b1
    exact hI.order b1

/-! ## Counting handles in slots -/

theorem holdsS_some (b : Nat) (x : shared_ptr) :
    (if holdsS b (some x) = true then 1 else 0) = bump x.block b := by
  simp [holdsS, bump]

theorem holdsW_some (b : Nat) (w : weak_ptr) :
    (if holdsW b (some w) = true then 1 else 0) = bump w.block b := by
  simp [holdsW, bump]

theorem bump_none (b : Nat) : bump none b = 0 := by simp [bump]

theorem bump_le (ob : Option Nat) (b : Nat) : bump ob b ≤ 1 := by
  unfold bump; split <;> omega

theorem bump_self (b : Nat) : bump (some b) b = 1 := by simp [bump]

theorem bump_ne {b b1 : Nat} (h : b1 ≠ b) : bump (some b) b1 = 0 := by
  simp [bump]; exact fun e => h e.symm

theorem cntS_push (l : List (Option shared_ptr)) (x : shared_ptr) (b : Nat) :
    cntS (l ++ [some x]) b = cntS l b + bump x.block b := by
  simp [cntS, List.countP_append, List.countP_cons, holdsS_some]

theorem cntW_push (l : List (Option weak_ptr)) (w : weak_ptr) (b : Nat) :
    cntW (l ++ [some w]) b = cntW l b + bump w.block b := by
  simp [cntW, List.countP_append, List.countP_cons, holdsW_some]

theorem countP_set_add {α : Type} (p : α → Bool) (l : List α) (i : Nat) (a x : α)
    (h : l.get? i = some a) :
    (l.set i x).countP p + (if p a then 1 else 0) = l.countP p + (if p x then 1 else 0) := by
  have hi : i < l.length := by
    rcases Nat.lt_or_ge i l.length with h1 | h1
    · exact h1
    · rw [List.get?_eq_none.mpr h1] at h; cases h
  have ha : l[i] = a := by
    rw [List.get?_eq_get hi] at h
    simpa using h
  have h1 := List.countP_set p l i x hi
  have h2 := List.boole_getElem_le_countP p l i hi
  rw [ha] at h1 h2
  omega

theorem cntS_set {l : List (Option shared_ptr)} {i : Nat} {x : shared_ptr}
    (h : l.get? i = some (some x)) (y : shared_ptr) (b : Nat) :
    cntS (l.set i (some y)) b + bump x.block b = cntS l b + bump y.block b := by
  have := countP_set_add (holdsS b) l i (some x) (some y) h
  rw [holdsS_some, holdsS_some] at this
  exact this

theorem cntS_unset {l : List (Option shared_ptr)} {i : Nat} {x : shared_ptr}
    (h : l.get? i = some (some x)) (b : Nat) :
    cntS (l.set i none) b + bump x.block b = cntS l b := by
  have := countP_set_add (holdsS b) l i (some x) none h
  rw [holdsS_some] at this
  simpa [holdsS] using this

theorem cntW_set {l : List (Option weak_ptr)} {i : Nat} {w : weak_ptr}
    (h : l.get? i = some (some w)) (y : weak_ptr) (b : Nat) :
    cntW (l.set i (some y)) b + bump w.block b = cntW l b + bump y.block b := by
  have := countP_set_add (holdsW b) l i (some w) (some y) h
  rw [holdsW_some, holdsW_some] at this
  exact this

theorem cntW_unset {l : List (Option weak_ptr)} {i : Nat} {w : weak_ptr}
    (h : l.get? i = some (some w)) (b : Nat) :
    cntW (l.set i none) b + bump w.block b = cntW l b := by
  have := countP_set_add (holdsW b) l i (some w) none h
  rw [holdsW_some] at this
  simpa [holdsW] using this

theorem cntS_le (l : List (Option shared_ptr)) (b : Nat) : cntS l b ≤ l.length :=
  List.countP_le_length _

theorem cntW_le (l : List (Option weak_ptr)) (b : Nat) : cntW l b ≤ l.length :=
  List.countP_le_length _

theorem sget_eq {s : State} {i : Nat} {x : shared_ptr} (h : s.sget i = some x) :
    s.shared.get? i = some (some x) := by
  unfold State.sget at h
  cases hg : s.shared.get? i with
  | none => rw [hg] at h; cases h
  | some o =>
    rw [hg] at h
    simp at h
    rw [h]

theorem wget_eq {s : State} {i : Nat} {w : weak_ptr} (h : s.wget i = some w) :
    s.weak.get? i = some (some w) := by
  unfold State.wget at h
  cases hg : s.weak.get? i with
  | none => rw [hg] at h; cases h
  | some o =>
    rw [hg] at h
    simp at h
    rw [h]

/-! ## Acquiring and releasing one unit -/

theorem BInv.congr {h : Heap} {cS cW cS1 cW1 : Nat → Nat} (hI : BInv h cS cW)
    (hS : ∀ b, cS1 b = cS b) (hW : ∀ b, cW1 b = cW b) : BInv h cS1 cW1 := by
  have e1 : cS1 = cS := funext hS
  have e2 : cW1 = cW := funext hW
  rw [e1, e2]
  exact hI

theorem BInv.cell_of_pos {h : Heap} {cS cW : Nat → Nat} (hI : BInv h cS cW) {b : Nat}
    (hp : 0 < cW b + cS b) :
    ∃ c, h.cells b = some c ∧ c.strong_counter = cS b ∧ c.weak_counter = cW b + cS b
      ∧ b < h.next := by
  cases hc : h.cells b with
  | none =>
    have := hI.freed b hc
    omega
  | some c =>
    have := hI.alloc b c hc
    exact ⟨c, rfl, this.1, this.2.1, this.2.2.2⟩

theorem update_add_bump (f : Nat → Nat) (b x : Nat) :
    f x + bump (some b) x = Function.update f b (f b + 1) x := by
  by_cases e : x = b
  · subst e; simp [bump]
  · simp [Function.update, e, bump_ne e]

theorem update_sub_bump (f : Nat → Nat) (b x : Nat) :
    f x - bump (some b) x = Function.update f b (f b - 1) x := by
  by_cases e : x = b
  · subst e; simp [bump]
  · simp [Function.update, e, bump_ne e]

theorem BInv.inc_strong {h : Heap} {cS cW : Nat → Nat} (hI : BInv h cS cW) {b : Nat}
    (hp : 0 < cS b) (hsm : cW b + cS b + 1 < SIZE_MOD) :
    ∃ h1, control_block.inc_strong_counter h b = some h1 ∧
      BInv h1 (fun x => cS x + bump (some b) x) cW ∧ h1.next = h.next ∧ h1.log = h.log := by
  obtain ⟨c, hc, hs, hw, _⟩ := hI.cell_of_pos (b := b) (by omega)
  rw [inc_strong_counter_eq hc (by omega) (by omega)]
  refine ⟨_, rfl, ?_, rfl, rfl⟩
  have := hI.update_alloc hc (cS b + 1) (cW b) (by omega) (by omega)
  have e : (⟨c.strong_counter + 1, c.weak_counter + 1, c.kind⟩ : control_block)
      = ⟨cS b + 1, cW b + (cS b + 1), c.kind⟩ := by
    rw [hs, hw]; rfl
  rw [e]
  apply this.congr
  · intro x; exact update_add_bump cS b x
  · intro x; simp

theorem BInv.inc_weak {h : Heap} {cS cW : Nat → Nat} (hI : BInv h cS cW) {b : Nat}
    (hp : 0 < cW b + cS b) (hsm : cW b + cS b + 1 < SIZE_MOD) :
    ∃ h1, control_block.inc_weak_counter h b = some h1 ∧
      BInv h1 cS (fun x => cW x + bump (some b) x) ∧ h1.next = h.next ∧ h1.log = h.log := by
  obtain ⟨c, hc, hs, hw, _⟩ := hI.cell_of_pos hp
  rw [inc_weak_counter_eq hc (by omega)]
  refine ⟨_, rfl, ?_, rfl, rfl⟩
  have := hI.update_alloc hc (cS b) (cW b + 1) (by omega) (by omega)
  have e : (⟨c.strong_counter, c.weak_counter + 1, c.kind⟩ : control_block)
      = ⟨cS b, cW b + 1 + cS b, c.kind⟩ := by
    rw [hs, hw]
    congr 1
    omega
  rw [e]
  apply this.congr
  · intro x; simp
  · intro x; exact update_add_bump cW b x

theorem BInv.dec_weak {h : Heap} {cS cW : Nat → Nat} (hI : BInv h cS cW) {b : Nat}
    (hp : 0 < cW b) (hsm : cW b + cS b < SIZE_MOD) :
    ∃ h1, control_block.dec_weak_counter h b = some h1 ∧
      BInv h1 cS (fun x => cW x - bump (some b) x) ∧ h1.next = h.next ∧
      (1 < cW b + cS b → h1.log = h.log) := by
  obtain ⟨c, hc, hs, hw, _⟩ := hI.cell_of_pos (b := b) (by omega)
  rw [dec_weak_counter_eq hc (by omega) (by omega)]
  by_cases h1 : c.weak_counter = 1
  · rw [if_pos h1]
    refine ⟨_, rfl, ?_, rfl, ?_⟩
    · have := hI.last_weak hc (by omega) (by omega)
      apply this.congr
      · intro x; rfl
      · intro x
        rw [update_sub_bump]
        have : cW b - 1 = 0 := by omega
        rw [this]
    · intro hlt; omega
  · rw [if_neg h1]
    refine ⟨_, rfl, ?_, rfl, fun _ => rfl⟩
    have := hI.update_alloc hc (cS b) (cW b - 1) (by omega) (by omega)
    have e : (⟨c.strong_counter, c.weak_counter - 1, c.kind⟩ : control_block)
        = ⟨cS b, cW b - 1 + cS b, c.kind⟩ := by
      rw [hs, hw]
      congr 1
      omega
    rw [e]
    apply this.congr
    · intro x; simp
    · intro x; exact update_sub_bump cW b x

theorem BInv.dec_strong {h : Heap} {cS cW : Nat → Nat} (hI : BInv h cS cW) {b : Nat}
    (hp : 0 < cS b) (hsm : cW b + cS b < SIZE_MOD) :
    ∃ h1, control_block.dec_strong_counter h b = some h1 ∧
      BInv h1 (fun x => cS x - bump (some b) x) cW ∧ h1.next = h.next ∧
      (1 < cS b → h1.log = h.log) := by
  obtain ⟨c, hc, hs, hw, _⟩ := hI.cell_of_pos (b := b) (by omega)
  obtain ⟨e, he1, he2, heq⟩ :=
    dec_strong_counter_eq hc (by omega) (by omega) (by omega) (by omega)
  rw [heq]
  by_cases hw1 : c.weak_counter = 1
  · have hs1 : c.strong_counter = 1 := by omega
    simp only [hw1, hs1, if_true]
    refine ⟨_, rfl, ?_, rfl, ?_⟩
    · have := hI.last_unit hc (by omega) (by omega) e he1 he2
      apply this.congr
      · intro x
        rw [update_sub_bump]
        have : cS b - 1 = 0 := by omega
        rw [this]
      · intro x; rfl
    · intro hlt; omega
  · by_cases hs1 : c.strong_counter = 1
    · simp only [hw1, hs1, if_true, if_false]
      refine ⟨_, rfl, ?_, rfl, ?_⟩
      · have := hI.last_strong hc (by omega) (by omega) e he1 he2
        have e1 : (⟨1 - 1, c.weak_counter - 1, c.kind⟩ : control_block)
            = ⟨0, cW b, c.kind⟩ := by
          congr 1
          omega
        rw [e1]
        apply this.congr
        · intro x
          rw [update_sub_bump]
          have : cS b - 1 = 0 := by omega
          rw [this]
        · intro x; rfl
      · intro hlt; omega
    · simp only [hw1, hs1, if_false]
      refine ⟨_, rfl, ?_, rfl, fun _ => rfl⟩
      have := hI.update_alloc hc (cS b - 1) (cW b) (by omega) (by omega)
      have e1 : (⟨c.strong_counter - 1, c.weak_counter - 1, c.kind⟩ : control_block)
          = ⟨cS b - 1, cW b + (cS b - 1), c.kind⟩ := by
        rw [hs, hw]
        congr 1
        omega
      rw [e1]
      apply this.congr
      · intro x; exact update_sub_bump cS b x
      · intro x; simp

theorem BInv.alloc_strong {h : Heap} {cS cW : Nat → Nat} (hI : BInv h cS cW) (k : block_kind) :
    ∃ h1, control_block.inc_strong_counter (new_block h k) h.next = some h1 ∧
      BInv h1 (fun x => cS x + bump (some h.next) x) cW ∧ h1.next = h.next + 1 ∧
      h1.log = h.log := by
  have hn : h.cells h.next = none := by
    cases hc : h.cells h.next with
    | none => rfl
    | some c => exact absurd (hI.alloc _ c hc).2.2.2 (Nat.lt_irrefl _)
  have hf := hI.freed _ hn
  have hc : (new_block h k).cells h.next = some ⟨0, 0, k⟩ := by
    simp [new_block, Heap.set_cell]
  rw [inc_strong_counter_eq hc (by simp [SIZE_MOD]) (by simp [SIZE_MOD])]
  refine ⟨_, rfl, ?_, rfl, rfl⟩
  have := hI.fresh k
  apply this.congr
  · intro x
    rw [update_add_bump, hf.1]
  · intro x; rfl

/-! ## The handle operations acquire and release units -/

theorem BInv.acquire_strong {h : Heap} {cS cW : Nat → Nat} (hI : BInv h cS cW) (ob : Option Nat)
    (hp : ∀ b, ob = some b → 0 < cS b) (hsm : ∀ b, cW b + cS b + 1 < SIZE_MOD) (p : Addr) :
    ∃ h1, shared_ptr.copy h ⟨ob, p⟩ = some (h1, ⟨ob, p⟩) ∧
      BInv h1 (fun x => cS x + bump ob x) cW ∧ h1.next = h.next ∧ h1.log = h.log := by
  cases ob with
  | none =>
    refine ⟨h, rfl, ?_, rfl, rfl⟩
    exact hI.congr (fun b => by simp [bump_none]) (fun b => rfl)
  | some b =>
    obtain ⟨h1, e, hB, hn, hl⟩ := hI.inc_strong (hp b rfl) (hsm b)
    exact ⟨h1, by simp [shared_ptr.copy, e], hB, hn, hl⟩

theorem BInv.release_strong {h : Heap} {cS cW : Nat → Nat} (hI : BInv h cS cW) (x : shared_ptr)
    (hp : ∀ b, x.block = some b → 0 < cS b) (hsm : ∀ b, cW b + cS b < SIZE_MOD) :
    ∃ h1, shared_ptr.dtor h x = some h1 ∧
      BInv h1 (fun b => cS b - bump x.block b) cW ∧ h1.next = h.next ∧
      ((∀ b, x.block = some b → 1 < cS b) → h1.log = h.log) := by
  cases hx : x.block with
  | none =>
    refine ⟨h, by simp [shared_ptr.dtor, hx], ?_, rfl, fun _ => rfl⟩
    exact hI.congr (fun b => by simp [bump_none]) (fun b => rfl)
  | some b =>
    obtain ⟨h1, e, hB, hn, hl⟩ := hI.dec_strong (hp b hx) (hsm b)
    exact ⟨h1, by simp [shared_ptr.dtor, hx, e], hB, hn, fun h2 => hl (h2 b rfl)⟩

theorem BInv.acquire_weak {h : Heap} {cS cW : Nat → Nat} (hI : BInv h cS cW) (ob : Option Nat)
    (hp : ∀ b, ob = some b → 0 < cW b + cS b) (hsm : ∀ b, cW b + cS b + 1 < SIZE_MOD)
    (p : Addr) :
    ∃ h1, weak_ptr.copy h ⟨ob, p⟩ = some (h1, ⟨ob, p⟩) ∧
      BInv h1 cS (fun x => cW x + bump ob x) ∧ h1.next = h.next ∧ h1.log = h.log := by
  cases ob with
  | none =>
    refine ⟨h, rfl, ?_, rfl, rfl⟩
    exact hI.congr (fun b => rfl) (fun b => by simp [bump_none])
  | some b =>
    obtain ⟨h1, e, hB, hn, hl⟩ := hI.inc_weak (hp b rfl) (hsm b)
    exact ⟨h1, by simp [weak_ptr.copy, e], hB, hn, hl⟩

theorem BInv.release_weak {h : Heap} {cS cW : Nat → Nat} (hI : BInv h cS cW) (w : weak_ptr)
    (hp : ∀ b, w.block = some b → 0 < cW b) (hsm : ∀ b, cW b + cS b < SIZE_MOD) :
    ∃ h1, weak_ptr.dtor h w = some h1 ∧
      BInv h1 cS (fun b => cW b - bump w.block b) ∧ h1.next = h.next := by
  cases hw : w.block with
  | none =>
    refine ⟨h, by simp [weak_ptr.dtor, hw], ?_, rfl⟩
    exact hI.congr (fun b => rfl) (fun b => by simp [bump_none])
  | some b =>
    obtain ⟨h1, e, hB, hn, _⟩ := hI.dec_weak (hp b hw) (hsm b)
    exact ⟨h1, by simp [weak_ptr.dtor, hw, e], hB, hn⟩

theorem aliasing_eq_copy (h : Heap) (o : shared_ptr) (p : Addr) :
    shared_ptr.aliasing h o p = shared_ptr.copy h ⟨o.block, p⟩ := rfl

theorem from_shared_eq_copy (h : Heap) (o : shared_ptr) :
    weak_ptr.from_shared h o = weak_ptr.copy h ⟨o.block, o.ptr⟩ := rfl

theorem BInv.lock {h : Heap} {cS cW : Nat → Nat} (hI : BInv h cS cW) (w : weak_ptr)
    (hp : ∀ b, w.block = some b → 0 < cW b) (hsm : ∀ b, cW b + cS b + 1 < SIZE_MOD) :
    ∃ h1 x, weak_ptr.lock h w = some (h1, x) ∧
      BInv h1 (fun b => cS b + bump x.block b) cW ∧ h1.next = h.next ∧ h1.log = h.log ∧
      (∀ b, x.block = some b → 0 < cS b) ∧
      ((∃ b, w.block = some b ∧ 0 < cS b) → x = ⟨w.block, w.ptr⟩) ∧
      ((∀ b, w.block = some b → cS b = 0) → x = shared_ptr.default ∧ h1 = h) := by
  cases hw : w.block with
  | none =>
    refine ⟨h, shared_ptr.default, by simp [weak_ptr.lock, hw], ?_, rfl, rfl, ?_, ?_, ?_⟩
    · exact hI.congr (fun b => by simp [shared_ptr.default, bump_none]) (fun b => rfl)
    · intro b hb; simp [shared_ptr.default] at hb
    · rintro ⟨b, hb, _⟩; cases hb
    · intro _; exact ⟨rfl, rfl⟩
  | some b =>
    obtain ⟨c, hc, hs, hwk, _⟩ := hI.cell_of_pos (b := b) (by have := hp b hw; omega)
    by_cases h0 : cS b = 0
    · refine ⟨h, shared_ptr.default, ?_, ?_, rfl, rfl, ?_, ?_, ?_⟩
      · simp [weak_ptr.lock, hw, control_block.use_count, hc, hs, h0]
      · exact hI.congr (fun b => by simp [shared_ptr.default, bump_none]) (fun b => rfl)
      · intro b hb; simp [shared_ptr.default] at hb
      · rintro ⟨b1, hb1, hpos⟩
        cases hb1
        omega
      · intro _; exact ⟨rfl, rfl⟩
    · obtain ⟨h1, e, hB, hn, hl⟩ := hI.inc_strong (b := b) (by omega) (hsm b)
      refine ⟨h1, ⟨some b, w.ptr⟩, ?_, hB, hn, hl, ?_, ?_, ?_⟩
      · simp [weak_ptr.lock, hw, control_block.use_count, hc, hs, h0, shared_ptr.from_block, e]
      · intro b1 hb1
        cases hb1
        omega
      · intro _; rfl
      · intro hz
        exact absurd (hz b rfl) h0

/-! ## The operations of the state machine -/

theorem Small.bound {s : State} (hs : Small s) (b : Nat) :
    cntW s.weak b + cntS s.shared b + 1 < SIZE_MOD := by
  have h1 : cntS s.shared b ≤ s.shared.countP Option.isSome := by
    apply List.countP_mono_left
    intro o _ ho
    cases o with
    | none => simp [holdsS] at ho
    | some x => rfl
  have h2 : cntW s.weak b ≤ s.weak.countP Option.isSome := by
    apply List.countP_mono_left
    intro o _ ho
    cases o with
    | none => simp [holdsW] at ho
    | some x => rfl
  unfold Small State.live at hs
  omega

theorem held_shared {s : State} {i : Nat} {x : shared_ptr} (hx : s.sget i = some x) (b : Nat) :
    bump x.block b ≤ cntS s.shared b := by
  have := cntS_unset (sget_eq hx) b
  omega

theorem held_weak {s : State} {i : Nat} {w : weak_ptr} (hw : s.wget i = some w) (b : Nat) :
    bump w.block b ≤ cntW s.weak b := by
  have := cntW_unset (wget_eq hw) b
  omega

theorem pos_of_held {ob : Option Nat} {n : Nat → Nat} (h : ∀ b, bump ob b ≤ n b) (b : Nat)
    (hb : ob = some b) : 0 < n b := by
  have := h b
  rw [hb, bump_self] at this
  exact this

/-- A new shared handle that takes its unit from a block with a live shared handle. -/
theorem push_acquired {s : State} (hI : Inv s) (hs : Small s) (ob : Option Nat) (p : Addr)
    (hp : ∀ b, ob = some b → 0 < cntS s.shared b) :
    ∃ h1, shared_ptr.copy s.heap ⟨ob, p⟩ = some (h1, ⟨ob, p⟩) ∧ h1.log = s.heap.log ∧
      Inv { s with heap := h1, shared := s.shared ++ [some ⟨ob, p⟩] } ∧
      Delta s { s with heap := h1, shared := s.shared ++ [some ⟨ob, p⟩] } ob none none none := by
  obtain ⟨h1, e, hB, hn, hl⟩ := BInv.acquire_strong hI ob hp hs.bound p
  refine ⟨h1, e, hl, ?_, ?_⟩
  · exact hB.congr (fun b => cntS_push _ _ _) (fun b => rfl)
  · constructor
    · intro b; simp [cntS_push, bump_none]
    · intro b; rfl
    · intro b; simp [bump_none]
    · intro b; simp [bump_none]
    · intro b hb; exact Or.inl (hp b hb)
    · intro b hb; cases hb
    · exact Or.inl hn
    · simp
    · exact Nat.le_refl _
    · exact Or.inl rfl

/-- A new weak handle that takes its unit from a block with a live handle. -/
theorem push_acquired_weak {s : State} (hI : Inv s) (hs : Small s) (ob : Option Nat) (p : Addr)
    (hp : ∀ b, ob = some b → 0 < cntW s.weak b + cntS s.shared b) :
    ∃ h1, weak_ptr.copy s.heap ⟨ob, p⟩ = some (h1, ⟨ob, p⟩) ∧ h1.log = s.heap.log ∧
      Inv { s with heap := h1, weak := s.weak ++ [some ⟨ob, p⟩] } ∧
      Delta s { s with heap := h1, weak := s.weak ++ [some ⟨ob, p⟩] } none none ob none := by
  obtain ⟨h1, e, hB, hn, hl⟩ := BInv.acquire_weak hI ob hp hs.bound p
  refine ⟨h1, e, hl, ?_, ?_⟩
  · exact hB.congr (fun b => rfl) (fun b => cntW_push _ _ _)
  · constructor
    · intro b; rfl
    · intro b; simp [cntW_push, bump_none]
    · intro b; simp [bump_none]
    · intro b; simp [bump_none]
    · intro b hb; cases hb
    · intro b hb; exact hp b hb
    · exact Or.inl hn
    · exact Nat.le_refl _
    · simp
    · exact Or.inl rfl

/-- A new shared handle on a block that is allocated for it. -/
theorem push_fresh {s : State} (hI : Inv s) (k : block_kind) (p : Addr) :
    ∃ h1, control_block.inc_strong_counter (new_block s.heap k) s.heap.next = some h1 ∧
      h1.log = s.heap.log ∧
      Inv { s with heap := h1, shared := s.shared ++ [some ⟨some s.heap.next, p⟩] } ∧
      Delta s { s with heap := h1, shared := s.shared ++ [some ⟨some s.heap.next, p⟩] }
        (some s.heap.next) none none none := by
  obtain ⟨h1, e, hB, hn, hl⟩ := BInv.alloc_strong hI k
  refine ⟨h1, e, hl, ?_, ?_⟩
  · exact hB.congr (fun b => cntS_push _ _ _) (fun b => rfl)
  · constructor
    · intro b; simp [cntS_push, bump_none]
    · intro b; rfl
    · intro b; simp [bump_none]
    · intro b; simp [bump_none]
    · intro b hb
      cases hb
      exact Or.inr ⟨rfl, hn⟩
    · intro b hb; cases hb
    · exact Or.inr ⟨hn, rfl⟩
    · simp
    · exact Nat.le_refl _
    · exact Or.inl rfl

/-- The shared handle of slot `i` takes a unit on `ob` and then gives up the unit it had. -/
theorem replace_shared {s : State} (hI : Inv s) (hs : Small s) {i : Nat} {x : shared_ptr}
    (hx : s.sget i = some x) (ob : Option Nat) (p : Addr)
    (hp : ∀ b, ob = some b → 0 < cntS s.shared b) :
    ∃ h1 h2, shared_ptr.copy s.heap ⟨ob, p⟩ = some (h1, ⟨ob, p⟩) ∧
      shared_ptr.dtor h1 x = some h2 ∧ h1.log = s.heap.log ∧
      ((∀ b, x.block = some b → 1 < cntS s.shared b + bump ob b) → h2.log = s.heap.log) ∧
      Inv { s with heap := h2, shared := s.shared.set i (some ⟨ob, p⟩) } ∧
      Delta s { s with heap := h2, shared := s.shared.set i (some ⟨ob, p⟩) }
        ob x.block none none := by
  have hheld := held_shared hx
  obtain ⟨h1, e1, hB1, hn1, hl1⟩ := BInv.acquire_strong hI ob hp hs.bound p
  obtain ⟨h2, e2, hB2, hn2, hl2⟩ := BInv.release_strong hB1 x
    (fun b hb => by have := pos_of_held hheld b hb; omega)
    (fun b => by have := hs.bound b; have := bump_le ob b; omega)
  have hset := cntS_set (sget_eq hx) ⟨ob, p⟩
  refine ⟨h1, h2, e1, e2, hl1, ?_, ?_, ?_⟩
  · intro hc
    rw [hl2 hc, hl1]
  · apply hB2.congr
    · intro b
      have := hset b
      have := hheld b
      simp only at *
      omega
    · intro b; rfl
  · constructor
    · intro b; exact hset b
    · intro b; rfl
    · exact hheld
    · intro b; simp [bump_none]
    · intro b hb; exact Or.inl (hp b hb)
    · intro b hb; cases hb
    · left
      show h2.next = s.heap.next
      rw [hn2, hn1]
    · simp
    · exact Nat.le_refl _
    · exact Or.inr rfl

/-- The shared handle of slot `i` is destroyed. -/
theorem destroy_shared {s : State} (hI : Inv s) (hs : Small s) {i : Nat} {x : shared_ptr}
    (hx : s.sget i = some x) :
    ∃ h1, shared_ptr.dtor s.heap x = some h1 ∧
      Inv { s with heap := h1, shared := s.shared.set i none } ∧
      Delta s { s with heap := h1, shared := s.shared.set i none } none x.block none none := by
  have hheld := held_shared hx
  obtain ⟨h1, e1, hB1, hn1, _⟩ := BInv.release_strong hI x
    (fun b hb => pos_of_held hheld b hb)
    (fun b => by have := hs.bound b; omega)
  have hset := cntS_unset (sget_eq hx)
  refine ⟨h1, e1, ?_, ?_⟩
  · apply hB1.congr
    · intro b
      have := hset b
      simp only at *
      omega
    · intro b; rfl
  · constructor
    · intro b; simp [bump_none, hset b]
    · intro b; rfl
    · exact hheld
    · intro b; simp [bump_none]
    · intro b hb; cases hb
    · intro b hb; cases hb
    · exact Or.inl hn1
    · simp
    · exact Nat.le_refl _
    · exact Or.inr rfl

/-- The weak handle of slot `i` takes a unit on `ob` and then gives up the unit it had. -/
theorem replace_weak {s : State} (hI : Inv s) (hs : Small s) {i : Nat} {w : weak_ptr}
    (hw : s.wget i = some w) (ob : Option Nat) (p : Addr)
    (hp : ∀ b, ob = some b → 0 < cntW s.weak b + cntS s.shared b) :
    ∃ h1 h2, weak_ptr.copy s.heap ⟨ob, p⟩ = some (h1, ⟨ob, p⟩) ∧
      weak_ptr.dtor h1 w = some h2 ∧
      Inv { s with heap := h2, weak := s.weak.set i (some ⟨ob, p⟩) } ∧
      Delta s { s with heap := h2, weak := s.weak.set i (some ⟨ob, p⟩) }
        none none ob w.block := by
  have hheld := held_weak hw
  obtain ⟨h1, e1, hB1, hn1, _⟩ := BInv.acquire_weak hI ob hp hs.bound p
  obtain ⟨h2, e2, hB2, hn2⟩ := BInv.release_weak hB1 w
    (fun b hb => by have := pos_of_held hheld b hb; omega)
    (fun b => by have := hs.bound b; have := bump_le ob b; omega)
  have hset := cntW_set (wget_eq hw) ⟨ob, p⟩
  refine ⟨h1, h2, e1, e2, ?_, ?_⟩
  · apply hB2.congr
    · intro b; rfl
    · intro b
      have := hset b
      have := hheld b
      simp only at *
      omega
  · constructor
    · intro b; rfl
    · intro b; exact hset b
    · intro b; simp [bump_none]
    · exact hheld
    · intro b hb; cases hb
    · intro b hb; exact hp b hb
    · left
      show h2.next = s.heap.next
      rw [hn2, hn1]
    · exact Nat.le_refl _
    · simp
    · exact Or.inl rfl

/-- The weak handle of slot `i` is destroyed. -/
theorem destroy_weak {s : State} (hI : Inv s) (hs : Small s) {i : Nat} {w : weak_ptr}
    (hw : s.wget i = some w) :
    ∃ h1, weak_ptr.dtor s.heap w = some h1 ∧
      Inv { s with heap := h1, weak := s.weak.set i none } ∧
      Delta s { s with heap := h1, weak := s.weak.set i none } none none none w.block := by
  have hheld := held_weak hw
  obtain ⟨h1, e1, hB1, hn1⟩ := BInv.release_weak hI w
    (fun b hb => pos_of_held hheld b hb)
    (fun b => by have := hs.bound b; omega)
  have hset := cntW_unset (wget_eq hw)
  refine ⟨h1, e1, ?_, ?_⟩
  · apply hB1.congr
    · intro b; rfl
    · intro b
      have := hset b
      simp only at *
      omega
  · constructor
    · intro b; rfl
    · intro b; simp [bump_none, hset b]
    · intro b; simp [bump_none]
    · exact hheld
    · intro b hb; cases hb
    · intro b hb; cases hb
    · exact Or.inl hn1
    · exact Nat.le_refl _
    · simp
    · exact Or.inl rfl

/-- A call of a deleter outside any control block. -/
theorem BInv.emit_other {h : Heap} {cS cW : Nat → Nat} (hI : BInv h cS cW) (e : Event)
    (he1 : ∀ b1, e ≠ Event.delete_object b1) (he2 : ∀ b1, e ≠ Event.delete_this b1) :
    BInv (h.emit [e]) cS cW := by
  constructor
  · exact hI.alloc
  · exact hI.freed
  · intro b
    have := hI.dobj b
    simp [Heap.emit, Heap.destroyed, List.count_cons, he1] at this ⊢
    exact this
  · intro b
    have := hI.dthis b
    simp [Heap.emit, Heap.deallocated, List.count_cons, he2] at this ⊢
    exact this
  · intro b
    apply precedes_append (hI.order b)
    intro hm
    simp at hm
    exact absurd hm.symm (he2 b)

theorem Delta.idle {s s1 : State} (hS : ∀ b, cntS s1.shared b = cntS s.shared b)
    (hW : ∀ b, cntW s1.weak b = cntW s.weak b) (hn : s1.heap.next = s.heap.next)
    (h1 : s.shared.length ≤ s1.shared.length) (h2 : s.weak.length ≤ s1.weak.length) :
    Delta s s1 none none none none := by
  constructor
  · intro b; simp [hS b]
  · intro b; simp [hW b]
  · intro b; simp [bump_none]
  · intro b; simp [bump_none]
  · intro b hb; cases hb
  · intro b hb; cases hb
  · exact Or.inl hn
  · exact h1
  · exact h2
  · exact Or.inl rfl

/-- Move construction from the shared handle of slot `i`. -/
theorem move_shared {s : State} (hI : Inv s) {i : Nat} {x : shared_ptr}
    (hx : s.sget i = some x) :
    Inv { s with shared := s.shared.set i (some ⟨none, nullptr⟩) ++ [some ⟨x.block, x.ptr⟩] } ∧
    Delta s { s with shared := s.shared.set i (some ⟨none, nullptr⟩) ++ [some ⟨x.block, x.ptr⟩] }
      none none none none := by
  have hset := cntS_set (sget_eq hx) ⟨none, nullptr⟩
  have hc : ∀ b, cntS (s.shared.set i (some ⟨none, nullptr⟩) ++ [some ⟨x.block, x.ptr⟩]) b
      = cntS s.shared b := by
    intro b
    have := hset b
    rw [cntS_push]
    simp only [bump_none] at this ⊢
    omega
  constructor
  · exact BInv.congr hI hc (fun b => rfl)
  · exact Delta.idle hc (fun b => rfl) rfl (by simp) (Nat.le_refl _)

/-- Move construction from the weak handle of slot `i`. -/
theorem move_weak {s : State} (hI : Inv s) {i : Nat} {w : weak_ptr}
    (hw : s.wget i = some w) :
    Inv { s with weak := s.weak.set i (some ⟨none, nullptr⟩) ++ [some ⟨w.block, w.ptr⟩] } ∧
    Delta s { s with weak := s.weak.set i (some ⟨none, nullptr⟩) ++ [some ⟨w.block, w.ptr⟩] }
      none none none none := by
  have hset := cntW_set (wget_eq hw) ⟨none, nullptr⟩
  have hc : ∀ b, cntW (s.weak.set i (some ⟨none, nullptr⟩) ++ [some ⟨w.block, w.ptr⟩]) b
      = cntW s.weak b := by
    intro b
    have := hset b
    rw [cntW_push]
    simp only [bump_none] at this ⊢
    omega
  constructor
  · exact BInv.congr hI (fun b => rfl) hc
  · exact Delta.idle (fun b => rfl) hc rfl (Nat.le_refl _) (by simp)

/-- Move assignment between the shared handles of two different slots. -/
theorem move_assign_shared {s : State} (hI : Inv s) (hs : Small s) {i j : Nat}
    {x o : shared_ptr} (hx : s.sget i = some x) (ho : s.sget j = some o) (hij : i ≠ j) :
    ∃ h1, shared_ptr.dtor s.heap x = some h1 ∧
      Inv { s with heap := h1, shared :=
        (s.shared.set i (some ⟨o.block, o.ptr⟩)).set j (some ⟨none, nullptr⟩) } ∧
      Delta s { s with heap := h1, shared :=
        (s.shared.set i (some ⟨o.block, o.ptr⟩)).set j (some ⟨none, nullptr⟩) }
        none x.block none none := by
  have hheld := held_shared hx
  obtain ⟨h1, e1, hB1, hn1, _⟩ := BInv.release_strong hI x
    (fun b hb => pos_of_held hheld b hb)
    (fun b => by have := hs.bound b; omega)
  have hset1 := cntS_set (sget_eq hx) ⟨o.block, o.ptr⟩
  have hj : (s.shared.set i (some ⟨o.block, o.ptr⟩)).get? j = some (some o) := by
    have := sget_eq ho
    rw [List.get?_eq_getElem?] at this ⊢
    rw [List.getElem?_set_ne hij]
    exact this
  have hset2 := cntS_set hj ⟨none, nullptr⟩
  have hc : ∀ b, cntS ((s.shared.set i (some ⟨o.block, o.ptr⟩)).set j (some ⟨none, nullptr⟩)) b
      + bump x.block b = cntS s.shared b := by
    intro b
    have := hset1 b
    have := hset2 b
    simp only [bump_none] at *
    omega
  refine ⟨h1, e1, ?_, ?_⟩
  · apply hB1.congr
    · intro b
      have := hc b
      simp only at *
      omega
    · intro b; rfl
  · constructor
    · intro b; simp [bump_none, hc b]
    · intro b; rfl
    · exact hheld
    · intro b; simp [bump_none]
    · intro b hb; cases hb
    · intro b hb; cases hb
    · exact Or.inl hn1
    · simp
    · exact Nat.le_refl _
    · exact Or.inr rfl

/-- Move assignment between the weak handles of two different slots. -/
theorem move_assign_weak {s : State} (hI : Inv s) (hs : Small s) {i j : Nat}
    {w o : weak_ptr} (hw : s.wget i = some w) (ho : s.wget j = some o) (hij : i ≠ j) :
    ∃ h1, weak_ptr.dtor s.heap w = some h1 ∧
      Inv { s with heap := h1, weak :=
        (s.weak.set i (some ⟨o.block, o.ptr⟩)).set j (some ⟨none, nullptr⟩) } ∧
      Delta s { s with heap := h1, weak :=
        (s.weak.set i (some ⟨o.block, o.ptr⟩)).set j (some ⟨none, nullptr⟩) }
        none none none w.block := by
  have hheld := held_weak hw
  obtain ⟨h1, e1, hB1, hn1⟩ := BInv.release_weak hI w
    (fun b hb => pos_of_held hheld b hb)
    (fun b => by have := hs.bound b; omega)
  have hset1 := cntW_set (wget_eq hw) ⟨o.block, o.ptr⟩
  have hj : (s.weak.set i (some ⟨o.block, o.ptr⟩)).get? j = some (some o) := by
    have := wget_eq ho
    rw [List.get?_eq_getElem?] at this ⊢
    rw [List.getElem?_set_ne hij]
    exact this
  have hset2 := cntW_set hj ⟨none, nullptr⟩
  have hc : ∀ b, cntW ((s.weak.set i (some ⟨o.block, o.ptr⟩)).set j (some ⟨none, nullptr⟩)) b
      + bump w.block b = cntW s.weak b := by
    intro b
    have := hset1 b
    have := hset2 b
    simp only [bump_none] at *
    omega
  refine ⟨h1, e1, ?_, ?_⟩
  · apply hB1.congr
    · intro b; rfl
    · intro b
      have := hc b
      simp only at *
      omega
  · constructor
    · intro b; rfl
    · intro b; simp [bump_none, hc b]
    · intro b; simp [bump_none]
    · exact hheld
    · intro b hb; cases hb
    · intro b hb; cases hb
    · exact Or.inl hn1
    · exact Nat.le_refl _
    · simp
    · exact Or.inl rfl

/-- The shared handle of slot `i` adopts a block that is allocated for it and then gives up
the unit it had. -/
theorem replace_fresh {s : State} (hI : Inv s) (hs : Small s) {i : Nat} {x : shared_ptr}
    (hx : s.sget i = some x) (k : block_kind) (p : Addr) :
    ∃ h1 h2, control_block.inc_strong_counter (new_block s.heap k) s.heap.next = some h1 ∧
      shared_ptr.dtor h1 x = some h2 ∧ h1.log = s.heap.log ∧
      Inv { s with heap := h2, shared := s.shared.set i (some ⟨some s.heap.next, p⟩) } ∧
      Delta s { s with heap := h2, shared := s.shared.set i (some ⟨some s.heap.next, p⟩) }
        (some s.heap.next) x.block none none := by
  have hheld := held_shared hx
  obtain ⟨h1, e1, hB1, hn1, hl1⟩ := BInv.alloc_strong hI k
  obtain ⟨h2, e2, hB2, hn2, _⟩ := BInv.release_strong hB1 x
    (fun b hb => by have := pos_of_held hheld b hb; omega)
    (fun b => by have := hs.bound b; have := bump_le (some s.heap.next) b; omega)
  have hset := cntS_set (sget_eq hx) ⟨some s.heap.next, p⟩
  refine ⟨h1, h2, e1, e2, hl1, ?_, ?_⟩
  · apply hB2.congr
    · intro b
      have := hset b
      have := hheld b
      simp only at *
      omega
    · intro b; rfl
  · constructor
    · intro b; exact hset b
    · intro b; rfl
    · exact hheld
    · intro b; simp [bump_none]
    · intro b hb
      cases hb
      right
      refine ⟨rfl, ?_⟩
      show h2.next = s.heap.next + 1
      rw [hn2, hn1]
    · intro b hb; cases hb
    · right
      refine ⟨?_, rfl⟩
      show h2.next = s.heap.next + 1
      rw [hn2, hn1]
    · simp
    · exact Nat.le_refl _
    · exact Or.inr rfl

/-- A new empty shared handle. -/
theorem push_empty {s : State} (hI : Inv s) (p : Addr) :
    Inv { s with shared := s.shared ++ [some ⟨none, p⟩] } ∧
    Delta s { s with shared := s.shared ++ [some ⟨none, p⟩] } none none none none := by
  have hc : ∀ b, cntS (s.shared ++ [some ⟨none, p⟩]) b = cntS s.shared b := by
    intro b; simp [cntS_push, bump_none]
  exact ⟨BInv.congr hI hc (fun b => rfl),
    Delta.idle hc (fun b => rfl) rfl (by simp) (Nat.le_refl _)⟩

/-- A new empty weak handle. -/
theorem push_empty_weak {s : State} (hI : Inv s) (p : Addr) :
    Inv { s with weak := s.weak ++ [some ⟨none, p⟩] } ∧
    Delta s { s with weak := s.weak ++ [some ⟨none, p⟩] } none none none none := by
  have hc : ∀ b, cntW (s.weak ++ [some ⟨none, p⟩]) b = cntW s.weak b := by
    intro b; simp [cntW_push, bump_none]
  exact ⟨BInv.congr hI (fun b => rfl) hc,
    Delta.idle (fun b => rfl) hc rfl (Nat.le_refl _) (by simp)⟩

/-- Nothing but a call of a deleter outside any control block. -/
theorem emit_only {s : State} (hI : Inv s) (d : Nat) (p : Addr) :
    Inv { s with heap := s.heap.emit [.deleter d p] } ∧
    Delta s { s with heap := s.heap.emit [.deleter d p] } none none none none :=
  ⟨BInv.emit_other hI _ (by simp) (by simp),
    Delta.idle (fun _ => rfl) (fun _ => rfl) rfl (Nat.le_refl _) (Nat.le_refl _)⟩

theorem Delta.refl (s : State) : Delta s s none none none none :=
  Delta.idle (fun _ => rfl) (fun _ => rfl) rfl (Nat.le_refl _) (Nat.le_refl _)

theorem isSome_get {α : Type} {o : Option α} (h : o.isSome = true) : ∃ x, o = some x := by
  cases o with
  | none => cases h
  | some x => exact ⟨x, rfl⟩

/-- Every operation on live handles of a state that keeps the counting protocol runs without
undefined behaviour and leads to a state that keeps the protocol. -/
theorem step_ok {s : State} (hI : Inv s) (hs : Small s) (op : Op)
    (he : enabled s op = true) :
    ∃ s1, step s op = some s1 ∧ Inv s1 ∧ ∃ aS rS aW rW, Delta s s1 aS rS aW rW := by
  cases op with
  | s_default =>
    obtain ⟨h1, h2⟩ := push_empty hI nullptr
    exact ⟨_, rfl, h1, _, _, _, _, h2⟩
  | s_raw p d ok =>
    cases ok with
    | true =>
      obtain ⟨h1, e, _, h2, h3⟩ := push_fresh hI (.regular p d) p
      exact ⟨_, by simp [step, shared_ptr.from_raw, e], h2, _, _, _, _, h3⟩
    | false =>
      obtain ⟨h1, h2⟩ := emit_only hI d p
      exact ⟨_, by simp [step, shared_ptr.from_raw], h1, _, _, _, _, h2⟩
  | s_alias i p =>
    obtain ⟨x, hx⟩ := isSome_get he
    obtain ⟨h1, e, _, h2, h3⟩ := push_acquired hI hs x.block p (pos_of_held (held_shared hx))
    exact ⟨_, by simp [step, hx, aliasing_eq_copy, e], h2, _, _, _, _, h3⟩
  | s_copy i =>
    obtain ⟨x, hx⟩ := isSome_get he
    obtain ⟨h1, e, _, h2, h3⟩ :=
      push_acquired hI hs x.block x.ptr (pos_of_held (held_shared hx))
    exact ⟨_, by simp [step, hx, e], h2, _, _, _, _, h3⟩
  | s_move i =>
    obtain ⟨x, hx⟩ := isSome_get he
    obtain ⟨h1, h2⟩ := move_shared hI hx
    exact ⟨_, by simp [step, hx, shared_ptr.move], h1, _, _, _, _, h2⟩
  | s_destroy i =>
    obtain ⟨x, hx⟩ := isSome_get he
    obtain ⟨h1, e, h2, h3⟩ := destroy_shared hI hs hx
    exact ⟨_, by simp [step, hx, e], h2, _, _, _, _, h3⟩
  | s_assign i j =>
    simp only [enabled, Bool.and_eq_true] at he
    obtain ⟨x, hx⟩ := isSome_get he.1
    obtain ⟨o, ho⟩ := isSome_get he.2
    by_cases hij : i = j
    · exact ⟨s, by simp [step, hx, ho, hij], hI, _, _, _, _, Delta.refl s⟩
    · obtain ⟨h1, h2, e1, e2, _, _, h3, h4⟩ :=
        replace_shared hI hs hx o.block o.ptr (pos_of_held (held_shared ho))
      exact ⟨_, by simp [step, hx, ho, hij, shared_ptr.assign, e1, shared_ptr.swap, e2],
        h3, _, _, _, _, h4⟩
  | s_move_assign i j =>
    simp only [enabled, Bool.and_eq_true] at he
    obtain ⟨x, hx⟩ := isSome_get he.1
    obtain ⟨o, ho⟩ := isSome_get he.2
    by_cases hij : i = j
    · exact ⟨s, by simp [step, hx, ho, hij], hI, _, _, _, _, Delta.refl s⟩
    · obtain ⟨h1, e1, h3, h4⟩ := move_assign_shared hI hs hx ho hij
      exact ⟨_, by simp [step, hx, ho, hij, shared_ptr.move_assign, shared_ptr.move,
        shared_ptr.swap, e1], h3, _, _, _, _, h4⟩
  | s_reset i =>
    obtain ⟨x, hx⟩ := isSome_get he
    obtain ⟨h1, h2, e1, e2, _, _, h3, h4⟩ :=
      replace_shared hI hs hx none nullptr (fun b hb => by cases hb)
    simp [shared_ptr.copy] at e1
    subst e1
    exact ⟨_, by simp [step, hx, shared_ptr.reset, shared_ptr.swap, shared_ptr.default, e2],
      h3, _, _, _, _, h4⟩
  | s_reset_raw i p d ok =>
    obtain ⟨x, hx⟩ := isSome_get he
    cases ok with
    | true =>
      obtain ⟨h1, h2, e1, e2, _, h3, h4⟩ := replace_fresh hI hs hx (.regular p d) p
      exact ⟨_, by simp [step, hx, shared_ptr.reset_raw, shared_ptr.from_raw, e1,
        shared_ptr.swap, e2], h3, _, _, _, _, h4⟩
    | false =>
      obtain ⟨h1, h2⟩ := emit_only hI d p
      exact ⟨_, by simp [step, hx, shared_ptr.reset_raw, shared_ptr.from_raw],
        h1, _, _, _, _, h2⟩
  | s_make_shared alloc =>
    cases alloc with
    | none =>
      exact ⟨s, by simp [step, make_shared], hI, _, _, _, _, Delta.refl s⟩
    | some a =>
      obtain ⟨h1, e, _, h2, h3⟩ := push_fresh hI (.inplace a) a
      exact ⟨_, by simp [step, make_shared, e], h2, _, _, _, _, h3⟩
  | w_default =>
    obtain ⟨h1, h2⟩ := push_empty_weak hI nullptr
    exact ⟨_, rfl, h1, _, _, _, _, h2⟩
  | w_copy i =>
    obtain ⟨w, hw⟩ := isSome_get he
    obtain ⟨h1, e, _, h2, h3⟩ := push_acquired_weak hI hs w.block w.ptr
      (fun b hb => by have := pos_of_held (held_weak hw) b hb; omega)
    exact ⟨_, by simp [step, hw, e], h2, _, _, _, _, h3⟩
  | w_from_shared i =>
    obtain ⟨x, hx⟩ := isSome_get he
    obtain ⟨h1, e, _, h2, h3⟩ := push_acquired_weak hI hs x.block x.ptr
      (fun b hb => by have := pos_of_held (held_shared hx) b hb; omega)
    exact ⟨_, by simp [step, hx, from_shared_eq_copy, e], h2, _, _, _, _, h3⟩
  | w_move i =>
    obtain ⟨w, hw⟩ := isSome_get he
    obtain ⟨h1, h2⟩ := move_weak hI hw
    exact ⟨_, by simp [step, hw, weak_ptr.move], h1, _, _, _, _, h2⟩
  | w_destroy i =>
    obtain ⟨w, hw⟩ := isSome_get he
    obtain ⟨h1, e, h2, h3⟩ := destroy_weak hI hs hw
    exact ⟨_, by simp [step, hw, e], h2, _, _, _, _, h3⟩
  | w_assign i j =>
    simp only [enabled, Bool.and_eq_true] at he
    obtain ⟨w, hw⟩ := isSome_get he.1
    obtain ⟨o, ho⟩ := isSome_get he.2
    by_cases hij : i = j
    · exact ⟨s, by simp [step, hw, ho, hij], hI, _, _, _, _, Delta.refl s⟩
    · obtain ⟨h1, h2, e1, e2, h3, h4⟩ := replace_weak hI hs hw o.block o.ptr
        (fun b hb => by have := pos_of_held (held_weak ho) b hb; omega)
      exact ⟨_, by simp [step, hw, ho, hij, weak_ptr.assign, e1, weak_ptr.swap, e2],
        h3, _, _, _, _, h4⟩
  | w_assign_shared i j =>
    simp only [enabled, Bool.and_eq_true] at he
    obtain ⟨w, hw⟩ := isSome_get he.1
    obtain ⟨o, ho⟩ := isSome_get he.2
    obtain ⟨h1, h2, e1, e2, h3, h4⟩ := replace_weak hI hs hw o.block o.ptr
      (fun b hb => by have := pos_of_held (held_shared ho) b hb; omega)
    exact ⟨_, by simp [step, hw, ho, weak_ptr.assign_shared, from_shared_eq_copy, e1,
      weak_ptr.swap, e2], h3, _, _, _, _, h4⟩
  | w_move_assign i j =>
    simp only [enabled, Bool.and_eq_true] at he
    obtain ⟨w, hw⟩ := isSome_get he.1
    obtain ⟨o, ho⟩ := isSome_get he.2
    by_cases hij : i = j
    · exact ⟨s, by simp [step, hw, ho, hij], hI, _, _, _, _, Delta.refl s⟩
    · obtain ⟨h1, e1, h3, h4⟩ := move_assign_weak hI hs hw ho hij
      exact ⟨_, by simp [step, hw, ho, hij, weak_ptr.move_assign, weak_ptr.move,
        weak_ptr.swap, e1], h3, _, _, _, _, h4⟩
  | w_lock i =>
    obtain ⟨w, hw⟩ := isSome_get he
    obtain ⟨h1, x, e, hB, hn, _, hsrc, _, _⟩ := BInv.lock hI w
      (pos_of_held (held_weak hw)) hs.bound
    refine ⟨{ s with heap := h1, shared := s.shared ++ [some x] }, by simp [step, hw, e],
      hB.congr (fun b => cntS_push _ _ _) (fun _ => rfl), x.block, none, none, none, ?_⟩
    constructor
    · intro b; simp [cntS_push, bump_none]
    · intro b; rfl
    · intro b; simp [bump_none]
    · intro b; simp [bump_none]
    · intro b hb; exact Or.inl (hsrc b hb)
    · intro b hb; cases hb
    · exact Or.inl hn
    · simp
    · exact Nat.le_refl _
    · exact Or.inl rfl

theorem step_enabled {s s1 : State} {op : Op} (h : step s op = some s1) :
    enabled s op = true := by
  cases op <;> simp only [enabled, Bool.and_eq_true] <;> unfold step at h
  case s_alias i p => cases hx : s.sget i <;> simp [hx] at h ⊢
  case s_copy i => cases hx : s.sget i <;> simp [hx] at h ⊢
  case s_move i => cases hx : s.sget i <;> simp [hx] at h ⊢
  case s_destroy i => cases hx : s.sget i <;> simp [hx] at h ⊢
  case s_assign i j => cases hx : s.sget i <;> cases ho : s.sget j <;> simp [hx, ho] at h ⊢
  case s_move_assign i j =>
    cases hx : s.sget i <;> cases ho : s.sget j <;> simp [hx, ho] at h ⊢
  case s_reset i => cases hx : s.sget i <;> simp [hx] at h ⊢
  case s_reset_raw i p d ok => cases hx : s.sget i <;> simp [hx] at h ⊢
  case w_copy i => cases hx : s.wget i <;> simp [hx] at h ⊢
  case w_from_shared i => cases hx : s.sget i <;> simp [hx] at h ⊢
  case w_move i => cases hx : s.wget i <;> simp [hx] at h ⊢
  case w_destroy i => cases hx : s.wget i <;> simp [hx] at h ⊢
  case w_assign i j => cases hx : s.wget i <;> cases ho : s.wget j <;> simp [hx, ho] at h ⊢
  case w_assign_shared i j =>
    cases hx : s.wget i <;> cases ho : s.sget j <;> simp [hx, ho] at h ⊢
  case w_move_assign i j =>
    cases hx : s.wget i <;> cases ho : s.wget j <;> simp [hx, ho] at h ⊢
  case w_lock i => cases hx : s.wget i <;> simp [hx] at h ⊢

/-- One step from a state that keeps the counting protocol. -/
theorem step_inv {s s1 : State} {op : Op} (hI : Inv s) (hs : Small s)
    (h : step s op = some s1) : Inv s1 ∧ ∃ aS rS aW rW, Delta s s1 aS rS aW rW := by
  obtain ⟨s2, e, h1, h2⟩ := step_ok hI hs op (step_enabled h)
  rw [h] at e
  injection e with e
  subst e
  exact ⟨h1, h2⟩

theorem Inv.init : Inv State.init := by
  constructor
  · intro b c h; cases h
  · intro b _; exact ⟨rfl, rfl⟩
  · intro b; simp [State.init, Heap.destroyed]
  · intro b; simp [State.init, Heap.deallocated]
  · intro b pre post h
    simp [State.init] at h

theorem within_small {ops : List Op} {s : State} (h : within s ops = true) : Small s := by
  cases ops with
  | nil => simpa [within] using h
  | cons op ops =>
    simp only [within, Bool.and_eq_true, decide_eq_true_eq] at h
    exact h.1

theorem run_inv {ops : List Op} : ∀ {s s1 : State}, Inv s → within s ops = true →
    run s ops = some s1 → Inv s1 ∧ Small s1 := by
  induction ops with
  | nil =>
    intro s s1 hI hw h
    simp [run] at h
    subst h
    exact ⟨hI, within_small hw⟩
  | cons op ops ih =>
    intro s s1 hI hw h
    have hs0 : Small s := within_small hw
    unfold run at h
    cases hstep : step s op with
    | none => simp [hstep] at h
    | some s2 =>
      simp only [hstep] at h
      simp only [within, hstep, Bool.and_eq_true, decide_eq_true_eq] at hw
      exact ih (step_inv hI hs0 hstep).1 hw.2 h

/-- Every state reached from the initial state through `Small` states keeps the counting
protocol. -/
theorem reach_inv {ops : List Op} {s : State} (hr : run State.init ops = some s)
    (hw : within State.init ops = true) : Inv s ∧ Small s :=
  run_inv Inv.init hw hr

/-! ## Counters and handles in a state that keeps the protocol -/

theorem Inv.strong_of {s : State} (hI : Inv s) (b : Nat) :
    s.heap.strong_of b = s.live_shared b := by
  unfold Heap.strong_of State.live_shared
  cases hc : s.heap.cells b with
  | none => exact (hI.freed b hc).1.symm
  | some c => exact (hI.alloc b c hc).1

theorem Inv.weak_of {s : State} (hI : Inv s) (b : Nat) :
    s.heap.weak_of b = s.live_weak b + s.live_shared b := by
  unfold Heap.weak_of State.live_shared State.live_weak
  cases hc : s.heap.cells b with
  | none =>
    have := hI.freed b hc
    simp only
    omega
  | some c => exact (hI.alloc b c hc).2.1

theorem Inv.cells_none {s : State} (hI : Inv s) (b : Nat) :
    s.heap.cells b = none ↔ s.live_weak b + s.live_shared b = 0 := by
  unfold State.live_shared State.live_weak
  cases hc : s.heap.cells b with
  | none =>
    have := hI.freed b hc
    simp
    omega
  | some c =>
    have := hI.alloc b c hc
    simp
    omega

theorem Inv.unborn {s : State} (hI : Inv s) {b : Nat} (hb : s.heap.next ≤ b) :
    s.live_shared b = 0 ∧ s.live_weak b = 0 := by
  cases hc : s.heap.cells b with
  | none => exact hI.freed b hc
  | some c =>
    have := hI.alloc b c hc
    omega

theorem bump_eq_one {ob : Option Nat} {b : Nat} (h : bump ob b ≠ 0) : ob = some b := by
  unfold bump at h
  split at h
  · assumption
  · exact absurd rfl h

/-- The arithmetic content of one step, for one block. -/
theorem Delta.arith {s s1 : State} {aS rS aW rW : Option Nat} (hD : Delta s s1 aS rS aW rW)
    (hI : Inv s) (b : Nat) :
    ∃ a r a1 r1 : Nat, a ≤ 1 ∧ r ≤ 1 ∧ a1 ≤ 1 ∧ r1 ≤ 1 ∧
      s1.live_shared b + r = s.live_shared b + a ∧
      s1.live_weak b + r1 = s.live_weak b + a1 ∧
      r ≤ s.live_shared b ∧ r1 ≤ s.live_weak b ∧
      (a = 1 → 0 < s.live_shared b ∨ (b = s.heap.next ∧ s1.heap.next = s.heap.next + 1)) ∧
      (a1 = 1 → 0 < s.live_weak b + s.live_shared b) ∧
      (s1.heap.next = s.heap.next ∨
        (s1.heap.next = s.heap.next + 1 ∧ (b = s.heap.next → a = 1))) ∧
      (s.heap.next ≤ b → s.live_shared b = 0 ∧ s.live_weak b = 0) ∧ (r = 0 ∨ r1 = 0) := by
  refine ⟨bump aS b, bump rS b, bump aW b, bump rW b, bump_le _ _, bump_le _ _, bump_le _ _,
    bump_le _ _, hD.eqS b, hD.eqW b, hD.heldS b, hD.heldW b, ?_, ?_, ?_, fun hb => hI.unborn hb,
    ?_⟩
  · intro h1
    exact hD.srcS b (bump_eq_one (by omega))
  · intro h1
    exact hD.srcW b (bump_eq_one (by omega))
  · rcases hD.next with h1 | ⟨h1, h2⟩
    · exact Or.inl h1
    · right
      refine ⟨h1, ?_⟩
      intro hb
      rw [h2, hb, bump_self]
  · rcases hD.one with h1 | h1
    · left; rw [h1, bump_none]
    · right; rw [h1, bump_none]

/-- The facts about a reachable state and one further step that the temporal claims use. -/
theorem step_facts {ops : List Op} {s s1 : State} {op : Op}
    (hr : run State.init ops = some s) (hw : within State.init ops = true)
    (hstep : step s op = some s1) :
    Inv s ∧ Inv s1 ∧ ∃ aS rS aW rW, Delta s s1 aS rS aW rW := by
  obtain ⟨hI, hs0⟩ := reach_inv hr hw
  obtain ⟨hI1, hD⟩ := step_inv hI hs0 hstep
  exact ⟨hI, hI1, hD⟩

/-! ## The counting invariants -/

/-- C1: in every state reached from the initial state by a run of public operations (through
`Small` states, so that no counter wraps), `use_count()` of a live shared handle that holds
block `b` is the number of live shared handles that hold `b` (which is then at least one), and
`use_count()` of a handle that holds no block is `0`. -/
theorem C1_use_count_is_live_shared (ops : List Op) (s : State)
    (hr : run State.init ops = some s) (hw : within State.init ops = true) (i : Nat)
    (x : shared_ptr) (hx : s.sget i = some x) :
    (∀ b, x.block = some b →
      shared_ptr.use_count s.heap x = some (s.live_shared b) ∧ 0 < s.live_shared b) ∧
    (x.block = none → shared_ptr.use_count s.heap x = some 0) := by
  obtain ⟨hI, hs⟩ := reach_inv hr hw
  constructor
  · intro b hb
    have hpos : 0 < cntS s.shared b := pos_of_held (held_shared hx) b hb
    obtain ⟨c, hc, hsc, _, _⟩ := BInv.cell_of_pos hI (b := b) (by omega)
    refine ⟨?_, hpos⟩
    simp [shared_ptr.use_count, hb, control_block.use_count, hc, hsc, State.live_shared]
  · intro hb
    simp [shared_ptr.use_count, hb]

theorem C1_use_count_is_live_shared_witness :
    run State.init [.s_raw 7 1 true, .s_copy 0, .w_from_shared 1, .s_default]
      = some (exec [.s_raw 7 1 true, .s_copy 0, .w_from_shared 1, .s_default]) ∧
    shared_ptr.use_count (exec [.s_raw 7 1 true, .s_copy 0, .w_from_shared 1, .s_default]).heap
      ⟨some 0, 7⟩ = some 2 ∧
    shared_ptr.use_count (exec [.s_raw 7 1 true, .s_copy 0, .w_from_shared 1, .s_default]).heap
      ⟨none, 0⟩ = some 0 :=
  ⟨rfl,
    ((C1_use_count_is_live_shared [.s_raw 7 1 true, .s_copy 0, .w_from_shared 1, .s_default]
      (exec [.s_raw 7 1 true, .s_copy 0, .w_from_shared 1, .s_default]) rfl (by decide) 1
      ⟨some 0, 7⟩ rfl).1 0 rfl).1,
    (C1_use_count_is_live_shared [.s_raw 7 1 true, .s_copy 0, .w_from_shared 1, .s_default]
      (exec [.s_raw 7 1 true, .s_copy 0, .w_from_shared 1, .s_default]) rfl (by decide) 2
      ⟨none, 0⟩ rfl).2 rfl⟩

/-- C2: in every state reached from the initial state by a run of public operations (through
`Small` states, so that no counter wraps), a control block that has not been deallocated has `weak_counter` equal to the number of live weak handles
that hold it plus its `strong_counter`, which is the number of live shared handles that hold
it; so `strong_counter ≤ weak_counter`. -/
theorem C2_weak_counter_is_weak_plus_strong (ops : List Op) (s : State)
    (hr : run State.init ops = some s) (hw : within State.init ops = true) (b : Nat)
    (c : control_block)
    (hc : s.heap.cells b = some c) :
    c.weak_counter = s.live_weak b + c.strong_counter ∧
    c.strong_counter = s.live_shared b ∧
    c.strong_counter ≤ c.weak_counter := by
  obtain ⟨hI, hs⟩ := reach_inv hr hw
  have := hI.alloc b c hc
  unfold State.live_weak State.live_shared
  omega

theorem C2_weak_counter_is_weak_plus_strong_witness :
    run State.init [.s_raw 7 1 true, .s_copy 0, .w_from_shared 1, .s_destroy 0]
      = some (exec [.s_raw 7 1 true, .s_copy 0, .w_from_shared 1, .s_destroy 0]) ∧
    (exec [.s_raw 7 1 true, .s_copy 0, .w_from_shared 1, .s_destroy 0]).heap.cells 0
      = some ⟨1, 2, .regular 7 1⟩ ∧
    (2 = (exec [.s_raw 7 1 true, .s_copy 0, .w_from_shared 1, .s_destroy 0]).live_weak 0 + 1 ∧
     1 = (exec [.s_raw 7 1 true, .s_copy 0, .w_from_shared 1, .s_destroy 0]).live_shared 0 ∧
     1 ≤ 2) :=
  ⟨rfl, rfl,
    C2_weak_counter_is_weak_plus_strong
      [.s_raw 7 1 true, .s_copy 0, .w_from_shared 1, .s_destroy 0]
      (exec [.s_raw 7 1 true, .s_copy 0, .w_from_shared 1, .s_destroy 0]) rfl (by decide) 0
      ⟨1, 2, .regular 7 1⟩ rfl⟩

/-! ## Destruction of the object and deallocation of the block -/

/-- C3: for every block `b` and every step `s → s1` after a run of public operations (through
`Small` states, so that no counter wraps), `delete_object` has run on `b` at most once; it runs in this step exactly when the
`strong_counter` of `b` is `1` before the step and `0` after it; a block whose counter is
positive after the step has never had its object destroyed, and a block whose object was
destroyed before the step has counter `0` after it. -/
theorem C3_object_destroyed_once (ops : List Op) (s : State)
    (hr : run State.init ops = some s) (hw : within State.init ops = true) (op : Op)
    (s1 : State) (hstep : step s op = some s1) (b : Nat) :
    s1.heap.destroyed b ≤ 1 ∧
    s1.heap.destroyed b = s.heap.destroyed b +
      (if s.heap.strong_of b = 1 ∧ s1.heap.strong_of b = 0 then 1 else 0) ∧
    (0 < s1.heap.strong_of b → s1.heap.destroyed b = 0) ∧
    (0 < s.heap.destroyed b → s1.heap.strong_of b = 0) := by
  obtain ⟨hI, hI1, aS, rS, aW, rW, hD⟩ := step_facts hr hw hstep
  obtain ⟨a, r, a1, r1, ha, hr0, ha1, hr1, eS, eW, hS, hW, srcS, srcW, hn, hu, hone⟩ :=
    hD.arith hI b
  have d0 := hI.dobj b
  have d1 := hI1.dobj b
  rw [hI.strong_of, hI1.strong_of]
  unfold State.live_shared State.live_weak at *
  rw [d0, d1]
  split_ifs <;> omega

theorem C3_object_destroyed_once_witness :
    run State.init [.s_raw 7 1 true, .w_from_shared 0]
      = some (exec [.s_raw 7 1 true, .w_from_shared 0]) ∧
    step (exec [.s_raw 7 1 true, .w_from_shared 0]) (.s_destroy 0)
      = some (exec [.s_raw 7 1 true, .w_from_shared 0, .s_destroy 0]) ∧
    (exec [.s_raw 7 1 true, .w_from_shared 0, .s_destroy 0]).heap.destroyed 0 = 1 ∧
    (exec [.s_raw 7 1 true, .w_from_shared 0]).heap.destroyed 0 = 0 ∧
    (exec [.s_raw 7 1 true, .w_from_shared 0]).heap.strong_of 0 = 1 ∧
    (exec [.s_raw 7 1 true, .w_from_shared 0, .s_destroy 0]).heap.strong_of 0 = 0 ∧
    ((exec [.s_raw 7 1 true, .w_from_shared 0, .s_destroy 0]).heap.destroyed 0 ≤ 1 ∧
     (exec [.s_raw 7 1 true, .w_from_shared 0, .s_destroy 0]).heap.destroyed 0
        = (exec [.s_raw 7 1 true, .w_from_shared 0]).heap.destroyed 0 +
          (if (exec [.s_raw 7 1 true, .w_from_shared 0]).heap.strong_of 0 = 1 ∧
              (exec [.s_raw 7 1 true, .w_from_shared 0, .s_destroy 0]).heap.strong_of 0 = 0
            then 1 else 0) ∧
     (0 < (exec [.s_raw 7 1 true, .w_from_shared 0, .s_destroy 0]).heap.strong_of 0 →
        (exec [.s_raw 7 1 true, .w_from_shared 0, .s_destroy 0]).heap.destroyed 0 = 0) ∧
     (0 < (exec [.s_raw 7 1 true, .w_from_shared 0]).heap.destroyed 0 →
        (exec [.s_raw 7 1 true, .w_from_shared 0, .s_destroy 0]).heap.strong_of 0 = 0)) :=
  ⟨rfl, rfl, by decide, by decide, by decide, by decide,
    C3_object_destroyed_once [.s_raw 7 1 true, .w_from_shared 0]
      (exec [.s_raw 7 1 true, .w_from_shared 0]) rfl (by decide) (.s_destroy 0)
      (exec [.s_raw 7 1 true, .w_from_shared 0, .s_destroy 0]) rfl 0⟩

/-- C4: for every block `b` and every step `s → s1` after a run of public operations (through
`Small` states, so that no counter wraps), `b` has been deallocated at most once; it is deallocated in this step exactly when its `weak_counter`
is `1` before the step and `0` after it, that is when the handles that hold it go from one to
none; a deallocated block has no strong unit and its object was destroyed exactly once, and
in the log the destruction of the object comes before the deallocation. -/
theorem C4_block_deallocated_once (ops : List Op) (s : State)
    (hr : run State.init ops = some s) (hw : within State.init ops = true) (op : Op)
    (s1 : State) (hstep : step s op = some s1) (b : Nat) :
    s1.heap.deallocated b ≤ 1 ∧
    s1.heap.deallocated b = s.heap.deallocated b +
      (if s.heap.weak_of b = 1 ∧ s1.heap.weak_of b = 0 then 1 else 0) ∧
    (s.heap.weak_of b = s.live_weak b + s.live_shared b ∧
      s1.heap.weak_of b = s1.live_weak b + s1.live_shared b) ∧
    (0 < s1.heap.deallocated b →
      s1.heap.strong_of b = 0 ∧ s1.live_shared b = 0 ∧ s1.heap.destroyed b = 1) ∧
    (s1.heap.deallocated b = s.heap.deallocated b + 1 → s.heap.strong_of b ≤ 1) ∧
    precedes (.delete_object b) (.delete_this b) s1.heap.log := by
  obtain ⟨hI, hI1, aS, rS, aW, rW, hD⟩ := step_facts hr hw hstep
  obtain ⟨a, r, a1, r1, ha, hr0, ha1, hr1, eS, eW, hS, hW, srcS, srcW, hn, hu, hone⟩ :=
    hD.arith hI b
  have d1 := hI1.dobj b
  have f0 := hI.dthis b
  have f1 := hI1.dthis b
  have c0 := hI.cells_none b
  have c1 := hI1.cells_none b
  refine ⟨?_, ?_, ⟨hI.weak_of b, hI1.weak_of b⟩, ?_, ?_, hI1.order b⟩
  · rw [f1]; split_ifs <;> omega
  · rw [hI.weak_of, hI1.weak_of, f0, f1]
    simp only [c0, c1]
    split_ifs <;> omega
  · rw [hI1.strong_of, f1, d1]
    simp only [c1]
    unfold State.live_shared State.live_weak at *
    split_ifs <;> omega
  · rw [hI.strong_of, f0, f1]
    simp only [c0, c1]
    unfold State.live_shared State.live_weak at *
    split_ifs <;> intro hf <;> first | omega | exact hf.elim

theorem C4_block_deallocated_once_witness :
    run State.init [.s_raw 7 1 true, .w_from_shared 0, .s_destroy 0]
      = some (exec [.s_raw 7 1 true, .w_from_shared 0, .s_destroy 0]) ∧
    step (exec [.s_raw 7 1 true, .w_from_shared 0, .s_destroy 0]) (.w_destroy 0)
      = some (exec [.s_raw 7 1 true, .w_from_shared 0, .s_destroy 0, .w_destroy 0]) ∧
    (exec [.s_raw 7 1 true, .w_from_shared 0, .s_destroy 0, .w_destroy 0]).heap.log
      = [.delete_object 0, .deleter 1 7, .delete_this 0] ∧
    (exec [.s_raw 7 1 true, .w_from_shared 0, .s_destroy 0, .w_destroy 0]).heap.deallocated 0
      ≤ 1 ∧
    precedes (.delete_object 0) (.delete_this 0)
      (exec [.s_raw 7 1 true, .w_from_shared 0, .s_destroy 0, .w_destroy 0]).heap.log :=
  ⟨rfl, rfl, by decide,
    (C4_block_deallocated_once [.s_raw 7 1 true, .w_from_shared 0, .s_destroy 0]
      (exec [.s_raw 7 1 true, .w_from_shared 0, .s_destroy 0]) rfl (by decide) (.w_destroy 0)
      (exec [.s_raw 7 1 true, .w_from_shared 0, .s_destroy 0, .w_destroy 0]) rfl 0).1,
    (C4_block_deallocated_once [.s_raw 7 1 true, .w_from_shared 0, .s_destroy 0]
      (exec [.s_raw 7 1 true, .w_from_shared 0, .s_destroy 0]) rfl (by decide) (.w_destroy 0)
      (exec [.s_raw 7 1 true, .w_from_shared 0, .s_destroy 0, .w_destroy 0]) rfl 0).2.2.2.2.2⟩

/-! ## `lock` -/

/-- C5: for a live weak handle `w` of a state reached by a run of public operations (through
`Small` states, so that no counter wraps), `w.lock()` runs, and its result holds
a block exactly when `w` holds a block whose `strong_counter` is positive (a shared handle on it
is live).  In that case the result holds the block and the address of `w`, both counters of the
block are one higher, and nothing else changes; otherwise the result is the empty handle with
the null address and the heap is unchanged. -/
theorem C5_lock (ops : List Op) (s : State) (hr : run State.init ops = some s)
    (hin : within State.init ops = true) (i : Nat) (w : weak_ptr) (hw : s.wget i = some w) :
    ∃ h1 x, weak_ptr.lock s.heap w = some (h1, x) ∧
      step s (.w_lock i) = some { s with heap := h1, shared := s.shared ++ [some x] } ∧
      (x.block ≠ none ↔ ∃ b, w.block = some b ∧ 0 < s.heap.strong_of b) ∧
      (∀ b, 0 < s.heap.strong_of b ↔ 0 < s.live_shared b) ∧
      (∀ b, w.block = some b → 0 < s.heap.strong_of b →
        x = ⟨some b, w.ptr⟩ ∧
        h1.strong_of b = s.heap.strong_of b + 1 ∧ h1.weak_of b = s.heap.weak_of b + 1 ∧
        (∀ b1, b1 ≠ b → h1.cells b1 = s.heap.cells b1) ∧
        h1.log = s.heap.log ∧ h1.next = s.heap.next) ∧
      ((∀ b, w.block = some b → s.heap.strong_of b = 0) →
        x = ⟨none, nullptr⟩ ∧ h1 = s.heap) := by
  obtain ⟨hI, hs⟩ := reach_inv hr hin
  have hlive : ∀ b, 0 < s.heap.strong_of b ↔ 0 < s.live_shared b := by
    intro b; rw [hI.strong_of]
  cases hb : w.block with
  | none =>
    refine ⟨s.heap, ⟨none, nullptr⟩, by simp [weak_ptr.lock, hb, shared_ptr.default],
      by simp [step, hw, weak_ptr.lock, hb, shared_ptr.default], ?_, hlive, ?_, ?_⟩
    · simp
    · intro b h; cases h
    · intro _; exact ⟨rfl, rfl⟩
  | some b =>
    have hpos : 0 < cntW s.weak b := pos_of_held (held_weak hw) b hb
    obtain ⟨c, hc, hsc, hwc, _⟩ := BInv.cell_of_pos hI (b := b) (by omega)
    have hso : s.heap.strong_of b = c.strong_counter := by simp [Heap.strong_of, hc]
    have hwo : s.heap.weak_of b = c.weak_counter := by simp [Heap.weak_of, hc]
    by_cases h0 : c.strong_counter = 0
    · have hl : weak_ptr.lock s.heap w = some (s.heap, ⟨none, nullptr⟩) := by
        simp [weak_ptr.lock, hb, control_block.use_count, hc, h0, shared_ptr.default]
      refine ⟨s.heap, ⟨none, nullptr⟩, hl, by simp [step, hw, hl], ?_, hlive, ?_, ?_⟩
      · simp
        omega
      · intro b1 hb1 hp
        cases hb1
        omega
      · intro _; exact ⟨rfl, rfl⟩
    · have hbound := hs.bound b
      have e := inc_strong_counter_eq hc (by omega) (by omega)
      have hl : weak_ptr.lock s.heap w = some (s.heap.set_cell b
          (some ⟨c.strong_counter + 1, c.weak_counter + 1, c.kind⟩), ⟨some b, w.ptr⟩) := by
        simp [weak_ptr.lock, hb, control_block.use_count, hc, h0, shared_ptr.from_block, e]
      refine ⟨_, _, hl, by simp [step, hw, hl], ?_, hlive, ?_, ?_⟩
      · simp
        omega
      · intro b1 hb1 _
        cases hb1
        refine ⟨rfl, ?_, ?_, ?_, rfl, rfl⟩
        · simp [Heap.strong_of, Heap.set_cell, hc]
        · simp [Heap.weak_of, Heap.set_cell, hc]
        · intro b2 h2
          simp [Heap.set_cell, Function.update, h2]
      · intro hz
        have := hz b rfl
        omega

theorem C5_lock_witness :
    run State.init [.s_raw 7 1 true, .w_from_shared 0]
      = some (exec [.s_raw 7 1 true, .w_from_shared 0]) ∧
    (exec [.s_raw 7 1 true, .w_from_shared 0]).wget 0 = some ⟨some 0, 7⟩ ∧
    ∃ h1 x, weak_ptr.lock (exec [.s_raw 7 1 true, .w_from_shared 0]).heap ⟨some 0, 7⟩
        = some (h1, x) ∧ x = ⟨some 0, 7⟩ ∧ h1.strong_of 0 = 2 ∧ h1.weak_of 0 = 3 := by
  refine ⟨rfl, rfl, ?_⟩
  obtain ⟨h1, x, e, _, _, _, hp, _⟩ := C5_lock [.s_raw 7 1 true, .w_from_shared 0]
    (exec [.s_raw 7 1 true, .w_from_shared 0]) rfl (by decide) 0 ⟨some 0, 7⟩ rfl
  obtain ⟨hx, h2, h3, _⟩ := hp 0 rfl (by decide)
  exact ⟨h1, x, e, hx, h2, h3⟩

/-! ## Weak handle from a shared handle, then `lock` -/

theorem sget_push (s : State) (h : Heap) (y : shared_ptr) :
    State.sget { s with heap := h, shared := s.shared ++ [some y] } s.shared.length = some y := by
  simp [State.sget]

theorem wget_push (s : State) (h : Heap) (w : weak_ptr) :
    State.wget { s with heap := h, weak := s.weak ++ [some w] } s.weak.length = some w := by
  simp [State.wget]

/-- C6, as written, fails: a handle made by the aliasing constructor from an empty handle and
the address `5` has `get() = 5`, but the weak handle made from it holds no block, so `lock()`
returns the empty handle, whose `get()` is null. -/
theorem C6_round_trip_counterexample :
    (run State.init [.s_default, .s_alias 0 5, .w_from_shared 1, .w_lock 0]).map
      (fun s => ((s.sget 1).map shared_ptr.get, (s.sget 2).map shared_ptr.get))
      = some (some 5, some 0) := by
  decide

/-- C6, amended: for a live shared handle `x` of a reachable state that holds a block, or whose
address is null, making a weak handle from `x` and locking it at once runs and returns a shared
handle whose `get()` is `x.get()` (and which holds the block of `x`).  The run passes through
`Small` states and two more handle objects can be counted, so that no counter wraps. -/
theorem C6_round_trip (ops : List Op) (s : State) (hr : run State.init ops = some s)
    (hw : within State.init ops = true) (hs : s.live + 2 < SIZE_MOD) (i : Nat)
    (x : shared_ptr) (hx : s.sget i = some x) (hb : x.block ≠ none ∨ x.ptr = nullptr) :
    ∃ s2 y, run s [.w_from_shared i, .w_lock s.weak.length] = some s2 ∧
      s2.sget s.shared.length = some y ∧ y.get = x.get ∧
      (x.block ≠ none → y.block = x.block) := by
  obtain ⟨hI, hs0⟩ := reach_inv hr hw
  obtain ⟨h1, e1, _, hI1, _⟩ := push_acquired_weak hI hs0 x.block x.ptr
    (fun b hb => by have := pos_of_held (held_shared hx) b hb; omega)
  have hst1 : step s (.w_from_shared i)
      = some { s with heap := h1, weak := s.weak ++ [some ⟨x.block, x.ptr⟩] } := by
    simp [step, hx, from_shared_eq_copy, e1]
  have hs1 : Small { s with heap := h1, weak := s.weak ++ [some ⟨x.block, x.ptr⟩] } := by
    unfold Small State.live
    simp only [List.countP_append]
    unfold State.live at hs
    simp
    omega
  have hw1 := wget_push s h1 ⟨x.block, x.ptr⟩
  obtain ⟨h2, y, e2, _, _, _, _, hyes, hno⟩ := BInv.lock hI1 ⟨x.block, x.ptr⟩
    (pos_of_held (held_weak hw1)) hs1.bound
  have hst2 : step { s with heap := h1, weak := s.weak ++ [some ⟨x.block, x.ptr⟩] }
      (.w_lock s.weak.length)
      = some { s with heap := h2, weak := s.weak ++ [some ⟨x.block, x.ptr⟩],
                      shared := s.shared ++ [some y] } := by
    simp [step, hw1, e2]
  refine ⟨{ s with heap := h2, weak := s.weak ++ [some ⟨x.block, x.ptr⟩],
                   shared := s.shared ++ [some y] }, y, by simp [run, hst1, hst2], ?_, ?_, ?_⟩
  · simp [State.sget]
  · cases hxb : x.block with
    | none =>
      have hp : x.ptr = nullptr := by
        rcases hb with h | h
        · exact absurd hxb h
        · exact h
      have := (hno (fun b h => by simp [hxb] at h)).1
      rw [this]
      simp [shared_ptr.get, shared_ptr.default, hp]
    | some b =>
      have := hyes ⟨b, hxb, pos_of_held (held_shared hx) b hxb⟩
      rw [this]
  · intro hne
    cases hxb : x.block with
    | none => exact absurd hxb hne
    | some b =>
      have := hyes ⟨b, hxb, pos_of_held (held_shared hx) b hxb⟩
      rw [this]
      exact hxb

theorem C6_round_trip_witness :
    run State.init [.s_raw 7 1 true, .s_alias 0 9]
      = some (exec [.s_raw 7 1 true, .s_alias 0 9]) ∧
    (exec [.s_raw 7 1 true, .s_alias 0 9]).sget 1 = some ⟨some 0, 9⟩ ∧
    ∃ s2 y, run (exec [.s_raw 7 1 true, .s_alias 0 9])
        [.w_from_shared 1, .w_lock (exec [.s_raw 7 1 true, .s_alias 0 9]).weak.length] = some s2 ∧
      s2.sget (exec [.s_raw 7 1 true, .s_alias 0 9]).shared.length = some y ∧
      y.get = shared_ptr.get ⟨some 0, 9⟩ ∧
      ((⟨some 0, 9⟩ : shared_ptr).block ≠ none → y.block = (⟨some 0, 9⟩ : shared_ptr).block) :=
  ⟨rfl, rfl, C6_round_trip [.s_raw 7 1 true, .s_alias 0 9]
    (exec [.s_raw 7 1 true, .s_alias 0 9]) rfl (by decide) (by decide) 1 ⟨some 0, 9⟩ rfl
    (Or.inl (by decide))⟩

/-! ## The handles that the operations produce -/

theorem copy_shape {h : Heap} {o : shared_ptr} {r : Heap × shared_ptr}
    (e : shared_ptr.copy h o = some r) : r.2 = ⟨o.block, o.ptr⟩ := by
  unfold shared_ptr.copy at e
  repeat' split at e
  all_goals simp_all
  all_goals (subst e; simp_all)

theorem aliasing_shape {h : Heap} {o : shared_ptr} {p : Addr} {r : Heap × shared_ptr}
    (e : shared_ptr.aliasing h o p = some r) : r.2 = ⟨o.block, p⟩ := by
  rw [aliasing_eq_copy] at e
  exact copy_shape e

theorem from_raw_shape {h h1 : Heap} {p : Addr} {d : Nat} {ok : Bool} {y : shared_ptr}
    (e : shared_ptr.from_raw h p d ok = some (h1, .ok y)) : y = ⟨some h.next, p⟩ := by
  unfold shared_ptr.from_raw at e
  repeat' split at e
  all_goals simp_all

theorem make_shared_shape {h h1 : Heap} {alloc : Option Addr} {y : shared_ptr}
    (e : make_shared h alloc = some (h1, .ok y)) :
    ∃ a, alloc = some a ∧ y = ⟨some h.next, a⟩ := by
  unfold make_shared at e
  repeat' split at e
  all_goals simp_all

theorem weak_copy_shape {h : Heap} {o : weak_ptr} {r : Heap × weak_ptr}
    (e : weak_ptr.copy h o = some r) : r.2 = ⟨o.block, o.ptr⟩ := by
  unfold weak_ptr.copy at e
  repeat' split at e
  all_goals simp_all
  all_goals (subst e; simp_all)

theorem from_shared_shape {h : Heap} {o : shared_ptr} {r : Heap × weak_ptr}
    (e : weak_ptr.from_shared h o = some r) : r.2 = ⟨o.block, o.ptr⟩ := by
  rw [from_shared_eq_copy] at e
  exact weak_copy_shape e

theorem lock_shape {h : Heap} {w : weak_ptr} {r : Heap × shared_ptr}
    (e : weak_ptr.lock h w = some r) : r.2 = ⟨none, nullptr⟩ ∨ r.2 = ⟨w.block, w.ptr⟩ := by
  unfold weak_ptr.lock shared_ptr.from_block at e
  repeat' split at e
  all_goals simp_all [shared_ptr.default]
  all_goals (subst e; simp_all)

theorem assign_shape {h : Heap} {x o : shared_ptr} {r : Heap × shared_ptr}
    (e : shared_ptr.assign h x o = some r) : r.2 = ⟨o.block, o.ptr⟩ := by
  unfold shared_ptr.assign at e
  cases hc : shared_ptr.copy h o with
  | none => simp [hc] at e
  | some t =>
    have ht := copy_shape hc
    obtain ⟨h1, tmp⟩ := t
    simp only [hc] at e
    cases hd : shared_ptr.dtor h1 (shared_ptr.swap tmp x).1 with
    | none => simp [hd] at e
    | some h2 =>
      simp [hd] at e
      subst e
      simp at ht
      simp [shared_ptr.swap, ht]

theorem move_assign_shape {h : Heap} {x o : shared_ptr} {r : Heap × shared_ptr × shared_ptr}
    (e : shared_ptr.move_assign h x o = some r) :
    r.2.1 = ⟨o.block, o.ptr⟩ ∧ r.2.2 = ⟨none, nullptr⟩ := by
  unfold shared_ptr.move_assign at e
  cases hd : shared_ptr.dtor h (shared_ptr.swap (shared_ptr.move o).1 x).1 with
  | none => simp [hd] at e
  | some h2 =>
    simp [hd] at e
    subst e
    simp [shared_ptr.swap, shared_ptr.move]

theorem reset_shape {h : Heap} {x : shared_ptr} {r : Heap × shared_ptr}
    (e : shared_ptr.reset h x = some r) : r.2 = ⟨none, nullptr⟩ := by
  unfold shared_ptr.reset at e
  cases hd : shared_ptr.dtor h (shared_ptr.swap shared_ptr.default x).1 with
  | none => simp [hd] at e
  | some h2 =>
    simp [hd] at e
    subst e
    simp [shared_ptr.swap, shared_ptr.default]

theorem reset_raw_shape {h h1 : Heap} {x y : shared_ptr} {p : Addr} {d : Nat} {ok : Bool}
    (e : shared_ptr.reset_raw h x p d ok = some (h1, .ok y)) : y = ⟨some h.next, p⟩ := by
  unfold shared_ptr.reset_raw at e
  cases hf : shared_ptr.from_raw h p d ok with
  | none => simp [hf] at e
  | some t =>
    obtain ⟨h2, res⟩ := t
    cases res with
    | bad_alloc => simp [hf] at e
    | ok tmp =>
      have ht := from_raw_shape hf
      simp only [hf] at e
      cases hd : shared_ptr.dtor h2 (shared_ptr.swap tmp x).1 with
      | none => simp [hd] at e
      | some h3 =>
        simp [hd] at e
        rw [← e.2, ht]
        simp [shared_ptr.swap]

theorem weak_assign_shape {h : Heap} {w o : weak_ptr} {r : Heap × weak_ptr}
    (e : weak_ptr.assign h w o = some r) : r.2 = ⟨o.block, o.ptr⟩ := by
  unfold weak_ptr.assign at e
  cases hc : weak_ptr.copy h o with
  | none => simp [hc] at e
  | some t =>
    have ht := weak_copy_shape hc
    obtain ⟨h1, tmp⟩ := t
    simp only [hc] at e
    cases hd : weak_ptr.dtor h1 (weak_ptr.swap tmp w).1 with
    | none => simp [hd] at e
    | some h2 =>
      simp [hd] at e
      subst e
      simp at ht
      simp [weak_ptr.swap, ht]

theorem weak_assign_shared_shape {h : Heap} {w : weak_ptr} {o : shared_ptr}
    {r : Heap × weak_ptr} (e : weak_ptr.assign_shared h w o = some r) :
    r.2 = ⟨o.block, o.ptr⟩ := by
  unfold weak_ptr.assign_shared at e
  cases hc : weak_ptr.from_shared h o with
  | none => simp [hc] at e
  | some t =>
    have ht := from_shared_shape hc
    obtain ⟨h1, tmp⟩ := t
    simp only [hc] at e
    cases hd : weak_ptr.dtor h1 (weak_ptr.swap tmp w).1 with
    | none => simp [hd] at e
    | some h2 =>
      simp [hd] at e
      subst e
      simp at ht
      simp [weak_ptr.swap, ht]

theorem weak_move_assign_shape {h : Heap} {w o : weak_ptr} {r : Heap × weak_ptr × weak_ptr}
    (e : weak_ptr.move_assign h w o = some r) :
    r.2.1 = ⟨o.block, o.ptr⟩ ∧ r.2.2 = ⟨none, nullptr⟩ := by
  unfold weak_ptr.move_assign at e
  cases hd : weak_ptr.dtor h (weak_ptr.swap (weak_ptr.move o).1 w).1 with
  | none => simp [hd] at e
  | some h2 =>
    simp [hd] at e
    subst e
    simp [weak_ptr.swap, weak_ptr.move]

/-! ## Null addresses -/

theorem mem_push {α : Type} {l : List (Option α)} {x y : α} (h : some x ∈ l ++ [some y]) :
    some x ∈ l ∨ x = y := by
  simpa using h

theorem mem_set_some {α : Type} {l : List (Option α)} {i : Nat} {x y : α}
    (h : some x ∈ l.set i (some y)) : some x ∈ l ∨ x = y := by
  rcases List.mem_or_eq_of_mem_set h with h1 | h1
  · exact Or.inl h1
  · exact Or.inr (by simpa using h1)

theorem mem_set_none {α : Type} {l : List (Option α)} {i : Nat} {x : α}
    (h : some x ∈ l.set i none) : some x ∈ l := by
  rcases List.mem_or_eq_of_mem_set h with h1 | h1
  · exact h1
  · cases h1

theorem sget_mem {s : State} {i : Nat} {x : shared_ptr} (h : s.sget i = some x) :
    some x ∈ s.shared := List.get?_mem (sget_eq h)

theorem wget_mem {s : State} {i : Nat} {w : weak_ptr} (h : s.wget i = some w) :
    some w ∈ s.weak := List.get?_mem (wget_eq h)

theorem NullInv.push_shared {s : State} (hN : NullInv s) (h : Heap) (y : shared_ptr)
    (hy : y.ptr = nullptr → y.block = none) :
    NullInv { s with heap := h, shared := s.shared ++ [some y] } := by
  refine ⟨fun z hz hp => ?_, hN.2⟩
  rcases mem_push hz with h1 | h1
  · exact hN.1 z h1 hp
  · subst h1; exact hy hp

theorem NullInv.push_weak {s : State} (hN : NullInv s) (h : Heap) (y : weak_ptr)
    (hy : y.ptr = nullptr → y.block = none) :
    NullInv { s with heap := h, weak := s.weak ++ [some y] } := by
  refine ⟨hN.1, fun z hz hp => ?_⟩
  rcases mem_push hz with h1 | h1
  · exact hN.2 z h1 hp
  · subst h1; exact hy hp

theorem NullInv.set_shared {s : State} (hN : NullInv s) (h : Heap) (i : Nat) (y : shared_ptr)
    (hy : y.ptr = nullptr → y.block = none) :
    NullInv { s with heap := h, shared := s.shared.set i (some y) } := by
  refine ⟨fun z hz hp => ?_, hN.2⟩
  rcases mem_set_some hz with h1 | h1
  · exact hN.1 z h1 hp
  · subst h1; exact hy hp

theorem NullInv.set_weak {s : State} (hN : NullInv s) (h : Heap) (i : Nat) (y : weak_ptr)
    (hy : y.ptr = nullptr → y.block = none) :
    NullInv { s with heap := h, weak := s.weak.set i (some y) } := by
  refine ⟨hN.1, fun z hz hp => ?_⟩
  rcases mem_set_some hz with h1 | h1
  · exact hN.2 z h1 hp
  · subst h1; exact hy hp

theorem NullInv.heap {s : State} (hN : NullInv s) (h : Heap) : NullInv { s with heap := h } :=
  ⟨hN.1, hN.2⟩

theorem ne_of_bne {a b : Nat} (h : (a != b) = true) : a ≠ b := by
  simpa using h

/-- One step with no null address keeps `NullInv`. -/
theorem step_null {s s1 : State} {op : Op} (hN : NullInv s) (hop : op.nonnull = true)
    (h : step s op = some s1) : NullInv s1 := by
  cases op with
  | s_default =>
    simp [step] at h
    subst h
    exact hN.push_shared _ _ (fun _ => rfl)
  | s_raw p d ok =>
    have hp : p ≠ nullptr := ne_of_bne hop
    cases he : shared_ptr.from_raw s.heap p d ok with
    | none => simp [step, he] at h
    | some r =>
      obtain ⟨h1, res⟩ := r
      cases res with
      | bad_alloc =>
        simp [step, he] at h
        subst h
        exact hN.heap _
      | ok y =>
        have hy := from_raw_shape he
        simp [step, he] at h
        subst h
        exact hN.push_shared _ _ (fun h0 => by rw [hy] at h0; exact absurd h0 hp)
  | s_alias i p =>
    have hp : p ≠ nullptr := ne_of_bne hop
    cases hx : s.sget i with
    | none => simp [step, hx] at h
    | some x =>
      cases he : shared_ptr.aliasing s.heap x p with
      | none => simp [step, hx, he] at h
      | some r =>
        have hy := aliasing_shape he
        simp [step, hx, he] at h
        subst h
        exact hN.push_shared _ _ (fun h0 => by rw [hy] at h0; exact absurd h0 hp)
  | s_copy i =>
    cases hx : s.sget i with
    | none => simp [step, hx] at h
    | some x =>
      cases he : shared_ptr.copy s.heap x with
      | none => simp [step, hx, he] at h
      | some r =>
        have hy := copy_shape he
        simp [step, hx, he] at h
        subst h
        exact hN.push_shared _ _
          (fun h0 => by rw [hy] at h0 ⊢; exact hN.1 x (sget_mem hx) h0)
  | s_move i =>
    cases hx : s.sget i with
    | none => simp [step, hx] at h
    | some x =>
      simp [step, hx] at h
      subst h
      have h1 := hN.set_shared s.heap i (shared_ptr.move x).2 (fun _ => rfl)
      exact h1.push_shared s.heap (shared_ptr.move x).1 (fun h0 => hN.1 x (sget_mem hx) h0)
  | s_destroy i =>
    cases hx : s.sget i with
    | none => simp [step, hx] at h
    | some x =>
      cases he : shared_ptr.dtor s.heap x with
      | none => simp [step, hx, he] at h
      | some h1 =>
        simp [step, hx, he] at h
        subst h
        exact ⟨fun z hz hp => hN.1 z (mem_set_none hz) hp, hN.2⟩
  | s_assign i j =>
    cases hx : s.sget i with
    | none => simp [step, hx] at h
    | some x =>
      cases ho : s.sget j with
      | none => simp [step, hx, ho] at h
      | some o =>
        by_cases hij : i = j
        · simp [step, hx, ho, hij] at h
          subst h
          exact hN
        · cases he : shared_ptr.assign s.heap x o with
          | none => simp [step, hx, ho, hij, he] at h
          | some r =>
            have hy := assign_shape he
            simp [step, hx, ho, hij, he] at h
            subst h
            exact hN.set_shared _ _ _
              (fun h0 => by rw [hy] at h0 ⊢; exact hN.1 o (sget_mem ho) h0)
  | s_move_assign i j =>
    cases hx : s.sget i with
    | none => simp [step, hx] at h
    | some x =>
      cases ho : s.sget j with
      | none => simp [step, hx, ho] at h
      | some o =>
        by_cases hij : i = j
        · simp [step, hx, ho, hij] at h
          subst h
          exact hN
        · cases he : shared_ptr.move_assign s.heap x o with
          | none => simp [step, hx, ho, hij, he] at h
          | some r =>
            have hy := move_assign_shape he
            simp [step, hx, ho, hij, he] at h
            subst h
            have h1 := hN.set_shared r.1 i r.2.1
              (fun h0 => by rw [hy.1] at h0 ⊢; exact hN.1 o (sget_mem ho) h0)
            exact h1.set_shared r.1 j r.2.2 (fun _ => by rw [hy.2])
  | s_reset i =>
    cases hx : s.sget i with
    | none => simp [step, hx] at h
    | some x =>
      cases he : shared_ptr.reset s.heap x with
      | none => simp [step, hx, he] at h
      | some r =>
        have hy := reset_shape he
        simp [step, hx, he] at h
        subst h
        exact hN.set_shared _ _ _ (fun _ => by rw [hy])
  | s_reset_raw i p d ok =>
    have hp : p ≠ nullptr := ne_of_bne hop
    cases hx : s.sget i with
    | none => simp [step, hx] at h
    | some x =>
      cases he : shared_ptr.reset_raw s.heap x p d ok with
      | none => simp [step, hx, he] at h
      | some r =>
        obtain ⟨h1, res⟩ := r
        cases res with
        | bad_alloc =>
          simp [step, hx, he] at h
          subst h
          exact hN.heap _
        | ok y =>
          have hy := reset_raw_shape he
          simp [step, hx, he] at h
          subst h
          exact hN.set_shared _ _ _ (fun h0 => by rw [hy] at h0; exact absurd h0 hp)
  | s_make_shared alloc =>
    cases he : make_shared s.heap alloc with
    | none => simp [step, he] at h
    | some r =>
      obtain ⟨h1, res⟩ := r
      cases res with
      | bad_alloc =>
        simp [step, he] at h
        subst h
        exact hN.heap _
      | ok y =>
        obtain ⟨a, ha, hy⟩ := make_shared_shape he
        subst ha
        have hp : a ≠ nullptr := ne_of_bne hop
        simp [step, he] at h
        subst h
        exact hN.push_shared _ _ (fun h0 => by rw [hy] at h0; exact absurd h0 hp)
  | w_default =>
    simp [step] at h
    subst h
    exact hN.push_weak _ _ (fun _ => rfl)
  | w_copy i =>
    cases hx : s.wget i with
    | none => simp [step, hx] at h
    | some x =>
      cases he : weak_ptr.copy s.heap x with
      | none => simp [step, hx, he] at h
      | some r =>
        have hy := weak_copy_shape he
        simp [step, hx, he] at h
        subst h
        exact hN.push_weak _ _
          (fun h0 => by rw [hy] at h0 ⊢; exact hN.2 x (wget_mem hx) h0)
  | w_from_shared i =>
    cases hx : s.sget i with
    | none => simp [step, hx] at h
    | some x =>
      cases he : weak_ptr.from_shared s.heap x with
      | none => simp [step, hx, he] at h
      | some r =>
        have hy := from_shared_shape he
        simp [step, hx, he] at h
        subst h
        exact hN.push_weak _ _
          (fun h0 => by rw [hy] at h0 ⊢; exact hN.1 x (sget_mem hx) h0)
  | w_move i =>
    cases hx : s.wget i with
    | none => simp [step, hx] at h
    | some x =>
      simp [step, hx] at h
      subst h
      have h1 := hN.set_weak s.heap i (weak_ptr.move x).2 (fun _ => rfl)
      exact h1.push_weak s.heap (weak_ptr.move x).1 (fun h0 => hN.2 x (wget_mem hx) h0)
  | w_destroy i =>
    cases hx : s.wget i with
    | none => simp [step, hx] at h
    | some x =>
      cases he : weak_ptr.dtor s.heap x with
      | none => simp [step, hx, he] at h
      | some h1 =>
        simp [step, hx, he] at h
        subst h
        exact ⟨hN.1, fun z hz hp => hN.2 z (mem_set_none hz) hp⟩
  | w_assign i j =>
    cases hx : s.wget i with
    | none => simp [step, hx] at h
    | some x =>
      cases ho : s.wget j with
      | none => simp [step, hx, ho] at h
      | some o =>
        by_cases hij : i = j
        · simp [step, hx, ho, hij] at h
          subst h
          exact hN
        · cases he : weak_ptr.assign s.heap x o with
          | none => simp [step, hx, ho, hij, he] at h
          | some r =>
            have hy := weak_assign_shape he
            simp [step, hx, ho, hij, he] at h
            subst h
            exact hN.set_weak _ _ _
              (fun h0 => by rw [hy] at h0 ⊢; exact hN.2 o (wget_mem ho) h0)
  | w_assign_shared i j =>
    cases hx : s.wget i with
    | none => simp [step, hx] at h
    | some x =>
      cases ho : s.sget j with
      | none => simp [step, hx, ho] at h
      | some o =>
        cases he : weak_ptr.assign_shared s.heap x o with
        | none => simp [step, hx, ho, he] at h
        | some r =>
          have hy := weak_assign_shared_shape he
          simp [step, hx, ho, he] at h
          subst h
          exact hN.set_weak _ _ _
            (fun h0 => by rw [hy] at h0 ⊢; exact hN.1 o (sget_mem ho) h0)
  | w_move_assign i j =>
    cases hx : s.wget i with
    | none => simp [step, hx] at h
    | some x =>
      cases ho : s.wget j with
      | none => simp [step, hx, ho] at h
      | some o =>
        by_cases hij : i = j
        · simp [step, hx, ho, hij] at h
          subst h
          exact hN
        · cases he : weak_ptr.move_assign s.heap x o with
          | none => simp [step, hx, ho, hij, he] at h
          | some r =>
            have hy := weak_move_assign_shape he
            simp [step, hx, ho, hij, he] at h
            subst h
            have h1 := hN.set_weak r.1 i r.2.1
              (fun h0 => by rw [hy.1] at h0 ⊢; exact hN.2 o (wget_mem ho) h0)
            exact h1.set_weak r.1 j r.2.2 (fun _ => by rw [hy.2])
  | w_lock i =>
    cases hx : s.wget i with
    | none => simp [step, hx] at h
    | some x =>
      cases he : weak_ptr.lock s.heap x with
      | none => simp [step, hx, he] at h
      | some r =>
        have hy := lock_shape he
        simp [step, hx, he] at h
        subst h
        refine hN.push_shared _ _ (fun h0 => ?_)
        rcases hy with hy | hy
        · rw [hy]
        · rw [hy] at h0 ⊢
          exact hN.2 x (wget_mem hx) h0

theorem run_null {ops : List Op} : ∀ {s s1 : State}, NullInv s →
    (∀ op ∈ ops, op.nonnull = true) → run s ops = some s1 → NullInv s1 := by
  induction ops with
  | nil =>
    intro s s1 hN _ h
    simp [run] at h
    subst h
    exact hN
  | cons op ops ih =>
    intro s s1 hN hops h
    unfold run at h
    cases hstep : step s op with
    | none => simp [hstep] at h
    | some s2 =>
      simp only [hstep] at h
      exact ih (step_null hN (hops op (List.mem_cons_self _ _)) hstep)
        (fun o ho => hops o (List.mem_cons_of_mem _ ho)) h

/-- C7, as written, fails: the handle constructed from a null raw pointer has `get() = null`
but holds a control block, with `use_count() = 1`. -/
theorem C7_get_null_counterexample :
    (run State.init [.s_raw nullptr 1 true]).map
      (fun s => ((s.sget 0).map shared_ptr.get, (s.sget 0).map (fun x => x.block),
        (s.sget 0).map (shared_ptr.use_count s.heap)))
      = some (some nullptr, some (some 0), some (some 1)) := by
  decide

/-- C7, amended: `get()` returns the cached address, and in every state reached by public
operations that pass no null address (as raw pointer of a construction or of `reset`, as
address of the aliasing constructor, or as address of in-place storage), a live shared handle
with `get() = null` holds no block and has `use_count() = 0`. -/
theorem C7_get_null_only_if_empty (ops : List Op) (s : State)
    (hr : run State.init ops = some s) (hnn : ∀ op ∈ ops, op.nonnull = true) (i : Nat)
    (x : shared_ptr) (hx : s.sget i = some x) :
    x.get = x.ptr ∧
    (x.get = nullptr → x.block = none ∧ shared_ptr.use_count s.heap x = some 0) := by
  have h0 : NullInv State.init := by
    constructor <;> intro z hz <;> simp [State.init] at hz
  have hN := run_null h0 hnn hr
  refine ⟨rfl, fun hp => ?_⟩
  have hb := hN.1 x (sget_mem hx) hp
  exact ⟨hb, by simp [shared_ptr.use_count, hb]⟩

theorem C7_get_null_only_if_empty_witness :
    run State.init [.s_raw 7 1 true, .s_copy 0, .s_reset 0]
      = some (exec [.s_raw 7 1 true, .s_copy 0, .s_reset 0]) ∧
    (exec [.s_raw 7 1 true, .s_copy 0, .s_reset 0]).sget 0 = some ⟨none, nullptr⟩ ∧
    (shared_ptr.get ⟨none, nullptr⟩ = nullptr →
      (⟨none, nullptr⟩ : shared_ptr).block = none ∧
      shared_ptr.use_count (exec [.s_raw 7 1 true, .s_copy 0, .s_reset 0]).heap
        ⟨none, nullptr⟩ = some 0) :=
  ⟨rfl, rfl, (C7_get_null_only_if_empty [.s_raw 7 1 true, .s_copy 0, .s_reset 0]
    (exec [.s_raw 7 1 true, .s_copy 0, .s_reset 0]) rfl (by decide) 0 ⟨none, nullptr⟩ rfl).2⟩

/-! ## Construction from a raw pointer -/

/-- C8: when `new` fails in `shared_ptr(p, d)`, the deleter `d` is called on `p` exactly once,
no block is allocated, the exception leaves the constructor and the state machine gains no
handle; when `new` succeeds, nothing is logged (the deleter is not called), and the new handle
holds the fresh block with `use_count() = 1` and `get() = p`. -/
theorem C8_raw_pointer_constructor (s : State) (p : Addr) (d : Nat) :
    (shared_ptr.from_raw s.heap p d false = some (s.heap.emit [.deleter d p], .bad_alloc) ∧
      (s.heap.emit [.deleter d p]).log = s.heap.log ++ [.deleter d p] ∧
      (s.heap.emit [.deleter d p]).log.count (.deleter d p)
        = s.heap.log.count (.deleter d p) + 1 ∧
      (s.heap.emit [.deleter d p]).cells = s.heap.cells ∧
      (s.heap.emit [.deleter d p]).next = s.heap.next ∧
      step s (.s_raw p d false) = some { s with heap := s.heap.emit [.deleter d p] }) ∧
    (∃ h1, shared_ptr.from_raw s.heap p d true = some (h1, .ok ⟨some s.heap.next, p⟩) ∧
      h1.log = s.heap.log ∧
      h1.cells s.heap.next = some ⟨1, 1, .regular p d⟩ ∧
      shared_ptr.use_count h1 ⟨some s.heap.next, p⟩ = some 1 ∧
      shared_ptr.get ⟨some s.heap.next, p⟩ = p ∧
      step s (.s_raw p d true)
        = some { s with heap := h1, shared := s.shared ++ [some ⟨some s.heap.next, p⟩] }) := by
  constructor
  · refine ⟨rfl, rfl, ?_, rfl, rfl, rfl⟩
    simp [Heap.emit]
  · have hc : (new_block s.heap (.regular p d)).cells s.heap.next
        = some ⟨0, 0, .regular p d⟩ := by
      simp [new_block, Heap.set_cell]
    have e : control_block.inc_strong_counter (new_block s.heap (.regular p d)) s.heap.next
        = some ((new_block s.heap (.regular p d)).set_cell s.heap.next
            (some ⟨1, 1, .regular p d⟩)) :=
      inc_strong_counter_eq hc (by simp [SIZE_MOD]) (by simp [SIZE_MOD])
    refine ⟨(new_block s.heap (.regular p d)).set_cell s.heap.next
      (some ⟨1, 1, .regular p d⟩), by simp [shared_ptr.from_raw, e], rfl, ?_, ?_, rfl, ?_⟩
    · simp [Heap.set_cell]
    · simp [shared_ptr.use_count, control_block.use_count, Heap.set_cell]
    · simp [step, shared_ptr.from_raw, e]

theorem C8_raw_pointer_constructor_witness :
    shared_ptr.from_raw State.init.heap 7 1 false
      = some (State.init.heap.emit [.deleter 1 7], .bad_alloc) ∧
    (State.init.heap.emit [.deleter 1 7]).log = [.deleter 1 7] ∧
    ∃ h1, shared_ptr.from_raw State.init.heap 7 1 true = some (h1, .ok ⟨some 0, 7⟩) ∧
      h1.log = [] ∧ shared_ptr.use_count h1 ⟨some 0, 7⟩ = some 1 := by
  obtain ⟨⟨h1, h2, _⟩, h3, h4, h5, _, h6, _⟩ := C8_raw_pointer_constructor State.init 7 1
  exact ⟨h1, h2, h3, h4, h5, h6⟩

/-! ## Copy and move of shared handles -/

theorem sget_set_same {s : State} {i : Nat} {x : shared_ptr} (hx : s.sget i = some x) (h : Heap)
    (y : shared_ptr) :
    State.sget { s with heap := h, shared := s.shared.set i (some y) } i = some y := by
  have hi : i < s.shared.length := by
    rcases Nat.lt_or_ge i s.shared.length with h1 | h1
    · exact h1
    · have := sget_eq hx
      rw [List.get?_eq_none.mpr h1] at this
      cases this
  simp [State.sget, List.getElem?_set_self hi]

theorem sget_set_other {s : State} {i j : Nat} (hij : i ≠ j) (h : Heap) (y : shared_ptr) :
    State.sget { s with heap := h, shared := s.shared.set i (some y) } j = s.sget j := by
  simp [State.sget, List.getElem?_set_ne hij]

theorem bump_ite (ob : Option Nat) (b : Nat) :
    bump ob b = if ob = some b then 1 else 0 := rfl

/-- C9: in a state reached by a run of public operations (through `Small` states, so that no
counter wraps), copy construction from a live shared handle `o` yields a handle
with the block and address of `o` and raises the `strong_counter` of that block by one.
Assignment `a = b` to the handle `x` of slot `i` from the handle `o` of a different slot `j`
first copies `o` and only then destroys the old value of `x`; afterwards slot `i` holds the
block and address of `o`, slot `j` is unchanged, and the `strong_counter` of the block of `o`
is one higher unless `x` held that block, in which case it is unchanged, nothing is logged
and the counter stays positive in between.  Self-assignment leaves the state unchanged. -/
theorem C9_copy_and_copy_assign (ops : List Op) (s : State) (hr : run State.init ops = some s)
    (hw : within State.init ops = true) (i j : Nat) (x o : shared_ptr)
    (hx : s.sget i = some x) (ho : s.sget j = some o) :
    (∃ h1, shared_ptr.copy s.heap o = some (h1, o) ∧
      step s (.s_copy j) = some { s with heap := h1, shared := s.shared ++ [some o] } ∧
      (∀ b, o.block = some b → h1.strong_of b = s.heap.strong_of b + 1) ∧
      h1.log = s.heap.log) ∧
    (i = j → step s (.s_assign i j) = some s) ∧
    (i ≠ j → ∃ h1 h2, shared_ptr.copy s.heap o = some (h1, o) ∧
      shared_ptr.dtor h1 x = some h2 ∧
      shared_ptr.assign s.heap x o = some (h2, o) ∧
      step s (.s_assign i j) = some { s with heap := h2, shared := s.shared.set i (some o) } ∧
      State.sget { s with heap := h2, shared := s.shared.set i (some o) } i = some o ∧
      State.sget { s with heap := h2, shared := s.shared.set i (some o) } j = some o ∧
      (∀ b, o.block = some b →
        h2.strong_of b = s.heap.strong_of b + (if x.block = some b then 0 else 1)) ∧
      (x.block = o.block → h1.log = s.heap.log ∧ h2.log = s.heap.log ∧
        ∀ b, o.block = some b → 0 < h1.strong_of b ∧ 0 < h2.strong_of b)) := by
  obtain ⟨hI, hs⟩ := reach_inv hr hw
  have hpos := pos_of_held (held_shared ho)
  obtain ⟨ob, op⟩ := o
  refine ⟨?_, ?_, ?_⟩
  · obtain ⟨h1, e, hl, hI1, _⟩ := push_acquired hI hs ob op hpos
    refine ⟨h1, e, by simp [step, ho, e], ?_, hl⟩
    intro b hb
    have h1s := hI1.strong_of b
    have h0s := hI.strong_of b
    simp only [State.live_shared, cntS_push] at h1s h0s
    simp only at hb
    rw [hb, bump_self] at h1s
    rw [h1s, h0s]
  · intro hij
    simp [step, hx, ho, hij]
  · intro hij
    obtain ⟨h1, h2, e1, e2, hl1, hl2, hI2, hD⟩ := replace_shared hI hs hx ob op hpos
    have e3 : shared_ptr.assign s.heap x ⟨ob, op⟩ = some (h2, ⟨ob, op⟩) := by
      simp [shared_ptr.assign, e1, shared_ptr.swap, e2]
    have hcnt : ∀ b, ob = some b →
        h2.strong_of b = s.heap.strong_of b + (if x.block = some b then 0 else 1) := by
      intro b hb
      have h2s := hI2.strong_of b
      have h0s := hI.strong_of b
      have hset := hD.eqS b
      have hheld := hD.heldS b
      simp only [State.live_shared] at h2s h0s hset
      subst hb
      rw [bump_self, bump_ite] at hset
      rw [bump_ite] at hheld
      rw [h2s, h0s]
      split_ifs at hset hheld ⊢ <;> omega
    refine ⟨h1, h2, e1, e2, e3, by simp [step, hx, ho, hij, e3], sget_set_same hx _ _, ?_,
      hcnt, ?_⟩
    · rw [sget_set_other hij]
      exact ho
    · intro hxo
      simp only at hxo
      have hlog2 : h2.log = s.heap.log := by
        apply hl2
        intro b hb
        have := pos_of_held (held_shared hx) b hb
        rw [hxo] at hb
        rw [hb, bump_self]
        omega
      refine ⟨hl1, hlog2, ?_⟩
      intro b hb
      simp only at hb
      have h2pos : 0 < h2.strong_of b := by
        rw [hcnt b hb]
        have := hpos b hb
        rw [hI.strong_of]
        unfold State.live_shared
        omega
      refine ⟨?_, h2pos⟩
      have hc := hI.cell_of_pos (b := b) (by have := hpos b hb; omega)
      obtain ⟨c, hc, hsc, hwc, _⟩ := hc
      have hbound := hs.bound b
      have e := inc_strong_counter_eq hc (by omega) (by omega)
      simp [shared_ptr.copy, hb, e] at e1
      rw [← e1]
      simp [Heap.strong_of, Heap.set_cell]

theorem C9_copy_and_copy_assign_witness :
    run State.init [.s_raw 7 1 true, .s_raw 8 2 true]
      = some (exec [.s_raw 7 1 true, .s_raw 8 2 true]) ∧
    (exec [.s_raw 7 1 true, .s_raw 8 2 true]).sget 0 = some ⟨some 0, 7⟩ ∧
    (exec [.s_raw 7 1 true, .s_raw 8 2 true]).sget 1 = some ⟨some 1, 8⟩ ∧
    ∃ h2, shared_ptr.assign (exec [.s_raw 7 1 true, .s_raw 8 2 true]).heap
        ⟨some 0, 7⟩ ⟨some 1, 8⟩ = some (h2, ⟨some 1, 8⟩) ∧
      h2.strong_of 1 = (exec [.s_raw 7 1 true, .s_raw 8 2 true]).heap.strong_of 1 + 1 := by
  refine ⟨rfl, rfl, rfl, ?_⟩
  obtain ⟨h1, h2, _, _, e, _, _, _, hc, _⟩ :=
    (C9_copy_and_copy_assign [.s_raw 7 1 true, .s_raw 8 2 true]
      (exec [.s_raw 7 1 true, .s_raw 8 2 true]) rfl (by decide) 0 1 ⟨some 0, 7⟩ ⟨some 1, 8⟩
      rfl rfl).2.2 (by decide)
  exact ⟨h2, e, hc 1 rfl⟩

/-- C10: in a state reached by a run of public operations (through `Small` states, so that
no counter wraps), move construction from the live shared handle `o` of slot `j`
changes no control block: the new handle has the block and address of `o`, and slot `j` is
left empty.  Move assignment to the handle `x` of a different slot `i` leaves slot `i` with the
block and address of `o`, slot `j` empty (no block, `get()` null, `use_count()` zero), and
only releases the unit that `x` held: both counters of the block of `o` are unchanged, unless
`x` held that block, in which case they drop by one.  Self-move-assignment leaves the state
unchanged. -/
theorem C10_move_and_move_assign (ops : List Op) (s : State)
    (hr : run State.init ops = some s) (hw : within State.init ops = true) (i j : Nat)
    (x o : shared_ptr) (hx : s.sget i = some x) (ho : s.sget j = some o) :
    (shared_ptr.move o = (o, ⟨none, nullptr⟩) ∧
      step s (.s_move j)
        = some { s with shared := s.shared.set j (some ⟨none, nullptr⟩) ++ [some o] }) ∧
    (shared_ptr.get ⟨none, nullptr⟩ = nullptr ∧
      ∀ h, shared_ptr.use_count h ⟨none, nullptr⟩ = some 0) ∧
    (i = j → step s (.s_move_assign i j) = some s) ∧
    (i ≠ j → ∃ h1, shared_ptr.dtor s.heap x = some h1 ∧
      shared_ptr.move_assign s.heap x o = some (h1, o, ⟨none, nullptr⟩) ∧
      step s (.s_move_assign i j) = some { s with
        heap := h1,
        shared := (s.shared.set i (some o)).set j (some ⟨none, nullptr⟩) } ∧
      State.sget { s with
        heap := h1,
        shared := (s.shared.set i (some o)).set j (some ⟨none, nullptr⟩) } i = some o ∧
      State.sget { s with
        heap := h1,
        shared := (s.shared.set i (some o)).set j (some ⟨none, nullptr⟩) } j
          = some ⟨none, nullptr⟩ ∧
      (∀ b, o.block = some b →
        h1.strong_of b = s.heap.strong_of b - (if x.block = some b then 1 else 0) ∧
        h1.weak_of b = s.heap.weak_of b - (if x.block = some b then 1 else 0) ∧
        0 < h1.strong_of b)) := by
  obtain ⟨hI, hs⟩ := reach_inv hr hw
  obtain ⟨ob, op⟩ := o
  refine ⟨⟨rfl, by simp [step, ho, shared_ptr.move]⟩, ⟨rfl, fun h => rfl⟩, ?_, ?_⟩
  · intro hij
    simp [step, hx, ho, hij]
  · intro hij
    obtain ⟨h1, e1, hI1, hD⟩ := move_assign_shared hI hs hx ho hij
    have e2 : shared_ptr.move_assign s.heap x ⟨ob, op⟩
        = some (h1, ⟨ob, op⟩, ⟨none, nullptr⟩) := by
      simp [shared_ptr.move_assign, shared_ptr.move, shared_ptr.swap, e1]
    have hji : j ≠ i := fun h => hij h.symm
    have hj : j < s.shared.length := by
      rcases Nat.lt_or_ge j s.shared.length with h1 | h1
      · exact h1
      · have := sget_eq ho
        rw [List.get?_eq_none.mpr h1] at this
        cases this
    have hi : i < s.shared.length := by
      rcases Nat.lt_or_ge i s.shared.length with h1 | h1
      · exact h1
      · have := sget_eq hx
        rw [List.get?_eq_none.mpr h1] at this
        cases this
    refine ⟨h1, e1, e2, by simp [step, hx, ho, hij, e2], ?_, ?_, ?_⟩
    · simp [State.sget, List.getElem?_set_ne hji, List.getElem?_set_self hi]
    · simp [State.sget, List.getElem?_set_self, hj]
    · intro b hb
      simp only at hb
      subst hb
      have h1s := hI1.strong_of b
      have h0s := hI.strong_of b
      have h1w := hI1.weak_of b
      have h0w := hI.weak_of b
      have hS := hD.eqS b
      have hW := hD.eqW b
      have hheld := hD.heldS b
      have hpo := hD.heldS b
      have hpos := pos_of_held (held_shared ho) b rfl
      have hset := cntS_set (sget_eq hx) ⟨some b, op⟩ b
      have hposx := cntS_unset (sget_eq hx) b
      have hj2 : (s.shared.set i none).get? j = some (some ⟨some b, op⟩) := by
        have := sget_eq ho
        rw [List.get?_eq_getElem?] at this ⊢
        rw [List.getElem?_set_ne hij]
        exact this
      have h2 := cntS_unset hj2 b
      simp only [State.live_shared, State.live_weak, bump_none, bump_self] at *
      rw [bump_ite] at hS hheld hposx
      rw [h1s, h0s, h1w, h0w]
      split_ifs at hS hheld hposx ⊢ <;> omega

theorem C10_move_and_move_assign_witness :
    run State.init [.s_raw 7 1 true, .s_copy 0]
      = some (exec [.s_raw 7 1 true, .s_copy 0]) ∧
    (exec [.s_raw 7 1 true, .s_copy 0]).sget 0 = some ⟨some 0, 7⟩ ∧
    (exec [.s_raw 7 1 true, .s_copy 0]).sget 1 = some ⟨some 0, 7⟩ ∧
    ∃ h1, shared_ptr.move_assign (exec [.s_raw 7 1 true, .s_copy 0]).heap
        ⟨some 0, 7⟩ ⟨some 0, 7⟩ = some (h1, ⟨some 0, 7⟩, ⟨none, nullptr⟩) ∧
      h1.strong_of 0 = (exec [.s_raw 7 1 true, .s_copy 0]).heap.strong_of 0 - 1 := by
  refine ⟨rfl, rfl, rfl, ?_⟩
  obtain ⟨h1, _, e, _, _, _, hc⟩ :=
    (C10_move_and_move_assign [.s_raw 7 1 true, .s_copy 0]
      (exec [.s_raw 7 1 true, .s_copy 0]) rfl (by decide) 0 1 ⟨some 0, 7⟩ ⟨some 0, 7⟩
      rfl rfl).2.2.2 (by decide)
  exact ⟨h1, e, (hc 0 rfl).1⟩

/-! ## `reset` -/

theorem set_same {α : Type} {l : List α} {i : Nat} {a : α} (h : l.get? i = some a) :
    l.set i a = l := by
  induction l generalizing i with
  | nil => rfl
  | cons y l ih =>
    cases i with
    | zero =>
      simp at h
      simp [h]
    | succ i =>
      simp at h
      simp [List.set, ih (by simpa using h)]

theorem Inv.use_count_some {s : State} (hI : Inv s) {b : Nat} (hp : 0 < cntS s.shared b)
    (p : Addr) : shared_ptr.use_count s.heap ⟨some b, p⟩ = some (cntS s.shared b) := by
  obtain ⟨c, hc, hsc, _, _⟩ := BInv.cell_of_pos hI (b := b) (by omega)
  simp [shared_ptr.use_count, control_block.use_count, hc, hsc]

theorem Inv.lt_next {s : State} (hI : Inv s) {b : Nat} (hp : 0 < cntW s.weak b + cntS s.shared b) :
    b < s.heap.next := by
  obtain ⟨c, _, _, _, h⟩ := BInv.cell_of_pos hI hp
  exact h

/-- What a step that acquires no strong unit on `b` does to the `strong_counter` of `b` and to
the number of destructions of its object. -/
theorem release_effect {s s1 : State} {aS rS aW rW : Option Nat}
    (hD : Delta s s1 aS rS aW rW) (hI : Inv s) (hI1 : Inv s1) (b : Nat)
    (ha : bump aS b = 0) :
    s1.heap.strong_of b + bump rS b = s.heap.strong_of b ∧
    s1.heap.destroyed b = s.heap.destroyed b +
      (if s.heap.strong_of b = 1 ∧ bump rS b = 1 then 1 else 0) := by
  have e := hD.eqS b
  have hh := hD.heldS b
  have hr := bump_le rS b
  have d0 := hI.dobj b
  have d1 := hI1.dobj b
  have hu : s.heap.next ≤ b → cntS s.shared b = 0 := fun h => (hI.unborn h).1
  have hn : s1.heap.next = s.heap.next ∨ (s1.heap.next = s.heap.next + 1 ∧ b ≠ s.heap.next) := by
    rcases hD.next with h | h
    · exact Or.inl h
    · refine Or.inr ⟨h.1, ?_⟩
      intro hb
      rw [h.2, hb, bump_self] at ha
      cases ha
  rw [hI.strong_of, hI1.strong_of]
  unfold State.live_shared
  rw [d0, d1]
  refine ⟨by omega, ?_⟩
  split_ifs <;> omega

/-- C11: in a state reached by a run of public operations (through `Small` states, so that no
counter wraps), `reset()` on a live shared handle `x` runs and leaves it with no block, a null
address and `use_count()` zero; the `strong_counter` of the block that `x` held drops by
exactly one, its object is destroyed in this call exactly when the counter was `1`, and
no other block changes its counter or has its object destroyed; on a handle that holds no
block the heap is unchanged, and on the empty handle the state is unchanged.  With a successful
allocation `reset(p, d)` first constructs the new ownership (the counter of the old block is
still what it was) and only then destroys the old value; the handle then holds the fresh
block with `use_count()` one and `get()` equal to `p`. -/
theorem C11_reset (ops : List Op) (s : State) (hr : run State.init ops = some s)
    (hw : within State.init ops = true) (i : Nat) (x : shared_ptr) (hx : s.sget i = some x) :
    (∃ h1, shared_ptr.reset s.heap x = some (h1, ⟨none, nullptr⟩) ∧
      step s (.s_reset i)
        = some { s with heap := h1, shared := s.shared.set i (some ⟨none, nullptr⟩) } ∧
      shared_ptr.get ⟨none, nullptr⟩ = nullptr ∧
      shared_ptr.use_count h1 ⟨none, nullptr⟩ = some 0 ∧
      (∀ b, x.block = some b →
        h1.strong_of b + 1 = s.heap.strong_of b ∧
        h1.destroyed b = s.heap.destroyed b + (if s.heap.strong_of b = 1 then 1 else 0)) ∧
      (∀ b, x.block ≠ some b →
        h1.strong_of b = s.heap.strong_of b ∧ h1.destroyed b = s.heap.destroyed b) ∧
      (x.block = none → h1 = s.heap) ∧
      (x = ⟨none, nullptr⟩ → step s (.s_reset i) = some s)) ∧
    (∀ p d, ∃ h1 h2,
      shared_ptr.from_raw s.heap p d true = some (h1, .ok ⟨some s.heap.next, p⟩) ∧
      shared_ptr.dtor h1 x = some h2 ∧
      shared_ptr.reset_raw s.heap x p d true = some (h2, .ok ⟨some s.heap.next, p⟩) ∧
      step s (.s_reset_raw i p d true)
        = some { s with heap := h2, shared := s.shared.set i (some ⟨some s.heap.next, p⟩) } ∧
      shared_ptr.use_count h2 ⟨some s.heap.next, p⟩ = some 1 ∧
      shared_ptr.get ⟨some s.heap.next, p⟩ = p ∧
      (∀ b, x.block = some b →
        h1.strong_of b = s.heap.strong_of b ∧
        h2.strong_of b + 1 = s.heap.strong_of b ∧
        h2.destroyed b = s.heap.destroyed b + (if s.heap.strong_of b = 1 then 1 else 0))) := by
  obtain ⟨hI, hs⟩ := reach_inv hr hw
  have hheld := held_shared hx
  constructor
  · obtain ⟨h0, h1, e1, e2, _, _, hI1, hD⟩ :=
      replace_shared hI hs hx none nullptr (fun b hb => by cases hb)
    simp [shared_ptr.copy] at e1
    subst e1
    have er : shared_ptr.reset s.heap x = some (h1, ⟨none, nullptr⟩) := by
      simp [shared_ptr.reset, shared_ptr.swap, shared_ptr.default, e2]
    refine ⟨h1, er, by simp [step, hx, er], rfl, rfl, ?_, ?_, ?_, ?_⟩
    · intro b hb
      have := release_effect hD hI hI1 b (bump_none b)
      simp only [hb, bump_self, and_true] at this
      exact this
    · intro b hb
      have := release_effect hD hI hI1 b (bump_none b)
      have h0 : bump x.block b = 0 := by
        simp [bump, hb]
      simp only [h0] at this
      simpa using this
    · intro hb
      simp [shared_ptr.dtor, hb] at e2
      exact e2.symm
    · intro hxe
      subst hxe
      have hset : s.shared.set i (some ⟨none, nullptr⟩) = s.shared := set_same (sget_eq hx)
      simp [shared_ptr.dtor] at e2
      subst e2
      simp [step, hx, er, hset]
  · intro p d
    obtain ⟨h1, h2, e1, e2, _, hI1, hD⟩ := replace_fresh hI hs hx (.regular p d) p
    have ef : shared_ptr.from_raw s.heap p d true
        = some (h1, .ok ⟨some s.heap.next, p⟩) := by
      simp [shared_ptr.from_raw, e1]
    have er : shared_ptr.reset_raw s.heap x p d true
        = some (h2, .ok ⟨some s.heap.next, p⟩) := by
      simp [shared_ptr.reset_raw, ef, shared_ptr.swap, e2]
    have hun := hI.unborn (Nat.le_refl s.heap.next)
    refine ⟨h1, h2, ef, e2, er, by simp [step, hx, er], ?_, rfl, ?_⟩
    · have e := hD.eqS s.heap.next
      have hh := hD.heldS s.heap.next
      simp only [bump_self, State.live_shared] at e hun hh
      have h1c : cntS (s.shared.set i (some ⟨some s.heap.next, p⟩)) s.heap.next = 1 := by
        omega
      have := hI1.use_count_some (b := s.heap.next) (by rw [h1c]; exact Nat.one_pos) p
      simp only [h1c] at this
      exact this
    · intro b hb
      have hlt : b < s.heap.next :=
        hI.lt_next (by have := pos_of_held hheld b hb; omega)
      have hne : b ≠ s.heap.next := by omega
      have := release_effect hD hI hI1 b (bump_ne hne)
      simp only [hb, bump_self, and_true] at this
      refine ⟨?_, this.1, this.2⟩
      have hc : (new_block s.heap (.regular p d)).cells s.heap.next
          = some ⟨0, 0, .regular p d⟩ := by
        simp [new_block, Heap.set_cell]
      rw [inc_strong_counter_eq hc (by simp [SIZE_MOD]) (by simp [SIZE_MOD])] at e1
      injection e1 with e1
      rw [← e1]
      simp [Heap.strong_of, Heap.set_cell, new_block, Function.update, hne]

theorem C11_reset_witness :
    run State.init [.s_raw 7 1 true, .s_copy 0]
      = some (exec [.s_raw 7 1 true, .s_copy 0]) ∧
    (exec [.s_raw 7 1 true, .s_copy 0]).sget 0 = some ⟨some 0, 7⟩ ∧
    ∃ h1, shared_ptr.reset (exec [.s_raw 7 1 true, .s_copy 0]).heap ⟨some 0, 7⟩
        = some (h1, ⟨none, nullptr⟩) ∧
      h1.strong_of 0 + 1 = (exec [.s_raw 7 1 true, .s_copy 0]).heap.strong_of 0 := by
  refine ⟨rfl, rfl, ?_⟩
  obtain ⟨h1, e, _, _, _, hc, _⟩ :=
    (C11_reset [.s_raw 7 1 true, .s_copy 0] (exec [.s_raw 7 1 true, .s_copy 0]) rfl
      (by decide) 0 ⟨some 0, 7⟩ rfl).1
  exact ⟨h1, e, (hc 0 rfl).1⟩

/-! ## Equality -/

/-- C12: `a == b` holds exactly when `a.get()` and `b.get()` are the same address, whatever
blocks the two handles hold, and `a != b` is the negation of `a == b`. -/
theorem C12_equality (a b : shared_ptr) :
    (shared_ptr.eq a b = true ↔ a.get = b.get) ∧
    shared_ptr.ne a b = !shared_ptr.eq a b ∧
    (shared_ptr.ne a b = true ↔ a.get ≠ b.get) ∧
    (∀ p : Addr, shared_ptr.eq ⟨a.block, p⟩ ⟨b.block, p⟩ = true) := by
  refine ⟨?_, rfl, ?_, ?_⟩
  · simp [shared_ptr.eq, shared_ptr.get]
  · simp [shared_ptr.ne, shared_ptr.eq, shared_ptr.get]
  · intro p
    simp [shared_ptr.eq]

theorem C12_equality_witness :
    shared_ptr.eq ⟨some 0, 7⟩ ⟨none, 7⟩ = true ∧ shared_ptr.ne ⟨some 0, 7⟩ ⟨some 0, 8⟩ = true := by
  obtain ⟨h1, _, _, _⟩ := C12_equality ⟨some 0, 7⟩ ⟨none, 7⟩
  obtain ⟨_, _, h3, _⟩ := C12_equality ⟨some 0, 7⟩ ⟨some 0, 8⟩
  exact ⟨h1.mpr rfl, h3.mpr (by decide)⟩

/-! ## The control block operations, one call at a time -/

theorem delete_object_action {h : Heap} {b : Nat} {c : control_block}
    (hc : h.cells b = some c) :
    control_block.delete_object h b = some (h.emit [.delete_object b, c.kind.action]) := by
  unfold control_block.delete_object
  rw [hc]
  cases hk : c.kind <;> simp [hk, block_kind.action]

/-- C17, amended: on an allocated block whose counters are `size_t` values,
`inc_strong_counter` raises both counters by one and `inc_weak_counter` raises only
`weak_counter` by one, provided the counter that is raised is below the largest `size_t`; `use_count` returns `strong_counter`; `dec_weak_counter`
(`weak_counter > 0`) lowers only `weak_counter` by one and deallocates the block exactly when it
reaches zero; `dec_strong_counter` (both counters `> 0`) lowers `strong_counter` by one, calls
`delete_object` exactly when the new value is zero, and after that does what
`dec_weak_counter` does. -/
theorem C17_control_block_steps (h : Heap) (b : Nat) (c : control_block)
    (hc : h.cells b = some c) (hs : c.strong_counter < SIZE_MOD)
    (hw : c.weak_counter < SIZE_MOD) :
    (c.strong_counter + 1 < SIZE_MOD → c.weak_counter + 1 < SIZE_MOD →
      control_block.inc_strong_counter h b
        = some (h.set_cell b (some ⟨c.strong_counter + 1, c.weak_counter + 1, c.kind⟩))) ∧
    (c.weak_counter + 1 < SIZE_MOD →
      control_block.inc_weak_counter h b
        = some (h.set_cell b (some ⟨c.strong_counter, c.weak_counter + 1, c.kind⟩))) ∧
    control_block.use_count h b = some c.strong_counter ∧
    (0 < c.weak_counter →
      control_block.dec_weak_counter h b
        = some (if c.weak_counter - 1 = 0 then (h.set_cell b none).emit [.delete_this b]
            else h.set_cell b (some ⟨c.strong_counter, c.weak_counter - 1, c.kind⟩))) ∧
    (0 < c.strong_counter → 0 < c.weak_counter →
      control_block.dec_strong_counter h b
        = control_block.dec_weak_counter
            (if c.strong_counter - 1 = 0 then
              (h.set_cell b (some ⟨c.strong_counter - 1, c.weak_counter, c.kind⟩)).emit
                [.delete_object b, c.kind.action]
            else h.set_cell b (some ⟨c.strong_counter - 1, c.weak_counter, c.kind⟩)) b ∧
      control_block.dec_strong_counter h b
        = some (if c.weak_counter - 1 = 0 then
            ((if c.strong_counter - 1 = 0 then h.emit [.delete_object b, c.kind.action]
              else h).set_cell b none).emit [.delete_this b]
          else
            (if c.strong_counter - 1 = 0 then h.emit [.delete_object b, c.kind.action]
              else h).set_cell b
              (some ⟨c.strong_counter - 1, c.weak_counter - 1, c.kind⟩))) := by
  refine ⟨fun h1 h2 => inc_strong_counter_eq hc h1 h2, fun h2 => inc_weak_counter_eq hc h2,
    by simp [control_block.use_count, hc], ?_, ?_⟩
  · intro h0
    rw [dec_weak_counter_eq hc h0 hw]
    by_cases hw1 : c.weak_counter = 1
    · have h2 : c.weak_counter - 1 = 0 := by omega
      simp [hw1]
    · have h2 : ¬ (c.weak_counter - 1 = 0) := by omega
      simp [hw1, h2]
  · intro h0 h1
    have e : control_block.dec_strong_counter h b
        = control_block.dec_weak_counter
            (if c.strong_counter - 1 = 0 then
              (h.set_cell b (some ⟨c.strong_counter - 1, c.weak_counter, c.kind⟩)).emit
                [.delete_object b, c.kind.action]
            else h.set_cell b (some ⟨c.strong_counter - 1, c.weak_counter, c.kind⟩)) b := by
      unfold control_block.dec_strong_counter
      simp only [hc, pred_mod h0 hs]
      by_cases hz : c.strong_counter - 1 = 0
      · simp only [hz, if_true]
        rw [delete_object_action (c := ⟨0, c.weak_counter, c.kind⟩)
          (by simp [Heap.set_cell])]
      · simp only [hz, if_false]
    refine ⟨e, ?_⟩
    rw [e]
    by_cases hz : c.strong_counter - 1 = 0
    · simp only [hz, if_true]
      rw [dec_weak_counter_eq (c := ⟨0, c.weak_counter, c.kind⟩)
        (by simp [Heap.set_cell, Heap.emit]) h1 hw]
      by_cases hw1 : c.weak_counter = 1
      · simp [hw1, Heap.set_cell, Heap.emit]
      · have h2 : ¬ (c.weak_counter - 1 = 0) := by omega
        simp [hw1, h2, Heap.set_cell, Heap.emit]
    · simp only [hz, if_false]
      rw [dec_weak_counter_eq (c := ⟨c.strong_counter - 1, c.weak_counter, c.kind⟩)
        (by simp [Heap.set_cell]) h1 hw]
      by_cases hw1 : c.weak_counter = 1
      · simp [hw1, Heap.set_cell, Heap.emit]
      · have h2 : ¬ (c.weak_counter - 1 = 0) := by omega
        simp [hw1, h2, Heap.set_cell, Heap.emit]

/-- C17, as written, fails at the largest `size_t`: on a block whose counters are both
`2 ^ 64 - 1`, `inc_strong_counter` leaves both counters at `0`, and `inc_weak_counter` leaves
`weak_counter` at `0`. -/
theorem C17_increment_wraps_counterexample :
    ((control_block.inc_strong_counter
        ⟨fun _ => some ⟨SIZE_MOD - 1, SIZE_MOD - 1, .inplace 1⟩, 1, []⟩ 0).map
      (fun h => (h.strong_of 0, h.weak_of 0)) = some (0, 0)) ∧
    ((control_block.inc_weak_counter
        ⟨fun _ => some ⟨SIZE_MOD - 1, SIZE_MOD - 1, .inplace 1⟩, 1, []⟩ 0).map
      (fun h => (h.strong_of 0, h.weak_of 0)) = some (SIZE_MOD - 1, 0)) := by
  decide

theorem C17_control_block_steps_witness :
    control_block.inc_strong_counter (exec [.s_raw 7 1 true]).heap 0
      = some ((exec [.s_raw 7 1 true]).heap.set_cell 0 (some ⟨2, 2, .regular 7 1⟩)) ∧
    control_block.dec_strong_counter (exec [.s_raw 7 1 true]).heap 0
      = some ((((exec [.s_raw 7 1 true]).heap.emit [.delete_object 0, .deleter 1 7]).set_cell 0
          none).emit [.delete_this 0]) := by
  obtain ⟨h1, _, _, _, h5⟩ := C17_control_block_steps (exec [.s_raw 7 1 true]).heap 0
    ⟨1, 1, .regular 7 1⟩ rfl (by decide) (by decide)
  exact ⟨h1 (by decide) (by decide), (h5 (by decide) (by decide)).2⟩

/-! ## `reset(p, d)` when the allocation fails -/

/-- C18: when `new` fails in `x.reset(p, d)` on a live handle `x`, the deleter `d` is called on
`p` exactly once and the exception leaves `reset`; the handle still has its block and address,
no control block is changed (so no counter changes and no object is destroyed), and no block
is allocated. -/
theorem C18_reset_failure_is_atomic (s : State) (i : Nat) (x : shared_ptr)
    (hx : s.sget i = some x) (p : Addr) (d : Nat) :
    shared_ptr.reset_raw s.heap x p d false = some (s.heap.emit [.deleter d p], .bad_alloc) ∧
    step s (.s_reset_raw i p d false) = some { s with heap := s.heap.emit [.deleter d p] } ∧
    State.sget { s with heap := s.heap.emit [.deleter d p] } i = some x ∧
    (s.heap.emit [.deleter d p]).cells = s.heap.cells ∧
    (s.heap.emit [.deleter d p]).next = s.heap.next ∧
    (s.heap.emit [.deleter d p]).log = s.heap.log ++ [.deleter d p] ∧
    (s.heap.emit [.deleter d p]).log.count (.deleter d p)
      = s.heap.log.count (.deleter d p) + 1 ∧
    (∀ b, (s.heap.emit [.deleter d p]).strong_of b = s.heap.strong_of b ∧
      (s.heap.emit [.deleter d p]).weak_of b = s.heap.weak_of b ∧
      (s.heap.emit [.deleter d p]).destroyed b = s.heap.destroyed b ∧
      (s.heap.emit [.deleter d p]).deallocated b = s.heap.deallocated b) := by
  have e : shared_ptr.reset_raw s.heap x p d false
      = some (s.heap.emit [.deleter d p], .bad_alloc) := by
    simp [shared_ptr.reset_raw, shared_ptr.from_raw]
  refine ⟨e, by simp [step, hx, e], hx, rfl, rfl, rfl, by simp [Heap.emit], ?_⟩
  intro b
  refine ⟨rfl, rfl, ?_, ?_⟩
  · simp [Heap.destroyed, Heap.emit, List.count_cons]
  · simp [Heap.deallocated, Heap.emit, List.count_cons]

theorem C18_reset_failure_is_atomic_witness :
    (exec [.s_raw 7 1 true]).sget 0 = some ⟨some 0, 7⟩ ∧
    shared_ptr.reset_raw (exec [.s_raw 7 1 true]).heap ⟨some 0, 7⟩ 8 2 false
      = some ((exec [.s_raw 7 1 true]).heap.emit [.deleter 2 8], .bad_alloc) ∧
    ((exec [.s_raw 7 1 true]).heap.emit [.deleter 2 8]).log = [.deleter 2 8] :=
  ⟨rfl, (C18_reset_failure_is_atomic (exec [.s_raw 7 1 true]) 0 ⟨some 0, 7⟩ rfl 8 2).1,
    (C18_reset_failure_is_atomic (exec [.s_raw 7 1 true]) 0 ⟨some 0, 7⟩ rfl 8 2).2.2.2.2.2.1⟩

/-! ## Weak handles do not touch the lifetime of the object -/

theorem Inv.weak_step {s s1 : State} {aW rW : Option Nat} (hD : Delta s s1 none none aW rW)
    (hI : Inv s) (hI1 : Inv s1) (b : Nat) :
    s1.heap.strong_of b = s.heap.strong_of b ∧
    s1.heap.destroyed b = s.heap.destroyed b ∧
    s1.heap.weak_of b + bump rW b = s.heap.weak_of b + bump aW b := by
  have h1 := release_effect hD hI hI1 b (bump_none b)
  have eS := hD.eqS b
  have eW := hD.eqW b
  simp only [bump_none] at h1 eS
  refine ⟨by omega, by simpa using h1.2, ?_⟩
  rw [hI.weak_of, hI1.weak_of]
  unfold State.live_weak State.live_shared
  omega

/-- C13: in a state reached by a run of public operations (through `Small` states, so that no
counter wraps), making a weak handle from a live shared handle, or copying a live weak handle,
raises the `weak_counter` of the block it holds by one; moving a weak handle changes no
control block and leaves the source empty; destroying a weak handle lowers the `weak_counter`
of its block by one.  None of them changes the `strong_counter` of any block or destroys an
object. -/
theorem C13_weak_handle_operations (ops : List Op) (s : State)
    (hr : run State.init ops = some s) (hw : within State.init ops = true) :
    (∀ j o, s.sget j = some o →
      ∃ h1, weak_ptr.from_shared s.heap o = some (h1, ⟨o.block, o.ptr⟩) ∧
        step s (.w_from_shared j)
          = some { s with heap := h1, weak := s.weak ++ [some ⟨o.block, o.ptr⟩] } ∧
        (∀ b, o.block = some b → h1.weak_of b = s.heap.weak_of b + 1) ∧
        (∀ b, h1.strong_of b = s.heap.strong_of b ∧ h1.destroyed b = s.heap.destroyed b)) ∧
    (∀ i w, s.wget i = some w →
      (∃ h1, weak_ptr.copy s.heap w = some (h1, ⟨w.block, w.ptr⟩) ∧
        step s (.w_copy i)
          = some { s with heap := h1, weak := s.weak ++ [some ⟨w.block, w.ptr⟩] } ∧
        (∀ b, w.block = some b → h1.weak_of b = s.heap.weak_of b + 1) ∧
        (∀ b, h1.strong_of b = s.heap.strong_of b ∧ h1.destroyed b = s.heap.destroyed b)) ∧
      (weak_ptr.move w = (⟨w.block, w.ptr⟩, ⟨none, nullptr⟩) ∧
        step s (.w_move i) = some { s with
          weak := s.weak.set i (some ⟨none, nullptr⟩) ++ [some ⟨w.block, w.ptr⟩] }) ∧
      (∃ h1, weak_ptr.dtor s.heap w = some h1 ∧
        step s (.w_destroy i) = some { s with heap := h1, weak := s.weak.set i none } ∧
        (∀ b, w.block = some b → h1.weak_of b + 1 = s.heap.weak_of b) ∧
        (∀ b, h1.strong_of b = s.heap.strong_of b ∧ h1.destroyed b = s.heap.destroyed b))) := by
  obtain ⟨hI, hs⟩ := reach_inv hr hw
  constructor
  · intro j o ho
    obtain ⟨h1, e, _, hI1, hD⟩ := push_acquired_weak hI hs o.block o.ptr
      (fun b hb => by have := pos_of_held (held_shared ho) b hb; omega)
    refine ⟨h1, by rw [from_shared_eq_copy]; exact e,
      by simp [step, ho, from_shared_eq_copy, e], ?_, ?_⟩
    · intro b hb
      have := (Inv.weak_step hD hI hI1 b).2.2
      simp only [hb, bump_self, bump_none] at this
      omega
    · intro b
      have := Inv.weak_step hD hI hI1 b
      exact ⟨this.1, this.2.1⟩
  · intro i w hwi
    refine ⟨?_, ?_, ?_⟩
    · obtain ⟨h1, e, _, hI1, hD⟩ := push_acquired_weak hI hs w.block w.ptr
        (fun b hb => by have := pos_of_held (held_weak hwi) b hb; omega)
      refine ⟨h1, e, by simp [step, hwi, e], ?_, ?_⟩
      · intro b hb
        have := (Inv.weak_step hD hI hI1 b).2.2
        simp only [hb, bump_self, bump_none] at this
        omega
      · intro b
        have := Inv.weak_step hD hI hI1 b
        exact ⟨this.1, this.2.1⟩
    · exact ⟨rfl, by simp [step, hwi, weak_ptr.move]⟩
    · obtain ⟨h1, e, hI1, hD⟩ := destroy_weak hI hs hwi
      refine ⟨h1, e, by simp [step, hwi, e], ?_, ?_⟩
      · intro b hb
        have := (Inv.weak_step hD hI hI1 b).2.2
        simp only [hb, bump_self, bump_none] at this
        omega
      · intro b
        have := Inv.weak_step hD hI hI1 b
        exact ⟨this.1, this.2.1⟩

theorem C13_weak_handle_operations_witness :
    run State.init [.s_raw 7 1 true, .w_from_shared 0]
      = some (exec [.s_raw 7 1 true, .w_from_shared 0]) ∧
    (exec [.s_raw 7 1 true, .w_from_shared 0]).wget 0 = some ⟨some 0, 7⟩ ∧
    ∃ h1, weak_ptr.dtor (exec [.s_raw 7 1 true, .w_from_shared 0]).heap ⟨some 0, 7⟩ = some h1 ∧
      h1.weak_of 0 + 1 = (exec [.s_raw 7 1 true, .w_from_shared 0]).heap.weak_of 0 ∧
      h1.strong_of 0 = (exec [.s_raw 7 1 true, .w_from_shared 0]).heap.strong_of 0 := by
  refine ⟨rfl, rfl, ?_⟩
  obtain ⟨h1, e, _, hwk, hst⟩ :=
    ((C13_weak_handle_operations [.s_raw 7 1 true, .w_from_shared 0]
      (exec [.s_raw 7 1 true, .w_from_shared 0]) rfl (by decide)).2 0 ⟨some 0, 7⟩ rfl).2.2
  exact ⟨h1, e, hwk 0 rfl, (hst 0).1⟩

/-! ## Aliasing and converting construction -/

theorem copy_conv_eq_copy (static_cast : Addr → Addr) (h : Heap) (o : shared_ptr) :
    shared_ptr.copy_conv static_cast h o = shared_ptr.copy h ⟨o.block, static_cast o.ptr⟩ := rfl

/-- C14: in a state reached by a run of public operations (through `Small` states, so that no
counter wraps), for a live shared handle `o` and an address `p` the aliasing constructor
yields a handle with `get()` equal to `p` that holds the block of `o`; the `strong_counter`
of that block is one higher, no other counter changes and `o` is unchanged.  The converting
copy constructor likewise adds one unit to the block of `o`, and the converting move
constructor changes no control block and leaves the source empty.  In each case the
`strong_counter` of every block is the number of live shared handles that hold it. -/
theorem C14_aliasing_and_converting (ops : List Op) (s : State)
    (hr : run State.init ops = some s) (hw : within State.init ops = true) (j : Nat)
    (o : shared_ptr) (ho : s.sget j = some o) (p : Addr) (static_cast : Addr → Addr) :
    (∃ h1, shared_ptr.aliasing s.heap o p = some (h1, ⟨o.block, p⟩) ∧
      step s (.s_alias j p)
        = some { s with heap := h1, shared := s.shared ++ [some ⟨o.block, p⟩] } ∧
      shared_ptr.get ⟨o.block, p⟩ = p ∧
      State.sget { s with heap := h1, shared := s.shared ++ [some ⟨o.block, p⟩] } j = some o ∧
      (∀ b, o.block = some b → h1.strong_of b = s.heap.strong_of b + 1) ∧
      (∀ b, o.block ≠ some b → h1.strong_of b = s.heap.strong_of b) ∧
      (∀ b, h1.strong_of b = cntS (s.shared ++ [some ⟨o.block, p⟩]) b)) ∧
    (∃ h1, shared_ptr.copy_conv static_cast s.heap o
        = some (h1, ⟨o.block, static_cast o.ptr⟩) ∧
      (∀ b, o.block = some b → h1.strong_of b = s.heap.strong_of b + 1) ∧
      (∀ b, o.block ≠ some b → h1.strong_of b = s.heap.strong_of b) ∧
      (∀ b, h1.strong_of b = cntS (s.shared ++ [some ⟨o.block, static_cast o.ptr⟩]) b)) ∧
    (shared_ptr.move_conv static_cast o = (⟨o.block, static_cast o.ptr⟩, ⟨none, nullptr⟩) ∧
      (∀ b, s.heap.strong_of b
        = cntS (s.shared.set j (some ⟨none, nullptr⟩)
            ++ [some ⟨o.block, static_cast o.ptr⟩]) b)) := by
  obtain ⟨hI, hs⟩ := reach_inv hr hw
  have hpos := pos_of_held (held_shared ho)
  have key : ∀ q : Addr, ∃ h1, shared_ptr.copy s.heap ⟨o.block, q⟩ = some (h1, ⟨o.block, q⟩) ∧
      (∀ b, o.block = some b → h1.strong_of b = s.heap.strong_of b + 1) ∧
      (∀ b, o.block ≠ some b → h1.strong_of b = s.heap.strong_of b) ∧
      (∀ b, h1.strong_of b = cntS (s.shared ++ [some ⟨o.block, q⟩]) b) := by
    intro q
    obtain ⟨h1, e, _, hI1, _⟩ := push_acquired hI hs o.block q hpos
    have hcnt : ∀ b, h1.strong_of b = cntS (s.shared ++ [some ⟨o.block, q⟩]) b :=
      fun b => hI1.strong_of b
    refine ⟨h1, e, ?_, ?_, hcnt⟩
    · intro b hb
      rw [hcnt b, cntS_push, hI.strong_of]
      simp only [hb, bump_self, State.live_shared]
    · intro b hb
      rw [hcnt b, cntS_push, hI.strong_of]
      have h0 : bump o.block b = 0 := by simp [bump, hb]
      simp only [h0, State.live_shared, Nat.add_zero]
  refine ⟨?_, ?_, rfl, ?_⟩
  · obtain ⟨h1, e, h2, h3, h4⟩ := key p
    refine ⟨h1, by rw [aliasing_eq_copy]; exact e, by simp [step, ho, aliasing_eq_copy, e],
      rfl, ?_, h2, h3, h4⟩
    have := sget_eq ho
    rw [List.get?_eq_getElem?] at this
    have hlt : j < s.shared.length := by
      rcases Nat.lt_or_ge j s.shared.length with h | h
      · exact h
      · rw [List.getElem?_eq_none h] at this
        cases this
    simp [State.sget, List.getElem?_append_left hlt, this]
  · obtain ⟨h1, e, h2, h3, h4⟩ := key (static_cast o.ptr)
    exact ⟨h1, by rw [copy_conv_eq_copy]; exact e, h2, h3, h4⟩
  · intro b
    have h1 := cntS_set (sget_eq ho) ⟨none, nullptr⟩ b
    rw [hI.strong_of, cntS_push]
    simp only [bump_none, State.live_shared] at h1 ⊢
    omega

theorem C14_aliasing_and_converting_witness :
    run State.init [.s_raw 7 1 true] = some (exec [.s_raw 7 1 true]) ∧
    (exec [.s_raw 7 1 true]).sget 0 = some ⟨some 0, 7⟩ ∧
    ∃ h1, shared_ptr.aliasing (exec [.s_raw 7 1 true]).heap ⟨some 0, 7⟩ 9
        = some (h1, ⟨some 0, 9⟩) ∧
      h1.strong_of 0 = (exec [.s_raw 7 1 true]).heap.strong_of 0 + 1 := by
  refine ⟨rfl, rfl, ?_⟩
  obtain ⟨h1, e, _, _, _, hc, _⟩ :=
    (C14_aliasing_and_converting [.s_raw 7 1 true] (exec [.s_raw 7 1 true]) rfl (by decide)
      0 ⟨some 0, 7⟩ rfl 9 id).1
  exact ⟨h1, e, hc 0 rfl⟩

/-! ## The factory scenario -/

theorem new_block_cells (h : Heap) (k : block_kind) :
    (new_block h k).cells h.next = some ⟨0, 0, k⟩ := by
  simp [new_block, Heap.set_cell]

theorem set_cell_cells (h : Heap) (b : Nat) (c : Option control_block) :
    (h.set_cell b c).cells b = c := by
  simp [Heap.set_cell]

theorem emit_set_cell (h : Heap) (b : Nat) (c d : Option control_block) (es : List Event) :
    ((h.set_cell b c).emit es).set_cell b d = (h.emit es).set_cell b d := by
  simp [Heap.set_cell, Heap.emit]

theorem one_lt_size : (1 : Nat) < SIZE_MOD := by unfold SIZE_MOD; omega

theorem two_lt_size : (2 : Nat) < SIZE_MOD := by unfold SIZE_MOD; omega

theorem dec_strong_counter_action {h : Heap} {b : Nat} {c : control_block}
    (hc : h.cells b = some c) (h0 : 0 < c.strong_counter) (hs : c.strong_counter < SIZE_MOD)
    (h1 : 0 < c.weak_counter) (hw : c.weak_counter < SIZE_MOD) :
    control_block.dec_strong_counter h b
      = some (if c.weak_counter = 1 then
          ((if c.strong_counter = 1 then h.emit [.delete_object b, c.kind.action]
            else h).set_cell b none).emit [.delete_this b]
        else
          (if c.strong_counter = 1 then h.emit [.delete_object b, c.kind.action]
            else h).set_cell b
            (some ⟨c.strong_counter - 1, c.weak_counter - 1, c.kind⟩)) := by
  have hz : (c.strong_counter - 1 = 0) = (c.strong_counter = 1) := by
    apply propext; omega
  unfold control_block.dec_strong_counter
  simp only [hc, pred_mod h0 hs, hz]
  by_cases hs1 : c.strong_counter = 1
  · simp only [hs1, if_true]
    rw [delete_object_action (c := ⟨0, c.weak_counter, c.kind⟩) (by simp [Heap.set_cell])]
    simp only
    rw [dec_weak_counter_eq (c := ⟨0, c.weak_counter, c.kind⟩)
      (by simp [Heap.set_cell, Heap.emit]) h1 hw]
    by_cases hw1 : c.weak_counter = 1 <;>
      simp [hw1, Heap.set_cell, Heap.emit]
  · simp only [hs1, if_false]
    rw [dec_weak_counter_eq (c := ⟨c.strong_counter - 1, c.weak_counter, c.kind⟩)
      (by simp [Heap.set_cell]) h1 hw]
    by_cases hw1 : c.weak_counter = 1 <;>
      simp [hw1, Heap.set_cell, Heap.emit]

/-- The seven calls of the factory scenario, from any heap `h`, with the heap after each. -/
theorem factory_chain (h : Heap) (a : Addr) :
    make_shared h (some a)
      = some ((new_block h (.inplace a)).set_cell h.next (some ⟨1, 1, .inplace a⟩),
          .ok ⟨some h.next, a⟩) ∧
    shared_ptr.copy ((new_block h (.inplace a)).set_cell h.next (some ⟨1, 1, .inplace a⟩))
        ⟨some h.next, a⟩
      = some ((new_block h (.inplace a)).set_cell h.next (some ⟨2, 2, .inplace a⟩),
          ⟨some h.next, a⟩) ∧
    shared_ptr.dtor ((new_block h (.inplace a)).set_cell h.next (some ⟨2, 2, .inplace a⟩))
        ⟨some h.next, a⟩
      = some ((new_block h (.inplace a)).set_cell h.next (some ⟨1, 1, .inplace a⟩)) ∧
    weak_ptr.from_shared
        ((new_block h (.inplace a)).set_cell h.next (some ⟨1, 1, .inplace a⟩)) ⟨some h.next, a⟩
      = some ((new_block h (.inplace a)).set_cell h.next (some ⟨1, 2, .inplace a⟩),
          ⟨some h.next, a⟩) ∧
    shared_ptr.dtor ((new_block h (.inplace a)).set_cell h.next (some ⟨1, 2, .inplace a⟩))
        ⟨some h.next, a⟩
      = some (((new_block h (.inplace a)).emit [.delete_object h.next, .destructor a]).set_cell
          h.next (some ⟨0, 1, .inplace a⟩)) ∧
    weak_ptr.lock
        (((new_block h (.inplace a)).emit [.delete_object h.next, .destructor a]).set_cell
          h.next (some ⟨0, 1, .inplace a⟩)) ⟨some h.next, a⟩
      = some (((new_block h (.inplace a)).emit [.delete_object h.next, .destructor a]).set_cell
          h.next (some ⟨0, 1, .inplace a⟩), ⟨none, nullptr⟩) ∧
    weak_ptr.dtor
        (((new_block h (.inplace a)).emit [.delete_object h.next, .destructor a]).set_cell
          h.next (some ⟨0, 1, .inplace a⟩)) ⟨some h.next, a⟩
      = some ((((new_block h (.inplace a)).emit [.delete_object h.next, .destructor a]).set_cell
          h.next none).emit [.delete_this h.next]) := by
  refine ⟨?_, ?_, ?_, ?_, ?_, ?_, ?_⟩
  · unfold make_shared
    simp only
    rw [inc_strong_counter_eq (new_block_cells h _) one_lt_size one_lt_size]
  · unfold shared_ptr.copy
    simp only
    rw [inc_strong_counter_eq (set_cell_cells _ _ _) two_lt_size two_lt_size, set_cell_set_cell]
  · unfold shared_ptr.dtor
    simp only
    rw [dec_strong_counter_action (set_cell_cells _ _ _) (by norm_num) two_lt_size
      (by norm_num) two_lt_size]
    simp [set_cell_set_cell]
  · unfold weak_ptr.from_shared
    simp only
    rw [inc_weak_counter_eq (set_cell_cells _ _ _) two_lt_size, set_cell_set_cell]
  · unfold shared_ptr.dtor
    simp only
    rw [dec_strong_counter_action (set_cell_cells _ _ _) (by norm_num) one_lt_size
      (by norm_num) two_lt_size]
    simp [emit_set_cell, block_kind.action]
  · simp only [weak_ptr.lock, control_block.use_count, set_cell_cells, if_true,
      shared_ptr.default]
  · unfold weak_ptr.dtor
    simp only
    rw [dec_weak_counter_eq (set_cell_cells _ _ _) (by norm_num) one_lt_size]
    simp [set_cell_set_cell]

theorem step_s_destroy_eq {s : State} {i : Nat} {x : shared_ptr} {h1 : Heap}
    (hx : s.sget i = some x) (he : shared_ptr.dtor s.heap x = some h1) :
    step s (.s_destroy i) = some { s with heap := h1, shared := s.shared.set i none } := by
  simp [step, hx, he]

theorem step_w_destroy_eq {s : State} {i : Nat} {w : weak_ptr} {h1 : Heap}
    (hx : s.wget i = some w) (he : weak_ptr.dtor s.heap w = some h1) :
    step s (.w_destroy i) = some { s with heap := h1, weak := s.weak.set i none } := by
  simp [step, hx, he]

theorem run_cons_eq {s s1 : State} {op : Op} (hs : step s op = some s1) (ops : List Op) :
    run s (op :: ops) = run s1 ops := by
  simp [run, hs]

/-- The factory scenario in the state machine, from the initial state. -/
theorem factory_run (a : Addr) :
    (run State.init [.s_make_shared (some a), .s_copy 0, .s_destroy 0, .w_from_shared 1,
        .s_destroy 1, .w_lock 0, .w_destroy 0]).map
      (fun s => (s.shared, s.weak, s.heap.log, s.heap.cells 0, s.heap.next))
      = some ([none, none, some ⟨none, nullptr⟩], [none],
          [.delete_object 0, .destructor a, .delete_this 0], none, 1) := by
  obtain ⟨e1, e2, e3, e4, e5, e6, e7⟩ := factory_chain State.init.heap a
  have n0 : State.init.heap.next = 0 := rfl
  rw [n0] at e1 e2 e3 e4 e5 e6 e7
  have s1 : step State.init (.s_make_shared (some a))
      = some ⟨(new_block State.init.heap (.inplace a)).set_cell 0 (some ⟨1, 1, .inplace a⟩),
          [some ⟨some 0, a⟩], []⟩ := by
    simp only [step, e1]
    rfl
  have s2 : step ⟨(new_block State.init.heap (.inplace a)).set_cell 0 (some ⟨1, 1, .inplace a⟩),
          [some ⟨some 0, a⟩], []⟩ (.s_copy 0)
      = some ⟨(new_block State.init.heap (.inplace a)).set_cell 0 (some ⟨2, 2, .inplace a⟩),
          [some ⟨some 0, a⟩, some ⟨some 0, a⟩], []⟩ := by
    have g : State.sget ⟨(new_block State.init.heap (.inplace a)).set_cell 0
        (some ⟨1, 1, .inplace a⟩), [some ⟨some 0, a⟩], []⟩ 0 = some ⟨some 0, a⟩ := rfl
    simp only [step, g, e2]
    rfl
  have s3 : step ⟨(new_block State.init.heap (.inplace a)).set_cell 0 (some ⟨2, 2, .inplace a⟩),
          [some ⟨some 0, a⟩, some ⟨some 0, a⟩], []⟩ (.s_destroy 0)
      = some ⟨(new_block State.init.heap (.inplace a)).set_cell 0 (some ⟨1, 1, .inplace a⟩),
          [none, some ⟨some 0, a⟩], []⟩ :=
    step_s_destroy_eq rfl e3
  have s4 : step ⟨(new_block State.init.heap (.inplace a)).set_cell 0 (some ⟨1, 1, .inplace a⟩),
          [none, some ⟨some 0, a⟩], []⟩ (.w_from_shared 1)
      = some ⟨(new_block State.init.heap (.inplace a)).set_cell 0 (some ⟨1, 2, .inplace a⟩),
          [none, some ⟨some 0, a⟩], [some ⟨some 0, a⟩]⟩ := by
    have g : State.sget ⟨(new_block State.init.heap (.inplace a)).set_cell 0
        (some ⟨1, 1, .inplace a⟩), [none, some ⟨some 0, a⟩], []⟩ 1 = some ⟨some 0, a⟩ := rfl
    simp only [step, g, e4]
    rfl
  have s5 : step ⟨(new_block State.init.heap (.inplace a)).set_cell 0 (some ⟨1, 2, .inplace a⟩),
          [none, some ⟨some 0, a⟩], [some ⟨some 0, a⟩]⟩ (.s_destroy 1)
      = some ⟨((new_block State.init.heap (.inplace a)).emit
            [.delete_object 0, .destructor a]).set_cell 0 (some ⟨0, 1, .inplace a⟩),
          [none, none], [some ⟨some 0, a⟩]⟩ :=
    step_s_destroy_eq rfl e5
  have s6 : step ⟨((new_block State.init.heap (.inplace a)).emit
            [.delete_object 0, .destructor a]).set_cell 0 (some ⟨0, 1, .inplace a⟩),
          [none, none], [some ⟨some 0, a⟩]⟩ (.w_lock 0)
      = some ⟨((new_block State.init.heap (.inplace a)).emit
            [.delete_object 0, .destructor a]).set_cell 0 (some ⟨0, 1, .inplace a⟩),
          [none, none, some ⟨none, nullptr⟩], [some ⟨some 0, a⟩]⟩ := by
    have g : State.wget ⟨((new_block State.init.heap (.inplace a)).emit
            [.delete_object 0, .destructor a]).set_cell 0 (some ⟨0, 1, .inplace a⟩),
          [none, none], [some ⟨some 0, a⟩]⟩ 0 = some ⟨some 0, a⟩ := rfl
    simp only [step, g, e6]
    rfl
  have s7 : step ⟨((new_block State.init.heap (.inplace a)).emit
            [.delete_object 0, .destructor a]).set_cell 0 (some ⟨0, 1, .inplace a⟩),
          [none, none, some ⟨none, nullptr⟩], [some ⟨some 0, a⟩]⟩ (.w_destroy 0)
      = some ⟨(((new_block State.init.heap (.inplace a)).emit
            [.delete_object 0, .destructor a]).set_cell 0 none).emit [.delete_this 0],
          [none, none, some ⟨none, nullptr⟩], [none]⟩ :=
    step_w_destroy_eq rfl e7
  rw [run_cons_eq s1, run_cons_eq s2, run_cons_eq s3, run_cons_eq s4, run_cons_eq s5,
    run_cons_eq s6, run_cons_eq s7]
  simp [run, Heap.emit, Heap.set_cell, new_block, State.init]

/-- C16: from any heap `h` and for any address `a` of the embedded value, `make_shared` yields a
handle `A` on a fresh in-place block with `use_count()` one and `get()` equal to `a`; after
copying `A` into `B` both report two; after destroying `A`, `B` reports one and nothing was
logged; after building the weak handle `W` from `B` and destroying `B` the destructor of the
value has run exactly once, the block is still allocated with `weak_counter` one, and
`W.lock()` returns the empty handle; destroying `W` deallocates the block.  The same run in
the state machine, from the initial state, ends with all four slots dead or empty. -/
theorem C16_factory_scenario (h : Heap) (a : Addr) :
    (∃ h1 h2 h3 h4 h5 h6,
      make_shared h (some a) = some (h1, .ok ⟨some h.next, a⟩) ∧
      h1.cells h.next = some ⟨1, 1, .inplace a⟩ ∧
      shared_ptr.use_count h1 ⟨some h.next, a⟩ = some 1 ∧
      shared_ptr.get ⟨some h.next, a⟩ = a ∧
      shared_ptr.copy h1 ⟨some h.next, a⟩ = some (h2, ⟨some h.next, a⟩) ∧
      shared_ptr.use_count h2 ⟨some h.next, a⟩ = some 2 ∧
      shared_ptr.dtor h2 ⟨some h.next, a⟩ = some h3 ∧
      shared_ptr.use_count h3 ⟨some h.next, a⟩ = some 1 ∧
      h3.log = h.log ∧
      weak_ptr.from_shared h3 ⟨some h.next, a⟩ = some (h4, ⟨some h.next, a⟩) ∧
      shared_ptr.dtor h4 ⟨some h.next, a⟩ = some h5 ∧
      h5.log = h.log ++ [.delete_object h.next, .destructor a] ∧
      h5.cells h.next = some ⟨0, 1, .inplace a⟩ ∧
      weak_ptr.lock h5 ⟨some h.next, a⟩ = some (h5, ⟨none, nullptr⟩) ∧
      weak_ptr.dtor h5 ⟨some h.next, a⟩ = some h6 ∧
      h6.cells h.next = none ∧
      h6.log = h.log ++ [.delete_object h.next, .destructor a, .delete_this h.next]) ∧
    (run State.init [.s_make_shared (some a), .s_copy 0, .s_destroy 0, .w_from_shared 1,
        .s_destroy 1, .w_lock 0, .w_destroy 0]).map
      (fun s => (s.shared, s.weak, s.heap.log, s.heap.cells 0, s.heap.next))
      = some ([none, none, some ⟨none, nullptr⟩], [none],
          [.delete_object 0, .destructor a, .delete_this 0], none, 1) := by
  obtain ⟨e1, e2, e3, e4, e5, e6, e7⟩ := factory_chain h a
  refine ⟨⟨_, _, _, _, _, _, e1, ?_, ?_, rfl, e2, ?_, e3, ?_, rfl, e4, e5, rfl, ?_, e6, e7,
    ?_, ?_⟩, factory_run a⟩
  · exact set_cell_cells _ _ _
  · simp only [shared_ptr.use_count, control_block.use_count, set_cell_cells]
  · simp only [shared_ptr.use_count, control_block.use_count, set_cell_cells]
  · simp only [shared_ptr.use_count, control_block.use_count, set_cell_cells]
  · exact set_cell_cells _ _ _
  · simp [Heap.emit, Heap.set_cell]
  · simp [Heap.emit, Heap.set_cell, new_block]

theorem C16_factory_scenario_witness :
    (run State.init [.s_make_shared (some 9), .s_copy 0, .s_destroy 0, .w_from_shared 1,
        .s_destroy 1, .w_lock 0, .w_destroy 0]).map
      (fun s => (s.shared, s.weak, s.heap.log, s.heap.cells 0, s.heap.next))
      = some ([none, none, some ⟨none, nullptr⟩], [none],
          [.delete_object 0, .destructor 9, .delete_this 0], none, 1) :=
  (C16_factory_scenario State.init.heap 9).2

/-! ## The operations as sequences of elementary changes -/

theorem followed_by_append {x y : Event} {log es : List Event} (h1 : followed_by x y log)
    (h2 : followed_by x y es) : followed_by x y (log ++ es) := by
  intro pre post heq
  rcases List.append_eq_append_iff.mp heq with ⟨a, hpre, hes⟩ | ⟨c, hlog, hc⟩
  · exact h2 a post hes
  · cases c with
    | nil =>
      rw [List.nil_append] at hc
      exact h2 [] post (by simpa using hc.symm)
    | cons z c1 =>
      rw [List.cons_append] at hc
      injection hc with hz hpost
      subst hz
      obtain ⟨p1, hp1⟩ := h1 pre c1 hlog
      exact ⟨p1 ++ es, by rw [hpost, hp1]; rfl⟩

theorem followed_by_of_not_mem {x y : Event} {es : List Event} (h : x ∉ es) :
    followed_by x y es := by
  intro pre post heq
  exact absurd (by rw [heq]; simp) h

theorem followed_by_pair {x y : Event} (h : y ≠ x) : followed_by x y [x, y] := by
  intro pre post heq
  cases pre with
  | nil =>
    simp at heq
    exact ⟨[], heq.symm⟩
  | cons z pre1 =>
    cases pre1 with
    | nil =>
      simp at heq
      exact absurd heq.2.1 h
    | cons z1 pre2 =>
      simp at heq

theorem action_ne_delete_object (k : block_kind) (b : Nat) :
    k.action ≠ Event.delete_object b := by
  cases k <;> simp [block_kind.action]

theorem KInv.prim {U : Nat → Prop} {K : Nat → block_kind} {h h1 : Heap} (hK : KInv K h)
    (hp : Prim U h h1) :
    ∃ K1, (∀ b, b < h.next → K1 b = K b) ∧ KInv K1 h1 ∧ h.next ≤ h1.next := by
  cases hp with
  | count b c c1 hc hk =>
    refine ⟨K, fun _ _ => rfl, ?_, Nat.le_refl _⟩
    constructor
    · intro b1 c2 h2
      by_cases e : b1 = b
      · subst e
        simp [Heap.set_cell] at h2
        subst h2
        rw [hk]
        exact hK.kind b1 c hc
      · simp only [Heap.set_cell, Function.update, e, dite_false] at h2
        exact hK.kind b1 c2 h2
    · intro b1 c2 h2
      by_cases e : b1 = b
      · subst e
        exact hK.lt b1 c hc
      · simp only [Heap.set_cell, Function.update, e, dite_false] at h2
        exact hK.lt b1 c2 h2
    · exact hK.act
    · exact hK.unborn
  | destroy b c hc =>
    have hlt := hK.lt b c hc
    have hk := hK.kind b c hc
    refine ⟨K, fun _ _ => rfl, ?_, Nat.le_refl _⟩
    constructor
    · exact hK.kind
    · exact hK.lt
    · intro b1 hb1
      apply followed_by_append (hK.act b1 hb1)
      by_cases e : b1 = b
      · subst e
        rw [hk]
        exact followed_by_pair (action_ne_delete_object _ _)
      · apply followed_by_of_not_mem
        have hne : ¬ b = b1 := fun h => e h.symm
        simp [e]
        exact fun h => action_ne_delete_object _ _ h.symm
    · intro b1 hb1
      have hb2 : h.next ≤ b1 := hb1
      have hne1 : ¬ b1 = b := by omega
      have := hK.unborn b1 hb2
      simp [Heap.emit, this, hne1]
      exact fun h => action_ne_delete_object _ _ h.symm
  | free b =>
    refine ⟨K, fun _ _ => rfl, ?_, Nat.le_refl _⟩
    constructor
    · intro b1 c2 h2
      by_cases e : b1 = b
      · subst e
        simp [Heap.set_cell, Heap.emit] at h2
      · simp only [Heap.set_cell, Heap.emit, Function.update, e, dite_false] at h2
        exact hK.kind b1 c2 h2
    · intro b1 c2 h2
      by_cases e : b1 = b
      · subst e
        simp [Heap.set_cell, Heap.emit] at h2
      · simp only [Heap.set_cell, Heap.emit, Function.update, e, dite_false] at h2
        exact hK.lt b1 c2 h2
    · intro b1 hb1
      apply followed_by_append (hK.act b1 hb1)
      apply followed_by_of_not_mem
      simp
    · intro b1 hb1
      have := hK.unborn b1 hb1
      simp [Heap.emit, Heap.set_cell, this]
  | alloc k _ =>
    refine ⟨Function.update K h.next k, ?_, ?_, ?_⟩
    · intro b hb
      have e : b ≠ h.next := by omega
      simp [Function.update, e]
    · constructor
      · intro b1 c2 h2
        by_cases e : b1 = h.next
        · subst e
          simp [new_block, Heap.set_cell] at h2
          subst h2
          simp
        · simp only [new_block, Heap.set_cell, Function.update, e, dite_false] at h2 ⊢
          exact hK.kind b1 c2 h2
      · intro b1 c2 h2
        by_cases e : b1 = h.next
        · subst e
          simp [new_block]
        · simp only [new_block, Heap.set_cell, Function.update, e, dite_false] at h2 ⊢
          have := hK.lt b1 c2 h2
          omega
      · intro b1 hb1
        by_cases e : b1 = h.next
        · subst e
          apply followed_by_of_not_mem
          exact hK.unborn _ (Nat.le_refl _)
        · simp only [new_block, Heap.set_cell, Function.update, e, dite_false] at hb1 ⊢
          exact hK.act b1 (by omega)
      · intro b1 hb1
        simp only [new_block, Heap.set_cell] at hb1 ⊢
        exact hK.unborn b1 (by omega)
    · simp [new_block]
  | handler d p _ =>
    refine ⟨K, fun _ _ => rfl, ?_, Nat.le_refl _⟩
    constructor
    · exact hK.kind
    · exact hK.lt
    · intro b1 hb1
      apply followed_by_append (hK.act b1 hb1)
      apply followed_by_of_not_mem
      simp
    · intro b1 hb1
      have := hK.unborn b1 hb1
      simp [Heap.emit, this]

theorem KInv.prims {U : Nat → Prop} {K : Nat → block_kind} {h h1 : Heap} (hK : KInv K h)
    (hp : Relation.ReflTransGen (Prim U) h h1) :
    ∃ K1, (∀ b, b < h.next → K1 b = K b) ∧ KInv K1 h1 ∧ h.next ≤ h1.next := by
  induction hp with
  | refl => exact ⟨K, fun _ _ => rfl, hK, Nat.le_refl _⟩
  | tail _ hbc ih =>
    obtain ⟨K1, hagree, hK1, hle⟩ := ih
    obtain ⟨K2, hagree2, hK2, hle2⟩ := hK1.prim hbc
    exact ⟨K2, fun b hb => by rw [hagree2 b (by omega), hagree b hb], hK2, by omega⟩

theorem inc_weak_prims {U : Nat → Prop} {h h1 : Heap} {b : Nat}
    (e : control_block.inc_weak_counter h b = some h1) : Relation.ReflTransGen (Prim U) h h1 := by
  unfold control_block.inc_weak_counter at e
  cases hc : h.cells b with
  | none => simp [hc] at e
  | some c =>
    simp only [hc] at e
    generalize (c.weak_counter + 1) % SIZE_MOD = m at e
    injection e with e
    subst e
    exact Relation.ReflTransGen.single
      (Prim.count h b c ⟨c.strong_counter, m, c.kind⟩ hc rfl)

theorem inc_strong_prims {U : Nat → Prop} {h h1 : Heap} {b : Nat}
    (e : control_block.inc_strong_counter h b = some h1) : Relation.ReflTransGen (Prim U) h h1 := by
  unfold control_block.inc_strong_counter at e
  cases hc : h.cells b with
  | none => simp [hc] at e
  | some c =>
    simp only [hc] at e
    generalize (c.strong_counter + 1) % SIZE_MOD = m at e
    have p1 : Prim U h (h.set_cell b (some ⟨m, c.weak_counter, c.kind⟩)) :=
      Prim.count h b c ⟨m, c.weak_counter, c.kind⟩ hc rfl
    exact Relation.ReflTransGen.head p1 (inc_weak_prims e)

theorem dec_weak_prims {U : Nat → Prop} {h h1 : Heap} {b : Nat}
    (e : control_block.dec_weak_counter h b = some h1) : Relation.ReflTransGen (Prim U) h h1 := by
  unfold control_block.dec_weak_counter at e
  cases hc : h.cells b with
  | none => simp [hc] at e
  | some c =>
    simp only [hc] at e
    generalize (c.weak_counter + SIZE_MOD - 1) % SIZE_MOD = m at e
    split at e
    · injection e with e
      subst e
      exact Relation.ReflTransGen.single (Prim.free h b)
    · injection e with e
      subst e
      exact Relation.ReflTransGen.single
        (Prim.count h b c ⟨c.strong_counter, m, c.kind⟩ hc rfl)

theorem dec_strong_prims {U : Nat → Prop} {h h1 : Heap} {b : Nat}
    (e : control_block.dec_strong_counter h b = some h1) : Relation.ReflTransGen (Prim U) h h1 := by
  unfold control_block.dec_strong_counter at e
  cases hc : h.cells b with
  | none => simp [hc] at e
  | some c =>
    simp only [hc] at e
    generalize (c.strong_counter + SIZE_MOD - 1) % SIZE_MOD = m at e
    have p1 : Prim U h (h.set_cell b (some ⟨m, c.weak_counter, c.kind⟩)) :=
      Prim.count h b c ⟨m, c.weak_counter, c.kind⟩ hc rfl
    split at e
    · rw [delete_object_action (c := ⟨m, c.weak_counter, c.kind⟩) (by simp [Heap.set_cell])]
        at e
      simp only at e
      have p2 : Prim U (h.set_cell b (some ⟨m, c.weak_counter, c.kind⟩))
          ((h.set_cell b (some ⟨m, c.weak_counter, c.kind⟩)).emit
            [.delete_object b, c.kind.action]) :=
        Prim.destroy (h.set_cell b (some ⟨m, c.weak_counter, c.kind⟩)) b
          ⟨m, c.weak_counter, c.kind⟩ (by simp [Heap.set_cell])
      exact Relation.ReflTransGen.head p1 (Relation.ReflTransGen.head p2 (dec_weak_prims e))
    · exact Relation.ReflTransGen.head p1 (dec_weak_prims e)

theorem copy_prims {U : Nat → Prop} {h : Heap} {o : shared_ptr} {r : Heap × shared_ptr}
    (e : shared_ptr.copy h o = some r) : Relation.ReflTransGen (Prim U) h r.1 := by
  unfold shared_ptr.copy at e
  cases hb : o.block with
  | none =>
    simp [hb] at e
    subst e
    exact Relation.ReflTransGen.refl
  | some b =>
    simp only [hb] at e
    cases hi : control_block.inc_strong_counter h b with
    | none => simp [hi] at e
    | some h1 =>
      simp [hi] at e
      subst e
      exact inc_strong_prims hi

theorem dtor_prims {U : Nat → Prop} {h h1 : Heap} {x : shared_ptr} (e : shared_ptr.dtor h x = some h1) :
    Relation.ReflTransGen (Prim U) h h1 := by
  unfold shared_ptr.dtor at e
  cases hb : x.block with
  | none =>
    simp [hb] at e
    subst e
    exact Relation.ReflTransGen.refl
  | some b =>
    simp only [hb] at e
    exact dec_strong_prims e

theorem from_raw_prims {U : Nat → Prop} {h : Heap} {p : Addr} {d : Nat} {ok : Bool}
    {r : Heap × Result shared_ptr} (hU : U d) (e : shared_ptr.from_raw h p d ok = some r) :
    Relation.ReflTransGen (Prim U) h r.1 := by
  unfold shared_ptr.from_raw at e
  cases ok with
  | true =>
    simp only [if_true] at e
    cases hi : control_block.inc_strong_counter (new_block h (.regular p d)) h.next with
    | none => simp [hi] at e
    | some h1 =>
      simp [hi] at e
      subst e
      exact Relation.ReflTransGen.head (Prim.alloc h _ (by intro p1 d1 hk; cases hk; exact hU)) (inc_strong_prims hi)
  | false =>
    simp at e
    subst e
    exact Relation.ReflTransGen.single (Prim.handler h d p hU)

theorem make_shared_prims {U : Nat → Prop} {h : Heap} {alloc : Option Addr} {r : Heap × Result shared_ptr}
    (e : make_shared h alloc = some r) : Relation.ReflTransGen (Prim U) h r.1 := by
  unfold make_shared at e
  cases alloc with
  | none =>
    simp at e
    subst e
    exact Relation.ReflTransGen.refl
  | some a =>
    simp only at e
    cases hi : control_block.inc_strong_counter (new_block h (.inplace a)) h.next with
    | none => simp [hi] at e
    | some h1 =>
      simp [hi] at e
      subst e
      exact Relation.ReflTransGen.head (Prim.alloc h _ (by intro p1 d1 hk; cases hk)) (inc_strong_prims hi)

theorem assign_prims {U : Nat → Prop} {h : Heap} {x o : shared_ptr} {r : Heap × shared_ptr}
    (e : shared_ptr.assign h x o = some r) : Relation.ReflTransGen (Prim U) h r.1 := by
  unfold shared_ptr.assign at e
  cases hc : shared_ptr.copy h o with
  | none => simp [hc] at e
  | some t =>
    simp only [hc] at e
    cases hd : shared_ptr.dtor t.1 (shared_ptr.swap t.2 x).1 with
    | none => simp [hd] at e
    | some h2 =>
      simp [hd] at e
      subst e
      exact (copy_prims hc).trans (dtor_prims hd)

theorem move_assign_prims {U : Nat → Prop} {h : Heap} {x o : shared_ptr} {r : Heap × shared_ptr × shared_ptr}
    (e : shared_ptr.move_assign h x o = some r) : Relation.ReflTransGen (Prim U) h r.1 := by
  unfold shared_ptr.move_assign at e
  cases hd : shared_ptr.dtor h (shared_ptr.swap (shared_ptr.move o).1 x).1 with
  | none => simp [hd] at e
  | some h2 =>
    simp [hd] at e
    subst e
    exact dtor_prims hd

theorem reset_prims {U : Nat → Prop} {h : Heap} {x : shared_ptr} {r : Heap × shared_ptr}
    (e : shared_ptr.reset h x = some r) : Relation.ReflTransGen (Prim U) h r.1 := by
  unfold shared_ptr.reset at e
  cases hd : shared_ptr.dtor h (shared_ptr.swap shared_ptr.default x).1 with
  | none => simp [hd] at e
  | some h2 =>
    simp [hd] at e
    subst e
    exact dtor_prims hd

theorem reset_raw_prims {U : Nat → Prop} {h : Heap} {x : shared_ptr} {p : Addr} {d : Nat} {ok : Bool}
    {r : Heap × Result shared_ptr} (hU : U d)
    (e : shared_ptr.reset_raw h x p d ok = some r) :
    Relation.ReflTransGen (Prim U) h r.1 := by
  unfold shared_ptr.reset_raw at e
  cases hf : shared_ptr.from_raw h p d ok with
  | none => simp [hf] at e
  | some t =>
    have ht := from_raw_prims hU hf
    obtain ⟨h2, res⟩ := t
    cases res with
    | bad_alloc =>
      simp [hf] at e
      subst e
      exact ht
    | ok tmp =>
      simp only [hf] at e
      cases hd : shared_ptr.dtor h2 (shared_ptr.swap tmp x).1 with
      | none => simp [hd] at e
      | some h3 =>
        simp [hd] at e
        subst e
        exact ht.trans (dtor_prims hd)

theorem weak_copy_prims {U : Nat → Prop} {h : Heap} {o : weak_ptr} {r : Heap × weak_ptr}
    (e : weak_ptr.copy h o = some r) : Relation.ReflTransGen (Prim U) h r.1 := by
  unfold weak_ptr.copy at e
  cases hb : o.block with
  | none =>
    simp [hb] at e
    subst e
    exact Relation.ReflTransGen.refl
  | some b =>
    simp only [hb] at e
    cases hi : control_block.inc_weak_counter h b with
    | none => simp [hi] at e
    | some h1 =>
      simp [hi] at e
      subst e
      exact inc_weak_prims hi

theorem from_shared_prims {U : Nat → Prop} {h : Heap} {o : shared_ptr} {r : Heap × weak_ptr}
    (e : weak_ptr.from_shared h o = some r) : Relation.ReflTransGen (Prim U) h r.1 := by
  rw [from_shared_eq_copy] at e
  exact weak_copy_prims e

theorem weak_dtor_prims {U : Nat → Prop} {h h1 : Heap} {w : weak_ptr} (e : weak_ptr.dtor h w = some h1) :
    Relation.ReflTransGen (Prim U) h h1 := by
  unfold weak_ptr.dtor at e
  cases hb : w.block with
  | none =>
    simp [hb] at e
    subst e
    exact Relation.ReflTransGen.refl
  | some b =>
    simp only [hb] at e
    exact dec_weak_prims e

theorem weak_assign_prims {U : Nat → Prop} {h : Heap} {w o : weak_ptr} {r : Heap × weak_ptr}
    (e : weak_ptr.assign h w o = some r) : Relation.ReflTransGen (Prim U) h r.1 := by
  unfold weak_ptr.assign at e
  cases hc : weak_ptr.copy h o with
  | none => simp [hc] at e
  | some t =>
    simp only [hc] at e
    cases hd : weak_ptr.dtor t.1 (weak_ptr.swap t.2 w).1 with
    | none => simp [hd] at e
    | some h2 =>
      simp [hd] at e
      subst e
      exact (weak_copy_prims hc).trans (weak_dtor_prims hd)

theorem weak_assign_shared_prims {U : Nat → Prop} {h : Heap} {w : weak_ptr} {o : shared_ptr}
    {r : Heap × weak_ptr} (e : weak_ptr.assign_shared h w o = some r) :
    Relation.ReflTransGen (Prim U) h r.1 := by
  unfold weak_ptr.assign_shared at e
  cases hc : weak_ptr.from_shared h o with
  | none => simp [hc] at e
  | some t =>
    simp only [hc] at e
    cases hd : weak_ptr.dtor t.1 (weak_ptr.swap t.2 w).1 with
    | none => simp [hd] at e
    | some h2 =>
      simp [hd] at e
      subst e
      exact (from_shared_prims hc).trans (weak_dtor_prims hd)

theorem weak_move_assign_prims {U : Nat → Prop} {h : Heap} {w o : weak_ptr} {r : Heap × weak_ptr × weak_ptr}
    (e : weak_ptr.move_assign h w o = some r) : Relation.ReflTransGen (Prim U) h r.1 := by
  unfold weak_ptr.move_assign at e
  cases hd : weak_ptr.dtor h (weak_ptr.swap (weak_ptr.move o).1 w).1 with
  | none => simp [hd] at e
  | some h2 =>
    simp [hd] at e
    subst e
    exact weak_dtor_prims hd

theorem lock_prims {U : Nat → Prop} {h : Heap} {w : weak_ptr} {r : Heap × shared_ptr}
    (e : weak_ptr.lock h w = some r) : Relation.ReflTransGen (Prim U) h r.1 := by
  unfold weak_ptr.lock at e
  cases hb : w.block with
  | none =>
    simp [hb] at e
    subst e
    exact Relation.ReflTransGen.refl
  | some b =>
    simp only [hb] at e
    cases hu : control_block.use_count h b with
    | none => simp [hu] at e
    | some n =>
      simp only [hu] at e
      split at e
      · simp at e
        subst e
        exact Relation.ReflTransGen.refl
      · unfold shared_ptr.from_block at e
        cases hi : control_block.inc_strong_counter h b with
        | none => simp [hi] at e
        | some h1 =>
          simp [hi] at e
          subst e
          exact inc_strong_prims hi

/-- Every operation of the state machine changes the heap by elementary changes only. -/
theorem step_prims {U : Nat → Prop} {s s1 : State} {op : Op}
    (hU : ∀ d, op.uses d = true → U d) (h : step s op = some s1) :
    Relation.ReflTransGen (Prim U) s.heap s1.heap := by
  cases op with
  | s_default =>
    simp [step] at h
    subst h
    exact Relation.ReflTransGen.refl
  | s_raw p d ok =>
    cases he : shared_ptr.from_raw s.heap p d ok with
    | none => simp [step, he] at h
    | some r =>
      have hp := from_raw_prims (U := U) (hU d (by simp [Op.uses])) he
      obtain ⟨h1, res⟩ := r
      cases res <;> simp [step, he] at h <;> subst h <;> exact hp
  | s_alias i p =>
    cases hx : s.sget i with
    | none => simp [step, hx] at h
    | some x =>
      cases he : shared_ptr.aliasing s.heap x p with
      | none => simp [step, hx, he] at h
      | some r =>
        have hp := copy_prims (U := U) (by rw [← aliasing_eq_copy]; exact he)
        simp [step, hx, he] at h
        subst h
        exact hp
  | s_copy i =>
    cases hx : s.sget i with
    | none => simp [step, hx] at h
    | some x =>
      cases he : shared_ptr.copy s.heap x with
      | none => simp [step, hx, he] at h
      | some r =>
        have hp := copy_prims (U := U) he
        simp [step, hx, he] at h
        subst h
        exact hp
  | s_move i =>
    cases hx : s.sget i with
    | none => simp [step, hx] at h
    | some x =>
      simp [step, hx] at h
      subst h
      exact Relation.ReflTransGen.refl
  | s_destroy i =>
    cases hx : s.sget i with
    | none => simp [step, hx] at h
    | some x =>
      cases he : shared_ptr.dtor s.heap x with
      | none => simp [step, hx, he] at h
      | some h1 =>
        have hp := dtor_prims (U := U) he
        simp [step, hx, he] at h
        subst h
        exact hp
  | s_assign i j =>
    cases hx : s.sget i with
    | none => simp [step, hx] at h
    | some x =>
      cases ho : s.sget j with
      | none => simp [step, hx, ho] at h
      | some o =>
        by_cases hij : i = j
        · simp [step, hx, ho, hij] at h
          subst h
          exact Relation.ReflTransGen.refl
        · cases he : shared_ptr.assign s.heap x o with
          | none => simp [step, hx, ho, hij, he] at h
          | some r =>
            have hp := assign_prims (U := U) he
            simp [step, hx, ho, hij, he] at h
            subst h
            exact hp
  | s_move_assign i j =>
    cases hx : s.sget i with
    | none => simp [step, hx] at h
    | some x =>
      cases ho : s.sget j with
      | none => simp [step, hx, ho] at h
      | some o =>
        by_cases hij : i = j
        · simp [step, hx, ho, hij] at h
          subst h
          exact Relation.ReflTransGen.refl
        · cases he : shared_ptr.move_assign s.heap x o with
          | none => simp [step, hx, ho, hij, he] at h
          | some r =>
            have hp := move_assign_prims (U := U) he
            simp [step, hx, ho, hij, he] at h
            subst h
            exact hp
  | s_reset i =>
    cases hx : s.sget i with
    | none => simp [step, hx] at h
    | some x =>
      cases he : shared_ptr.reset s.heap x with
      | none => simp [step, hx, he] at h
      | some r =>
        have hp := reset_prims (U := U) he
        simp [step, hx, he] at h
        subst h
        exact hp
  | s_reset_raw i p d ok =>
    cases hx : s.sget i with
    | none => simp [step, hx] at h
    | some x =>
      cases he : shared_ptr.reset_raw s.heap x p d ok with
      | none => simp [step, hx, he] at h
      | some r =>
        have hp := reset_raw_prims (U := U) (hU d (by simp [Op.uses])) he
        obtain ⟨h1, res⟩ := r
        cases res <;> simp [step, hx, he] at h <;> subst h <;> exact hp
  | s_make_shared alloc =>
    cases he : make_shared s.heap alloc with
    | none => simp [step, he] at h
    | some r =>
      have hp := make_shared_prims (U := U) he
      obtain ⟨h1, res⟩ := r
      cases res <;> simp [step, he] at h <;> subst h <;> exact hp
  | w_default =>
    simp [step] at h
    subst h
    exact Relation.ReflTransGen.refl
  | w_copy i =>
    cases hx : s.wget i with
    | none => simp [step, hx] at h
    | some x =>
      cases he : weak_ptr.copy s.heap x with
      | none => simp [step, hx, he] at h
      | some r =>
        have hp := weak_copy_prims (U := U) he
        simp [step, hx, he] at h
        subst h
        exact hp
  | w_from_shared i =>
    cases hx : s.sget i with
    | none => simp [step, hx] at h
    | some x =>
      cases he : weak_ptr.from_shared s.heap x with
      | none => simp [step, hx, he] at h
      | some r =>
        have hp := from_shared_prims (U := U) he
        simp [step, hx, he] at h
        subst h
        exact hp
  | w_move i =>
    cases hx : s.wget i with
    | none => simp [step, hx] at h
    | some x =>
      simp [step, hx] at h
      subst h
      exact Relation.ReflTransGen.refl
  | w_destroy i =>
    cases hx : s.wget i with
    | none => simp [step, hx] at h
    | some x =>
      cases he : weak_ptr.dtor s.heap x with
      | none => simp [step, hx, he] at h
      | some h1 =>
        have hp := weak_dtor_prims (U := U) he
        simp [step, hx, he] at h
        subst h
        exact hp
  | w_assign i j =>
    cases hx : s.wget i with
    | none => simp [step, hx] at h
    | some x =>
      cases ho : s.wget j with
      | none => simp [step, hx, ho] at h
      | some o =>
        by_cases hij : i = j
        · simp [step, hx, ho, hij] at h
          subst h
          exact Relation.ReflTransGen.refl
        · cases he : weak_ptr.assign s.heap x o with
          | none => simp [step, hx, ho, hij, he] at h
          | some r =>
            have hp := weak_assign_prims (U := U) he
            simp [step, hx, ho, hij, he] at h
            subst h
            exact hp
  | w_assign_shared i j =>
    cases hx : s.wget i with
    | none => simp [step, hx] at h
    | some x =>
      cases ho : s.sget j with
      | none => simp [step, hx, ho] at h
      | some o =>
        cases he : weak_ptr.assign_shared s.heap x o with
        | none => simp [step, hx, ho, he] at h
        | some r =>
          have hp := weak_assign_shared_prims (U := U) he
          simp [step, hx, ho, he] at h
          subst h
          exact hp
  | w_move_assign i j =>
    cases hx : s.wget i with
    | none => simp [step, hx] at h
    | some x =>
      cases ho : s.wget j with
      | none => simp [step, hx, ho] at h
      | some o =>
        by_cases hij : i = j
        · simp [step, hx, ho, hij] at h
          subst h
          exact Relation.ReflTransGen.refl
        · cases he : weak_ptr.move_assign s.heap x o with
          | none => simp [step, hx, ho, hij, he] at h
          | some r =>
            have hp := weak_move_assign_prims (U := U) he
            simp [step, hx, ho, hij, he] at h
            subst h
            exact hp
  | w_lock i =>
    cases hx : s.wget i with
    | none => simp [step, hx] at h
    | some x =>
      cases he : weak_ptr.lock s.heap x with
      | none => simp [step, hx, he] at h
      | some r =>
        have hp := lock_prims (U := U) he
        simp [step, hx, he] at h
        subst h
        exact hp

theorem run_prims {U : Nat → Prop} {ops : List Op} : ∀ {s s1 : State},
    (∀ op ∈ ops, ∀ d, op.uses d = true → U d) → run s ops = some s1 →
    Relation.ReflTransGen (Prim U) s.heap s1.heap := by
  induction ops with
  | nil =>
    intro s s1 _ h
    simp [run] at h
    subst h
    exact Relation.ReflTransGen.refl
  | cons op ops ih =>
    intro s s1 hU h
    unfold run at h
    cases hstep : step s op with
    | none => simp [hstep] at h
    | some s2 =>
      simp only [hstep] at h
      exact (step_prims (hU op (List.mem_cons_self _ _)) hstep).trans
        (ih (fun o ho => hU o (List.mem_cons_of_mem _ ho)) h)

theorem run_append {a b : List Op} : ∀ {s s1 s2 : State}, run s a = some s1 →
    run s1 b = some s2 → run s (a ++ b) = some s2 := by
  induction a with
  | nil =>
    intro s s1 s2 h1 h2
    simp [run] at h1
    subst h1
    exact h2
  | cons op a ih =>
    intro s s1 s2 h1 h2
    unfold run at h1
    cases hstep : step s op with
    | none => simp [hstep] at h1
    | some s3 =>
      simp only [hstep] at h1
      simp only [List.cons_append, run, hstep]
      exact ih h1 h2

theorem KInv.at_start : KInv (fun _ => .inplace 0) State.init.heap := by
  constructor
  · intro b c h; cases h
  · intro b c h; cases h
  · intro b hb; exact absurd hb (Nat.not_lt_zero _)
  · intro b _; simp [State.init]

/-! ## The deleter of a block built from a raw pointer -/

theorem action_ne_deleter {k : block_kind} {d : Nat} (hk : ∀ p, k ≠ .regular p d) (p1 : Addr) :
    k.action ≠ Event.deleter d p1 := by
  cases k with
  | regular p d1 =>
    intro e
    simp only [block_kind.action, Event.deleter.injEq] at e
    exact hk p (by rw [e.1])
  | inplace a => simp [block_kind.action]

theorem uses_ne {op : Op} {d : Nat} (h : op.uses d = false) :
    ∀ d1, op.uses d1 = true → d1 ≠ d := by
  intro d1 h1 e
  subst e
  rw [h] at h1
  cases h1

theorem NoBlock.of_prim {d : Nat} {h h1 : Heap} (hN : NoBlock d h)
    (hp : Prim (fun d1 => d1 ≠ d) h h1) : NoBlock d h1 := by
  cases hp with
  | count b c c1 hc hk =>
    intro b1 c2 p1 h2
    by_cases e : b1 = b
    · subst e
      simp [Heap.set_cell] at h2
      subst h2
      rw [hk]
      exact hN b1 c p1 hc
    · simp only [Heap.set_cell, Function.update, e, dite_false] at h2
      exact hN b1 c2 p1 h2
  | destroy b c hc => exact hN
  | free b =>
    intro b1 c2 p1 h2
    by_cases e : b1 = b
    · subst e
      simp [Heap.set_cell, Heap.emit] at h2
    · simp only [Heap.set_cell, Heap.emit, Function.update, e, dite_false] at h2
      exact hN b1 c2 p1 h2
  | alloc k hk =>
    intro b1 c2 p1 h2
    by_cases e : b1 = h.next
    · subst e
      simp [new_block, Heap.set_cell] at h2
      subst h2
      intro ek
      exact hk p1 d ek rfl
    · simp only [new_block, Heap.set_cell, Function.update, e, dite_false] at h2
      exact hN b1 c2 p1 h2
  | handler d1 p hd => exact hN

theorem NoBlock.of_prims {d : Nat} {h h1 : Heap} (hN : NoBlock d h)
    (hp : Relation.ReflTransGen (Prim (fun d1 => d1 ≠ d)) h h1) : NoBlock d h1 := by
  induction hp with
  | refl => exact hN
  | tail _ hbc ih => exact ih.of_prim hbc

theorem Unused.after_prim {d : Nat} {h h1 : Heap} (hu : Unused d h)
    (hp : Prim (fun d1 => d1 ≠ d) h h1) : Unused d h1 := by
  refine ⟨hu.kind.of_prim hp, ?_⟩
  cases hp with
  | count b c c1 hc hk => exact hu.log
  | destroy b c hc =>
    intro p1
    have h1 := hu.log p1
    have h2 := action_ne_deleter (fun p => hu.kind b c p hc) p1
    simp [Heap.emit, h1]
    exact fun e => h2 e.symm
  | free b =>
    intro p1
    have h1 := hu.log p1
    simp [Heap.emit, Heap.set_cell, h1]
  | alloc k hk => exact hu.log
  | handler d1 p hd =>
    intro p1
    have h1 := hu.log p1
    simp [Heap.emit, h1]
    intro e
    exact absurd e.symm hd

theorem Unused.after_prims {d : Nat} {h h1 : Heap} (hu : Unused d h)
    (hp : Relation.ReflTransGen (Prim (fun d1 => d1 ≠ d)) h h1) : Unused d h1 := by
  induction hp with
  | refl => exact hu
  | tail _ hbc ih => exact ih.after_prim hbc

theorem Unused.initially (d : Nat) : Unused d State.init.heap := by
  constructor
  · intro b c p h
    cases h
  · intro p
    simp [State.init]

theorem Owned.keep_prim {d b : Nat} {p : Addr} {h h1 : Heap} (hO : Owned d b p h)
    (hp : Prim (fun d1 => d1 ≠ d) h h1) : Owned d b p h1 := by
  cases hp with
  | count b1 c c1 hc hk =>
    refine ⟨hO.lt, ?_, ?_, hO.cnt⟩
    · intro c2 h2
      by_cases e : b = b1
      · subst e
        simp [Heap.set_cell] at h2
        subst h2
        rw [hk]
        exact hO.own c hc
      · simp only [Heap.set_cell, Function.update, e, dite_false] at h2
        exact hO.own c2 h2
    · intro b2 c2 p1 h2 hne
      by_cases e : b2 = b1
      · subst e
        simp [Heap.set_cell] at h2
        subst h2
        rw [hk]
        exact hO.other b2 c p1 hc hne
      · simp only [Heap.set_cell, Function.update, e, dite_false] at h2
        exact hO.other b2 c2 p1 h2 hne
  | destroy b1 c hc =>
    refine ⟨hO.lt, hO.own, hO.other, ?_⟩
    intro p1
    have h0 := hO.cnt p1
    simp only [Heap.emit, List.count_append, h0]
    by_cases e : b1 = b
    · subst e
      rw [hO.own c hc]
      by_cases ep : p1 = p
      · subst ep
        simp [block_kind.action, List.count_cons]
      · have ep1 : ¬ p = p1 := fun x => ep x.symm
        simp [block_kind.action, List.count_cons, ep, ep1]
    · have h2 := action_ne_deleter (fun p2 => hO.other b1 c p2 hc e) p1
      have h3 := action_ne_delete_object c.kind b
      simp [List.count_cons, h2, h3, e]
  | free b1 =>
    refine ⟨hO.lt, ?_, ?_, ?_⟩
    · intro c2 h2
      by_cases e : b = b1
      · subst e
        simp [Heap.set_cell, Heap.emit] at h2
      · simp only [Heap.set_cell, Heap.emit, Function.update, e, dite_false] at h2
        exact hO.own c2 h2
    · intro b2 c2 p1 h2 hne
      by_cases e : b2 = b1
      · subst e
        simp [Heap.set_cell, Heap.emit] at h2
      · simp only [Heap.set_cell, Heap.emit, Function.update, e, dite_false] at h2
        exact hO.other b2 c2 p1 h2 hne
    · intro p1
      have h0 := hO.cnt p1
      simp [Heap.emit, Heap.set_cell, List.count_append, List.count_cons, h0]
  | alloc k hk =>
    have hlt := hO.lt
    refine ⟨?_, ?_, ?_, hO.cnt⟩
    · simp only [new_block]
      omega
    · intro c2 h2
      have e : ¬ b = h.next := by omega
      simp only [new_block, Heap.set_cell, Function.update, e, dite_false] at h2
      exact hO.own c2 h2
    · intro b2 c2 p1 h2 hne
      by_cases e : b2 = h.next
      · subst e
        simp [new_block, Heap.set_cell] at h2
        subst h2
        intro ek
        exact hk p1 d ek rfl
      · simp only [new_block, Heap.set_cell, Function.update, e, dite_false] at h2
        exact hO.other b2 c2 p1 h2 hne
  | handler d1 p2 hd =>
    refine ⟨hO.lt, hO.own, hO.other, ?_⟩
    intro p1
    have h0 := hO.cnt p1
    have hne : ¬ (d1 = d) := hd
    simp [Heap.emit, List.count_append, List.count_cons, h0, hne]

theorem Owned.keep_prims {d b : Nat} {p : Addr} {h h1 : Heap} (hO : Owned d b p h)
    (hp : Relation.ReflTransGen (Prim (fun d1 => d1 ≠ d)) h h1) : Owned d b p h1 := by
  induction hp with
  | refl => exact hO
  | tail _ hbc ih => exact ih.keep_prim hbc

/-- A successful raw-pointer construction with a deleter that was unused so far makes the new
block the owner of the deleter. -/
theorem from_raw_owned {d : Nat} {h h1 : Heap} {p : Addr} {r : Result shared_ptr}
    (hu : Unused d h) (hb : Event.delete_object h.next ∉ h.log)
    (e : shared_ptr.from_raw h p d true = some (h1, r)) : Owned d h.next p h1 := by
  unfold shared_ptr.from_raw at e
  simp only [if_true] at e
  rw [inc_strong_counter_eq (new_block_cells h _) one_lt_size one_lt_size] at e
  simp only [Option.some.injEq, Prod.mk.injEq] at e
  obtain ⟨e1, _⟩ := e
  subst e1
  refine ⟨?_, ?_, ?_, ?_⟩
  · simp [Heap.set_cell, new_block]
  · intro c h2
    simp [Heap.set_cell] at h2
    subst h2
    rfl
  · intro b1 c p1 h2 hne
    simp only [new_block, Heap.set_cell, Function.update, hne, dite_false] at h2
    exact hu.kind b1 c p1 h2
  · intro p1
    have h1 : List.count (Event.deleter d p1) h.log = 0 := List.count_eq_zero.mpr (hu.log p1)
    have h2 : List.count (Event.delete_object h.next) h.log = 0 := List.count_eq_zero.mpr hb
    simp [Heap.set_cell, new_block, h1, h2]

/-- The operation that passes a deleter unused so far either fails to allocate, and then no
block has the deleter, or makes the fresh block its owner. -/
theorem step_creator {d : Nat} {s s1 : State} {op : Op} (hs : step s op = some s1)
    (hu : op.uses d = true) (hun : Unused d s.heap)
    (hb : Event.delete_object s.heap.next ∉ s.heap.log) :
    NoBlock d s1.heap ∨ ∃ p, Owned d s.heap.next p s1.heap := by
  cases op with
  | s_raw p d1 ok =>
    have e : d1 = d := by simpa [Op.uses] using hu
    subst e
    cases ok with
    | false =>
      simp [step, shared_ptr.from_raw] at hs
      subst hs
      exact Or.inl hun.kind
    | true =>
      cases he : shared_ptr.from_raw s.heap p d1 true with
      | none => simp [step, he] at hs
      | some r =>
        obtain ⟨h1, res⟩ := r
        have hO := from_raw_owned hun hb he
        cases res <;> simp [step, he] at hs <;> subst hs <;> exact Or.inr ⟨p, hO⟩
  | s_reset_raw i p d1 ok =>
    have e : d1 = d := by simpa [Op.uses] using hu
    subst e
    cases hx : s.sget i with
    | none => simp [step, hx] at hs
    | some x =>
      cases ok with
      | false =>
        simp [step, hx, shared_ptr.reset_raw, shared_ptr.from_raw] at hs
        subst hs
        exact Or.inl hun.kind
      | true =>
        cases he : shared_ptr.from_raw s.heap p d1 true with
        | none => simp [step, hx, shared_ptr.reset_raw, he] at hs
        | some r =>
          obtain ⟨h1, res⟩ := r
          have hO := from_raw_owned hun hb he
          cases res with
          | bad_alloc =>
            simp [step, hx, shared_ptr.reset_raw, he] at hs
            subst hs
            exact Or.inr ⟨p, hO⟩
          | ok tmp =>
            cases hd : shared_ptr.dtor h1 (shared_ptr.swap tmp x).1 with
            | none => simp [step, hx, shared_ptr.reset_raw, he, hd] at hs
            | some h2 =>
              simp [step, hx, shared_ptr.reset_raw, he, hd] at hs
              subst hs
              exact Or.inr ⟨p, hO.keep_prims (dtor_prims hd)⟩
  | s_default => simp [Op.uses] at hu
  | s_alias i p => simp [Op.uses] at hu
  | s_copy i => simp [Op.uses] at hu
  | s_move i => simp [Op.uses] at hu
  | s_destroy i => simp [Op.uses] at hu
  | s_assign i j => simp [Op.uses] at hu
  | s_move_assign i j => simp [Op.uses] at hu
  | s_reset i => simp [Op.uses] at hu
  | s_make_shared alloc => simp [Op.uses] at hu
  | w_default => simp [Op.uses] at hu
  | w_copy i => simp [Op.uses] at hu
  | w_from_shared i => simp [Op.uses] at hu
  | w_move i => simp [Op.uses] at hu
  | w_destroy i => simp [Op.uses] at hu
  | w_assign i j => simp [Op.uses] at hu
  | w_assign_shared i j => simp [Op.uses] at hu
  | w_move_assign i j => simp [Op.uses] at hu
  | w_lock i => simp [Op.uses] at hu

theorem countP_one_split {α : Type} (f : α → Bool) (l : List α) (h : l.countP f = 1) :
    ∃ pre x post, l = pre ++ x :: post ∧ f x = true ∧ (∀ y ∈ pre, f y = false) ∧
      (∀ y ∈ post, f y = false) := by
  induction l with
  | nil => simp at h
  | cons a l ih =>
    by_cases ha : f a = true
    · rw [List.countP_cons_of_pos _ _ ha] at h
      have h0 : l.countP f = 0 := by omega
      refine ⟨[], a, l, rfl, ha, by simp, ?_⟩
      intro y hy
      have := List.countP_eq_zero.mp h0 y hy
      simpa using this
    · rw [List.countP_cons_of_neg _ _ ha] at h
      obtain ⟨pre, x, post, e, hx, h1, h2⟩ := ih h
      refine ⟨a :: pre, x, post, by rw [e]; rfl, hx, ?_, h2⟩
      intro y hy
      rcases List.mem_cons.mp hy with e1 | e1
      · subst e1
        simpa using ha
      · exact h1 y e1

theorem run_cons_inv {s t : State} {op : Op} {ops : List Op} (h : run s (op :: ops) = some t) :
    ∃ m, step s op = some m ∧ run m ops = some t := by
  unfold run at h
  cases hstep : step s op with
  | none => simp [hstep] at h
  | some m =>
    simp only [hstep] at h
    exact ⟨m, rfl, h⟩

theorem run_append_inv {a b : List Op} : ∀ {s t : State}, run s (a ++ b) = some t →
    ∃ m, run s a = some m ∧ run m b = some t := by
  induction a with
  | nil =>
    intro s t h
    exact ⟨s, rfl, h⟩
  | cons op a ih =>
    intro s t h
    obtain ⟨m, hstep, hrest⟩ := run_cons_inv (by simpa using h)
    obtain ⟨m1, h1, h2⟩ := ih hrest
    refine ⟨m1, ?_, h2⟩
    rw [run_cons_eq hstep]
    exact h1

theorem free_of_count {d : Nat} {l : List Op} (h : l.countP (fun op => op.uses d) = 0) :
    ∀ op ∈ l, ∀ d1, op.uses d1 = true → d1 ≠ d := by
  intro op hop
  have := List.countP_eq_zero.mp h op hop
  exact uses_ne (by simpa using this)

/-- When exactly one operation of a run passes the deleter `d`, and block `b` is allocated
with the stored pointer `p` and the deleter `d` after the first part of the run, then `b` owns
`d` at the end of the run. -/
theorem owned_of_unique {ops1 ops2 : List Op} {s s2 : State}
    (hr1 : run State.init ops1 = some s) (hr2 : run s ops2 = some s2) {b : Nat}
    {c : control_block} {p : Addr} {d : Nat} (hc : s.heap.cells b = some c)
    (hk : c.kind = .regular p d)
    (hcnt : (ops1 ++ ops2).countP (fun op => op.uses d) = 1) : Owned d b p s2.heap := by
  rw [List.countP_append] at hcnt
  have h1 : ops1.countP (fun op => op.uses d) ≠ 0 := by
    intro h0
    have hN := (Unused.initially d).kind.of_prims (run_prims (free_of_count h0) hr1)
    exact hN b c p hc hk
  have h2 : ops2.countP (fun op => op.uses d) = 0 := by omega
  have h3 : ops1.countP (fun op => op.uses d) = 1 := by omega
  obtain ⟨pre, cr, mid, e, hcr, hpre, hmid⟩ := countP_one_split _ ops1 h3
  subst e
  obtain ⟨s0, hrpre, hrest⟩ := run_append_inv hr1
  obtain ⟨s01, hstep, hrmid⟩ := run_cons_inv hrest
  have cpre := run_prims (U := fun d1 => d1 ≠ d) (fun op hop => uses_ne (hpre op hop)) hrpre
  have cmid := run_prims (U := fun d1 => d1 ≠ d) (fun op hop => uses_ne (hmid op hop)) hrmid
  have c2 := run_prims (U := fun d1 => d1 ≠ d) (free_of_count h2) hr2
  obtain ⟨K, _, hK, _⟩ := KInv.at_start.prims cpre
  have hun := (Unused.initially d).after_prims cpre
  rcases step_creator hstep hcr hun (hK.unborn _ (Nat.le_refl _)) with hN | ⟨p0, hO⟩
  · exact absurd hk (hN.of_prims cmid b c p hc)
  · have hOs := hO.keep_prims cmid
    have eb : b = s0.heap.next := by
      by_contra hne
      exact hOs.other b c p hc hne hk
    subst eb
    have ep : p0 = p := by
      have := hOs.own c hc
      rw [hk] at this
      injection this with e1 _
      exact e1.symm
    subst ep
    exact hOs.keep_prims c2

/-- C15: let block `b` be allocated, with the stored pointer `p` and the deleter `d`, in a state
`s` of a run of public operations (through `Small` states, so that no counter wraps).  In every
later state of the run, whatever copies, aliasing handles and weak handles were made and
destroyed, every `delete_object` on `b` in the log is immediately followed by the call of `d`
on the stored pointer `p`; `delete_object` has run on `b` exactly once if no live shared handle
holds `b` any more, and not at all otherwise.  When `d` is the deleter of this construction
only (exactly one operation of the run passes `d`), the number of calls of `d` on `p` in the
whole log is one if no live shared handle holds `b` any more and zero otherwise, and `d` is
never called on another address. -/
theorem C15_deleter_called_once_on_stored_pointer (ops1 ops2 : List Op) (s s2 : State)
    (hr1 : run State.init ops1 = some s) (hr2 : run s ops2 = some s2)
    (hw : within State.init (ops1 ++ ops2) = true) (b : Nat) (c : control_block) (p : Addr)
    (d : Nat) (hc : s.heap.cells b = some c) (hk : c.kind = .regular p d) :
    followed_by (.delete_object b) (.deleter d p) s2.heap.log ∧
    s2.heap.destroyed b = (if s2.live_shared b = 0 then 1 else 0) ∧
    s2.heap.destroyed b ≤ 1 ∧
    s2.heap.strong_of b = s2.live_shared b ∧
    ((ops1 ++ ops2).countP (fun op => op.uses d) = 1 →
      ∀ p1, s2.heap.log.count (.deleter d p1)
        = if p1 = p then (if s2.live_shared b = 0 then 1 else 0) else 0) := by
  obtain ⟨K, _, hK, _⟩ := KInv.at_start.prims
    (run_prims (U := fun _ => True) (fun _ _ _ _ => trivial) hr1)
  obtain ⟨K2, hagree, hK2, hle⟩ := hK.prims
    (run_prims (U := fun _ => True) (fun _ _ _ _ => trivial) hr2)
  have hlt := hK.lt b c hc
  have hkb : K2 b = .regular p d := by
    rw [hagree b hlt, ← hK.kind b c hc, hk]
  obtain ⟨hI2, _⟩ := reach_inv (run_append hr1 hr2) hw
  have hact := hK2.act b (by omega)
  rw [hkb] at hact
  have hd := hI2.dobj b
  have hlt2 : b < s2.heap.next := by omega
  have hdes : s2.heap.destroyed b = (if s2.live_shared b = 0 then 1 else 0) := by
    rw [hd]
    unfold State.live_shared
    simp [hlt2]
  refine ⟨hact, hdes, ?_, hI2.strong_of b, ?_⟩
  · rw [hd]
    split_ifs <;> omega
  · intro hcnt p1
    rw [(owned_of_unique hr1 hr2 hc hk hcnt).cnt p1, ← hdes]
    rfl

theorem C15_deleter_called_once_on_stored_pointer_witness :
    run State.init [.s_raw 7 1 true] = some (exec [.s_raw 7 1 true]) ∧
    run (exec [.s_raw 7 1 true])
        [.s_alias 0 9, .w_from_shared 1, .s_destroy 0, .s_destroy 1, .w_destroy 0]
      = some (exec [.s_raw 7 1 true, .s_alias 0 9, .w_from_shared 1, .s_destroy 0,
          .s_destroy 1, .w_destroy 0]) ∧
    (exec [.s_raw 7 1 true]).heap.cells 0 = some ⟨1, 1, .regular 7 1⟩ ∧
    (exec [.s_raw 7 1 true, .s_alias 0 9, .w_from_shared 1, .s_destroy 0,
      .s_destroy 1, .w_destroy 0]).heap.log
      = [.delete_object 0, .deleter 1 7, .delete_this 0] ∧
    (exec [.s_raw 7 1 true, .s_alias 0 9, .w_from_shared 1, .s_destroy 0,
      .s_destroy 1, .w_destroy 0]).live_shared 0 = 0 ∧
    (exec [.s_raw 7 1 true, .s_alias 0 9, .w_from_shared 1, .s_destroy 0,
      .s_destroy 1, .w_destroy 0]).heap.log.count (.deleter 1 7)
      = (if (7 : Addr) = 7 then
          (if (exec [.s_raw 7 1 true, .s_alias 0 9, .w_from_shared 1, .s_destroy 0,
            .s_destroy 1, .w_destroy 0]).live_shared 0 = 0 then 1 else 0) else 0) ∧
    (exec [.s_raw 7 1 true, .s_alias 0 9, .w_from_shared 1, .s_destroy 0,
      .s_destroy 1, .w_destroy 0]).heap.log.count (.deleter 1 7) = 1 :=
  ⟨rfl, rfl, rfl, by decide, by decide,
    (C15_deleter_called_once_on_stored_pointer [.s_raw 7 1 true]
      [.s_alias 0 9, .w_from_shared 1, .s_destroy 0, .s_destroy 1, .w_destroy 0]
      (exec [.s_raw 7 1 true])
      (exec [.s_raw 7 1 true, .s_alias 0 9, .w_from_shared 1, .s_destroy 0, .s_destroy 1,
        .w_destroy 0])
      rfl rfl (by decide) 0 ⟨1, 1, .regular 7 1⟩ 7 1 rfl rfl).2.2.2.2 (by decide) 7,
    by decide⟩

end SharedPtr
